import Mathlib

/-!
# Okular tiles manager (`core/tilesmanager.cpp`): a shallow embedding

The tile cache of `core/tilesmanager.cpp` is embedded as pure functions on an
explicit state.

* Coordinates of a `NormalizedRect` are rationals (exact arithmetic in place of
  `double`).  For the claim about what the rotation maps return, the maps are
  given a second time with their subtractions rounded as `double` subtractions
  are (`Double.toRotatedRect`, `Double.fromRotatedRect`).
* The tree of tiles is an inductive type.  The source only ever assigns `0` or
  `4` to `nTiles` (`split` allocates `new Tile[4]`, the merge branch of
  `setPixmap` resets it to `0`), so a tile is either a leaf or a node with four
  children.  The `parent` pointer of a child is always the tile that owns the
  child array (it is only written by `split`), so it is the position in the
  tree; functions that read `tile.parent` receive what they read as an argument.
* The recursions that descend into freshly split tiles (`split`, `setPixmap`,
  `tilesAt`) carry a fuel argument; the public operations supply `Tile.fuel`,
  which bounds the depth the recursion can reach: by `splitAux_fuel_irrel`,
  `setPixmapAux_fuel_irrel` and `tilesAtAux_fuel_irrel` any larger amount of
  fuel gives the same result.
* What comes from outside the file (`TILES_MAXSIZE`, `QPixmap::copy`, `qSort`)
  is a parameter, `Env`; `upstream` is the instance used for concrete inputs.
* The fields `Private::tileSize` and `Private::rankedTiles` are scratch data
  that no operation reads before overwriting; they are not part of the state.
* The product `width()*height()` that the size tests compare with
  `TILES_MAXSIZE` is a product of two `int`s and is computed in 32 bits
  (`wrapInt32`).  The other integer quantities are unbounded integers.
-/

namespace Okular

/-! ## Geometry -/

/-- The value of an `int` expression whose exact value is `x`: the
representative of `x` modulo 2^32 between -2^31 and 2^31 - 1. -/
def wrapInt32 (x : Int) : Int := (x + 2147483648) % 4294967296 - 2147483648

/-- The `QRect` of Qt, as constructed by `QRect(left, top, width, height)`. -/
structure QRect where
  x : Int
  y : Int
  width : Int
  height : Int
deriving DecidableEq, Repr

namespace QRect

/-- The product `tileRect.width()*tileRect.height()` the source compares with
`TILES_MAXSIZE`: a product of two `int`s, computed in 32 bits. -/
def area (r : QRect) : Int := wrapInt32 (r.width * r.height)

/-- The rectangle `r.translated(-p.topLeft())`. -/
def translatedBack (r p : QRect) : QRect :=
  { r with x := r.x - p.x, y := r.y - p.y }

end QRect

/-- The size of a `QPixmap`; the pixel data itself is never inspected by the
tiles manager. -/
structure QPixmap where
  width : Nat
  height : Nat
deriving DecidableEq, Repr

/-- The product `pixmap->width()*pixmap->height()`. -/
def QPixmap.pixels (p : QPixmap) : Int := (p.width : Int) * (p.height : Int)

/-- The conversion `(int)( x )` of the source: truncation toward zero. -/
def truncToInt (q : ℚ) : Int := if 0 ≤ q then ⌊q⌋ else ⌈q⌉

/-- The class `NormalizedRect` of `core/area.h`. -/
structure NormalizedRect where
  left : ℚ
  top : ℚ
  right : ℚ
  bottom : ℚ
deriving DecidableEq

namespace NormalizedRect

/-- The default constructor `NormalizedRect()`. -/
def null : NormalizedRect := ⟨0, 0, 0, 0⟩

/-- Modelled from the spec: `NormalizedRect::isNull` (core/area.cpp is not among
the sources); the empty rectangle is the one with all four coordinates zero. -/
def isNull (a : NormalizedRect) : Bool :=
  decide (a.left = 0 ∧ a.top = 0 ∧ a.right = 0 ∧ a.bottom = 0)

/-- Modelled from the spec: `NormalizedRect::intersects` (core/area.cpp is not
among the sources); rectangles are closed, two rectangles intersect when they
share a point. -/
def intersects (a r : NormalizedRect) : Bool :=
  decide (r.left ≤ a.right ∧ a.left ≤ r.right ∧ r.top ≤ a.bottom ∧ a.top ≤ r.bottom)

/-- Modelled from the spec: `NormalizedRect::operator&` (core/area.cpp is not
among the sources); the intersection, empty when an operand is empty. -/
def inter (a r : NormalizedRect) : NormalizedRect :=
  if a.isNull || r.isNull then null
  else ⟨max a.left r.left, max a.top r.top, min a.right r.right, min a.bottom r.bottom⟩

/-- Modelled from the spec: `NormalizedRect::operator|` (core/area.cpp is not
among the sources); the bounding rectangle of the two operands. -/
def united (a r : NormalizedRect) : NormalizedRect :=
  ⟨min a.left r.left, min a.top r.top, max a.right r.right, max a.bottom r.bottom⟩

/-- Modelled from the spec: `NormalizedRect::geometry` (core/area.cpp is not
among the sources); the integer rectangle of the region on a page of
`xScale` by `yScale` pixels. The spec does not say how the corners are
rounded; they are converted to `int` one by one, and the width and the height
are the differences, so that the tiles of a page share no pixel: the regions
of the sixteen roots of a page of 1000 by 1000 pixels have 250 by 250 pixels
each, as the scenario of the spec requires (`4*1000*1000` bytes for a full
page). -/
def geometry (a : NormalizedRect) (xScale yScale : Int) : QRect :=
  let l := truncToInt (a.left * xScale)
  let t := truncToInt (a.top * yScale)
  let r := truncToInt (a.right * xScale)
  let b := truncToInt (a.bottom * yScale)
  ⟨l, t, r - l, b - t⟩

/-- The test `(tile.rect & rect) == tile.rect` of `setPixmap`: the tile region
lies inside `rect`. -/
def containedIn (a rect : NormalizedRect) : Bool := decide (a.inter rect = a)

/-- A rectangle is well formed when `left <= right` and `top <= bottom`. -/
def WellFormed (a : NormalizedRect) : Prop := a.left ≤ a.right ∧ a.top ≤ a.bottom

/-- The point `(x, y)` lies in the closed rectangle. -/
def Contains (a : NormalizedRect) (x y : ℚ) : Prop :=
  a.left ≤ x ∧ x ≤ a.right ∧ a.top ≤ y ∧ y ≤ a.bottom

/-- The point `(x, y)` lies in the interior of the rectangle. -/
def InInterior (a : NormalizedRect) (x y : ℚ) : Prop :=
  a.left < x ∧ x < a.right ∧ a.top < y ∧ y < a.bottom

/-- The rectangle lies in the unit square (the page). -/
def InUnitSquare (a : NormalizedRect) : Prop :=
  0 ≤ a.left ∧ a.right ≤ 1 ∧ 0 ≤ a.top ∧ a.bottom ≤ 1

end NormalizedRect

/-- The enumeration `Okular::Rotation` of `core/global.h`. -/
inductive Rotation where
  | Rotation0
  | Rotation90
  | Rotation180
  | Rotation270
deriving DecidableEq, Repr

namespace TilesManager

/-- The static function `TilesManager::fromRotatedRect`. -/
def fromRotatedRect (rect : NormalizedRect) (rotation : Rotation) : NormalizedRect :=
  match rotation with
  | .Rotation0 => rect
  | .Rotation90 => ⟨rect.top, 1 - rect.right, rect.bottom, 1 - rect.left⟩
  | .Rotation180 => ⟨1 - rect.right, 1 - rect.bottom, 1 - rect.left, 1 - rect.top⟩
  | .Rotation270 => ⟨1 - rect.bottom, rect.left, 1 - rect.top, rect.right⟩

/-- The static function `TilesManager::toRotatedRect`. -/
def toRotatedRect (rect : NormalizedRect) (rotation : Rotation) : NormalizedRect :=
  match rotation with
  | .Rotation0 => rect
  | .Rotation90 => ⟨1 - rect.bottom, rect.left, 1 - rect.top, rect.right⟩
  | .Rotation180 => ⟨1 - rect.right, 1 - rect.bottom, 1 - rect.left, 1 - rect.top⟩
  | .Rotation270 => ⟨rect.top, 1 - rect.right, rect.bottom, 1 - rect.left⟩

end TilesManager

/-! ## The rotation maps in `double` arithmetic -/

namespace Double

/-- The integer nearest to `q`; the even one of the two when `q` lies halfway
between two integers. -/
def roundHalfEven (q : ℚ) : Int :=
  if q - ⌊q⌋ < 1 / 2 then ⌊q⌋
  else if 1 / 2 < q - ⌊q⌋ then ⌊q⌋ + 1
  else if ⌊q⌋ % 2 = 0 then ⌊q⌋ else ⌊q⌋ + 1

/-- The exponent of the binade of `q`: the `e` with `2^e ≤ |q| < 2^(e+1)`, and
-1022 in the subnormal range. -/
def exponent (q : ℚ) : Int := max (Int.log 2 |q|) (-1022)

/-- The `double` (IEEE 754 binary64) nearest to the real number `q`, ties to
even: the multiple of `2^(e-52)` nearest to `q`, where `e` is the exponent of
`q`. (For `|q|` below `2^1024`; the coordinates of a `NormalizedRect` and
their differences from 1 are far inside that range.) -/
def round (q : ℚ) : ℚ :=
  if q = 0 then 0
  else roundHalfEven (q / 2 ^ (exponent q - 52)) * 2 ^ (exponent q - 52)

/-- The difference `a - b` of two `double`s, as the processor computes it: the
`double` nearest to the exact difference. -/
def sub (a b : ℚ) : ℚ := round (a - b)

/-- A multiple of `2^-53` between 0 and 1. -/
def OnGrid (x : ℚ) : Prop := ∃ m : Nat, m ≤ 2 ^ 53 ∧ x = (m : ℚ) / 2 ^ 53

/-- The static function `TilesManager::fromRotatedRect`, with the subtractions
carried out in `double`, as the source does. -/
def fromRotatedRect (rect : NormalizedRect) (rotation : Rotation) : NormalizedRect :=
  match rotation with
  | .Rotation0 => rect
  | .Rotation90 => ⟨rect.top, sub 1 rect.right, rect.bottom, sub 1 rect.left⟩
  | .Rotation180 => ⟨sub 1 rect.right, sub 1 rect.bottom, sub 1 rect.left, sub 1 rect.top⟩
  | .Rotation270 => ⟨sub 1 rect.bottom, rect.left, sub 1 rect.top, rect.right⟩

/-- The static function `TilesManager::toRotatedRect`, with the subtractions
carried out in `double`, as the source does. -/
def toRotatedRect (rect : NormalizedRect) (rotation : Rotation) : NormalizedRect :=
  match rotation with
  | .Rotation0 => rect
  | .Rotation90 => ⟨sub 1 rect.bottom, rect.left, sub 1 rect.top, rect.right⟩
  | .Rotation180 => ⟨sub 1 rect.right, sub 1 rect.bottom, sub 1 rect.left, sub 1 rect.top⟩
  | .Rotation270 => ⟨rect.top, sub 1 rect.right, rect.bottom, sub 1 rect.left⟩

end Double

/-! ## Tiles -/

/-- The fields of the class `Tile` other than the child array and the `parent`
pointer. `pixmap` is `none` for a null pointer. -/
structure TileData where
  rect : NormalizedRect
  pixmap : Option QPixmap
  dirty : Bool
  miss : Int
deriving DecidableEq

/-- A `Tile` with its child array: `leaf` when `nTiles == 0`, `node` when
`nTiles == 4`. -/
inductive Tile where
  | leaf (d : TileData)
  | node (d : TileData) (t0 t1 t2 t3 : Tile)
deriving DecidableEq

namespace Tile

/-- The tile's own fields. -/
def data : Tile → TileData
  | leaf d => d
  | node d _ _ _ _ => d

/-- The field `rect`. -/
def rect (t : Tile) : NormalizedRect := t.data.rect

/-- The field `pixmap`. -/
def pixmap (t : Tile) : Option QPixmap := t.data.pixmap

/-- The field `dirty`. -/
def dirty (t : Tile) : Bool := t.data.dirty

/-- The field `miss`. -/
def miss (t : Tile) : Int := t.data.miss

/-- The field `nTiles`. -/
def nTiles : Tile → Nat
  | leaf _ => 0
  | node _ _ _ _ _ => 4

/-- Replace the tile's own fields, keeping the children. -/
def setData : Tile → TileData → Tile
  | leaf _, d => leaf d
  | node _ a b c e, d => node d a b c e

/-- A default-constructed tile (`Tile::Tile()`) whose `rect` has been assigned. -/
def fresh (r : NormalizedRect) : Tile := leaf ⟨r, none, true, 0⟩

/-- The method `Tile::isValid`. -/
def isValid (t : Tile) : Bool := t.pixmap.isSome && !t.dirty

/-- The child `tiles[ i ]`, when there is one. -/
def child? : Tile → Nat → Option Tile
  | node _ a _ _ _, 0 => some a
  | node _ _ b _ _, 1 => some b
  | node _ _ _ c _, 2 => some c
  | node _ _ _ _ e, 3 => some e
  | _, _ => none

/-- The tile reached from `t` by following the child indices of `path`. -/
def get? : Tile → List Nat → Option Tile
  | t, [] => some t
  | node _ a _ _ _, 0 :: p => a.get? p
  | node _ _ b _ _, 1 :: p => b.get? p
  | node _ _ _ c _, 2 :: p => c.get? p
  | node _ _ _ _ e, 3 :: p => e.get? p
  | _, _ :: _ => none

/-- The tile and all its descendants, parents before children. -/
def subtiles : Tile → List Tile
  | leaf d => [leaf d]
  | node d a b c e => node d a b c e :: (a.subtiles ++ b.subtiles ++ c.subtiles ++ e.subtiles)

/-- The number of pixels held by the buffers of the tile and its descendants. -/
def bufferPixels : Tile → Int
  | leaf d => (d.pixmap.map QPixmap.pixels).getD 0
  | node d a b c e =>
    (d.pixmap.map QPixmap.pixels).getD 0
      + (a.bufferPixels + b.bufferPixels + c.bufferPixels + e.bufferPixels)

/-- Some tile of the subtree holds a buffer. -/
def holdsBuffer : Tile → Bool
  | leaf d => d.pixmap.isSome
  | node d a b c e =>
    d.pixmap.isSome || a.holdsBuffer || b.holdsBuffer || c.holdsBuffer || e.holdsBuffer

end Tile

/-- A `Tile*` into the forest: the index of a root followed by the child
indices leading to the tile. -/
abbrev TilePtr := List Nat

/-- What the tiles manager takes from outside `tilesmanager.cpp`: the constant
`TILES_MAXSIZE` of `tilesmanager_p.h` (upstream value 2000000), `QPixmap::copy`
and `qSort`. The threshold is at least 5, below which `split` does not
terminate; `qSort` rearranges its input (its comparator,
`rankedTilesLessThan`, is not a strict weak order, so nothing more is known of
the order it produces). -/
structure Env where
  TILES_MAXSIZE : Int
  maxsize_ge : 5 ≤ TILES_MAXSIZE
  copy : QPixmap → QRect → QPixmap
  qSort : (TilePtr → TilePtr → Bool) → List TilePtr → List TilePtr
  qSort_perm : ∀ (lessThan : TilePtr → TilePtr → Bool) (l : List TilePtr),
    (qSort lessThan l).Perm l

/-- The macro `RANGE_MAX`. -/
def RANGE_MAX : Int := 1073741823

/-- The macro `RANGE_MIN`. -/
def RANGE_MIN : Int := -1073741824

/-- The function `qBound( min, val, max )` of Qt: `qMax( min, qMin( max, val ) )`. -/
def qBound (lo val hi : Int) : Int := max lo (min hi val)

/-- The static function `rankedTilesLessThan`. -/
def rankedTilesLessThan (t1 t2 : TileData) : Bool :=
  if xor t1.dirty t2.dirty then decide (t1.miss < t2.miss) else !t1.dirty

/-- The effect of `if ( p ) totalPixels -= p->width()*p->height();`. -/
def dropPixels (totalPixels : Int) (p : Option QPixmap) : Int :=
  match p with
  | some q => totalPixels - q.pixels
  | none => totalPixels

/-- A bound on the number of bisections after which the integer geometry of a
region of this size is at most 2 by 2 pixels, plus one. -/
def splitFuel (width height : Int) (r : NormalizedRect) : Nat :=
  ⌈|(r.right - r.left) * width|⌉₊ + ⌈|(r.bottom - r.top) * height|⌉₊ + 1

/-- The fuel for the recursions over a tile: enough to walk the tree that is
there and to split any of its leaves as far as `split` can. -/
def Tile.fuel (width height : Int) : Tile → Nat
  | .leaf d => splitFuel width height d.rect
  | .node _ a b c e =>
    1 + max (max (a.fuel width height) (b.fuel width height))
          (max (c.fuel width height) (e.fuel width height))

namespace TilesManager.Private

/-- The method `TilesManager::Private::markDirty`. -/
def markDirty : Tile → Tile
  | .leaf d => .leaf { d with dirty := true }
  | .node d a b c e =>
    .node { d with dirty := true } (markDirty a) (markDirty b) (markDirty c) (markDirty e)

/-- The recursion of `TilesManager::Private::split`, with fuel. -/
def splitAux (E : Env) (width height : Int) (rect : NormalizedRect) : Nat → Tile → Tile
  | _, .node d a b c e => .node d a b c e
  | 0, .leaf d => .leaf d
  | n + 1, .leaf d =>
    if rect.isNull || !d.rect.intersects rect then .leaf d
    else if E.TILES_MAXSIZE ≤ (d.rect.geometry width height).area then
      let hCenter := (d.rect.left + d.rect.right) / 2
      let vCenter := (d.rect.top + d.rect.bottom) / 2
      .node d
        (splitAux E width height rect n (Tile.fresh ⟨d.rect.left, d.rect.top, hCenter, vCenter⟩))
        (splitAux E width height rect n (Tile.fresh ⟨hCenter, d.rect.top, d.rect.right, vCenter⟩))
        (splitAux E width height rect n (Tile.fresh ⟨d.rect.left, vCenter, hCenter, d.rect.bottom⟩))
        (splitAux E width height rect n (Tile.fresh ⟨hCenter, vCenter, d.rect.right, d.rect.bottom⟩))
    else .leaf d

/-- The method `TilesManager::Private::split`. -/
def split (E : Env) (width height : Int) (rect : NormalizedRect) (tile : Tile) : Tile :=
  splitAux E width height rect (tile.fuel width height) tile

/-- The loop of the merge branch of `setPixmap` that rebuilds `tile.rect` from
the children: one iteration. -/
def mergeRect (acc child : NormalizedRect) : NormalizedRect :=
  if acc.isNull then child else acc.united child

/-- The recursion of `TilesManager::Private::setPixmap`, with fuel; the counter
`totalPixels` is threaded through. -/
def setPixmapAux (E : Env) (width height : Int) (rotation : Rotation) (pixmap : QPixmap)
    (rect : NormalizedRect) : Nat → Tile → Int → Tile × Int
  | 0, tile, totalPixels => (tile, totalPixels)
  | n + 1, tile, totalPixels =>
    let pixmapRect := (toRotatedRect rect rotation).geometry width height
    if !tile.rect.intersects rect then (tile, totalPixels)
    else if !tile.rect.containedIn rect then
      -- the tile intersects an edge of the viewport
      match tile with
      | .node d a b c e =>
        let ra := setPixmapAux E width height rotation pixmap rect n a totalPixels
        let rb := setPixmapAux E width height rotation pixmap rect n b ra.2
        let rc := setPixmapAux E width height rotation pixmap rect n c rb.2
        let re := setPixmapAux E width height rotation pixmap rect n e rc.2
        (.node { d with pixmap := none } ra.1 rb.1 rc.1 re.1, re.2)
      | .leaf d => (.leaf d, totalPixels)
    else
      match tile with
      | .leaf d =>
        if (d.rect.geometry width height).area < E.TILES_MAXSIZE then
          let newPixmap := E.copy pixmap
            (((toRotatedRect d.rect rotation).geometry width height).translatedBack pixmapRect)
          (.leaf { d with dirty := false, pixmap := some newPixmap },
            dropPixels totalPixels d.pixmap + newPixmap.pixels)
        else
          match split E width height rect (.leaf { d with dirty := false }) with
          | .node d1 a b c e =>
            let ra := setPixmapAux E width height rotation pixmap rect n a totalPixels
            let rb := setPixmapAux E width height rotation pixmap rect n b ra.2
            let rc := setPixmapAux E width height rotation pixmap rect n c rb.2
            let re := setPixmapAux E width height rotation pixmap rect n e rc.2
            (.node { d1 with pixmap := none } ra.1 rb.1 rc.1 re.1, dropPixels re.2 d1.pixmap)
          | .leaf d1 => (.leaf d1, totalPixels)
      | .node d a b c e =>
        if E.TILES_MAXSIZE ≤ (d.rect.geometry width height).area then
          let ra := setPixmapAux E width height rotation pixmap rect n a totalPixels
          let rb := setPixmapAux E width height rotation pixmap rect n b ra.2
          let rc := setPixmapAux E width height rotation pixmap rect n c rb.2
          let re := setPixmapAux E width height rotation pixmap rect n e rc.2
          (.node { d with dirty := false, pixmap := none } ra.1 rb.1 rc.1 re.1,
            dropPixels re.2 d.pixmap)
        else
          -- remove children tiles
          let newRect := mergeRect (mergeRect (mergeRect (mergeRect NormalizedRect.null
            a.rect) b.rect) c.rect) e.rect
          let p4 := dropPixels (dropPixels (dropPixels (dropPixels totalPixels
            a.pixmap) b.pixmap) c.pixmap) e.pixmap
          -- paint tile
          let newPixmap := E.copy pixmap ((newRect.geometry width height).translatedBack pixmapRect)
          (.leaf { rect := newRect, pixmap := some newPixmap, dirty := false, miss := d.miss },
            dropPixels p4 d.pixmap + newPixmap.pixels)

/-- The method `TilesManager::Private::setPixmap`. -/
def setPixmap (E : Env) (width height : Int) (rotation : Rotation) (pixmap : QPixmap)
    (rect : NormalizedRect) (tile : Tile) (totalPixels : Int) : Tile × Int :=
  setPixmapAux E width height rotation pixmap rect (tile.fuel width height) tile totalPixels

/-- The method `TilesManager::Private::hasPixmap`. -/
def hasPixmap (rect : NormalizedRect) : Tile → Bool
  | .leaf d =>
    if !d.rect.intersects rect then true
    else d.pixmap.isSome && !d.dirty
  | .node d a b c e =>
    if !d.rect.intersects rect then true
    else if !d.dirty then true
    else hasPixmap rect a && hasPixmap rect b && hasPixmap rect c && hasPixmap rect e

/-- The copy `newTile` that `tilesAt` appends to its result: the tile with its
region expressed in the current rotation. -/
def snapshot (rotation : Rotation) (tile : Tile) : Tile :=
  if rotation ≠ Rotation.Rotation0 then
    tile.setData { tile.data with rect := toRotatedRect tile.rect rotation }
  else tile

/-- The recursion of `TilesManager::Private::tilesAt`, with fuel; `result` is
the list being appended to. -/
def tilesAtAux (E : Env) (width height : Int) (rotation : Rotation) (rect : NormalizedRect)
    (allowEmpty : Bool) : Nat → Tile → List Tile → Tile × List Tile
  | 0, tile, result => (tile, result)
  | n + 1, tile, result =>
    if !tile.rect.intersects rect then
      (tile.setData { tile.data with miss := min (tile.miss + 1) RANGE_MAX }, result)
    else
      -- split tile (if necessary)
      let tile1 := split E width height rect tile
      if (allowEmpty && tile1.nTiles == 0) || (!allowEmpty && tile1.pixmap.isSome) then
        let tile2 := tile1.setData { tile1.data with miss := max (tile1.miss - 1) RANGE_MIN }
        (tile2, result ++ [snapshot rotation tile2])
      else
        match tile1 with
        | .node d a b c e =>
          let ra := tilesAtAux E width height rotation rect allowEmpty n a result
          let rb := tilesAtAux E width height rotation rect allowEmpty n b ra.2
          let rc := tilesAtAux E width height rotation rect allowEmpty n c rb.2
          let re := tilesAtAux E width height rotation rect allowEmpty n e rc.2
          (.node d ra.1 rb.1 rc.1 re.1, re.2)
        | .leaf d => (.leaf d, result)

/-- The method `TilesManager::Private::tilesAt`. -/
def tilesAt (E : Env) (width height : Int) (rotation : Rotation) (rect : NormalizedRect)
    (allowEmpty : Bool) (tile : Tile) (result : List Tile) : Tile × List Tile :=
  tilesAtAux E width height rotation rect allowEmpty (tile.fuel width height) tile result

/-- The first statement of `rankTiles`: a tile with a parent adds the parent's
`miss` to its own, clamped. -/
def rankMiss (parentMiss : Option Int) (d : TileData) : TileData :=
  match parentMiss with
  | some m => { d with miss := qBound RANGE_MIN (d.miss + m) RANGE_MAX }
  | none => d

/-- The method `TilesManager::Private::rankTiles`. `parentMiss` is
`tile.parent->miss` (`none` for a root), `ptr` is `&tile`, `ranked` is
`rankedTiles`. -/
def rankTiles (parentMiss : Option Int) (ptr : TilePtr) : Tile → List TilePtr →
    Tile × List TilePtr
  | .leaf d, ranked =>
    let d1 := rankMiss parentMiss d
    if d1.pixmap.isSome then (.leaf d1, ranked ++ [ptr]) else (.leaf d1, ranked)
  | .node d a b c e, ranked =>
    let d1 := rankMiss parentMiss d
    if d1.pixmap.isSome then (.node d1 a b c e, ranked ++ [ptr])
    else
      let ra := rankTiles (some d1.miss) (ptr ++ [0]) a ranked
      let rb := rankTiles (some d1.miss) (ptr ++ [1]) b ra.2
      let rc := rankTiles (some d1.miss) (ptr ++ [2]) c rb.2
      let re := rankTiles (some d1.miss) (ptr ++ [3]) e rc.2
      (.node { d1 with miss := 0 } ra.1 rb.1 rc.1 re.1, re.2)

/-- The body of the eviction loop on the tile `path` leads to, together with
`onClearPixmap`: the tile loses its buffer and its `miss`, and going up from
it every ancestor that is not dirty becomes dirty, until one is found that
already is. The flag tells the parent whether the walk up reaches it. -/
def clearAt : List Nat → Tile → Tile × Bool
  | [], t => (t.setData { t.data with miss := 0, pixmap := none }, true)
  | i :: p, .node d a b c e =>
    let r := match i with
      | 0 => let x := clearAt p a; (Tile.node d x.1 b c e, x.2)
      | 1 => let x := clearAt p b; (Tile.node d a x.1 c e, x.2)
      | 2 => let x := clearAt p c; (Tile.node d a b x.1 e, x.2)
      | 3 => let x := clearAt p e; (Tile.node d a b c x.1, x.2)
      | _ => (Tile.node d a b c e, false)
    if r.2 && !d.dirty then (r.1.setData { d with dirty := true }, true) else (r.1, false)
  | _ :: _, .leaf d => (.leaf d, false)

end TilesManager.Private

/-! ## The manager -/

/-- The state of a `TilesManager` (the class `TilesManager::Private`). -/
structure TilesManager where
  tiles : List Tile
  width : Int
  height : Int
  totalPixels : Int
  rotation : Rotation
deriving DecidableEq

namespace TilesManager

/-- The tile a pointer leads to. -/
def tileAt (tiles : List Tile) : TilePtr → Option Tile
  | [] => none
  | i :: p => (tiles.get? i).bind (fun t => t.get? p)

/-- The fields read through a `Tile*`. -/
def deref (tiles : List Tile) (ptr : TilePtr) : TileData :=
  match tileAt tiles ptr with
  | some t => t.data
  | none => ⟨NormalizedRect.null, none, true, 0⟩

/-- The region the constructor gives to root `i`. -/
def rootRect (i : Nat) : NormalizedRect :=
  let x : ℚ := ((i % 4 : Nat) : ℚ)
  let y : ℚ := ((i / 4 : Nat) : ℚ)
  let dim : ℚ := 1 / 4
  ⟨x * dim, y * dim, x * dim + dim, y * dim + dim⟩

/-- The constructor `TilesManager::TilesManager`. -/
def construct (width height : Int) (rotation : Rotation) : TilesManager :=
  { tiles := (List.range 16).map fun i => Tile.fresh (rootRect i)
    width := width
    height := height
    totalPixels := 0
    rotation := rotation }

/-- The method `TilesManager::setWidth`. -/
def setWidth (width : Int) (s : TilesManager) : TilesManager :=
  if width = s.width then s
  else { s with width := width, tiles := s.tiles.map Private.markDirty }

/-- The method `TilesManager::setHeight`. -/
def setHeight (height : Int) (s : TilesManager) : TilesManager :=
  if height = s.height then s
  else { s with height := height }

/-- The method `TilesManager::setRotation`. -/
def setRotation (rotation : Rotation) (s : TilesManager) : TilesManager :=
  if rotation = s.rotation then s
  else { s with rotation := rotation, tiles := s.tiles.map Private.markDirty }

/-- The loop of `TilesManager::setPixmap` over the roots. -/
def setPixmapRoots (E : Env) (width height : Int) (rotation : Rotation) (pixmap : QPixmap)
    (rect : NormalizedRect) : List Tile → Int → List Tile × Int
  | [], totalPixels => ([], totalPixels)
  | t :: ts, totalPixels =>
    let r := Private.setPixmap E width height rotation pixmap rect t totalPixels
    let rs := setPixmapRoots E width height rotation pixmap rect ts r.2
    (r.1 :: rs.1, rs.2)

/-- The method `TilesManager::setPixmap`. -/
def setPixmap (E : Env) (pixmap : QPixmap) (rect : NormalizedRect) (s : TilesManager) :
    TilesManager :=
  let r := setPixmapRoots E s.width s.height s.rotation pixmap
    (fromRotatedRect rect s.rotation) s.tiles s.totalPixels
  { s with tiles := r.1, totalPixels := r.2 }

/-- The method `TilesManager::hasPixmap`. -/
def hasPixmap (rect : NormalizedRect) (s : TilesManager) : Bool :=
  s.tiles.all fun t => Private.hasPixmap (fromRotatedRect rect s.rotation) t

/-- The loop of `TilesManager::tilesAt` over the roots. -/
def tilesAtRoots (E : Env) (width height : Int) (rotation : Rotation) (rect : NormalizedRect)
    (allowEmpty : Bool) : List Tile → List Tile → List Tile × List Tile
  | [], result => ([], result)
  | t :: ts, result =>
    let r := Private.tilesAt E width height rotation rect allowEmpty t result
    let rs := tilesAtRoots E width height rotation rect allowEmpty ts r.2
    (r.1 :: rs.1, rs.2)

/-- The method `TilesManager::tilesAt`: the state it leaves and the list it
returns. -/
def tilesAt (E : Env) (rect : NormalizedRect) (allowEmpty : Bool) (s : TilesManager) :
    TilesManager × List Tile :=
  let r := tilesAtRoots E s.width s.height s.rotation (fromRotatedRect rect s.rotation)
    allowEmpty s.tiles []
  ({ s with tiles := r.1 }, r.2)

/-- The method `TilesManager::totalMemory`. -/
def totalMemory (s : TilesManager) : Int := 4 * s.totalPixels

/-- The ranking loop of `cleanupPixmapMemory` over the roots, from root `i` on. -/
def rankRoots : Nat → List Tile → List TilePtr → List Tile × List TilePtr
  | _, [], ranked => ([], ranked)
  | i, t :: ts, ranked =>
    let r := Private.rankTiles none [i] t ranked
    let rs := rankRoots (i + 1) ts r.2
    (r.1 :: rs.1, rs.2)

/-- The effect of the eviction loop body on the forest: `clearAt` in the root
the pointer names. -/
def clearTile (tiles : List Tile) : TilePtr → List Tile
  | [] => tiles
  | i :: p =>
    match tiles.get? i with
    | some t => tiles.set i (Private.clearAt p t).1
    | none => tiles

/-- The buffer of the tile a pointer leads to (`tile->pixmap`). -/
def pixmapAt (tiles : List Tile) (ptr : TilePtr) : Option QPixmap :=
  (tileAt tiles ptr).bind Tile.pixmap

/-- The body of the eviction loop for a tile that holds a buffer: the buffer
is discarded and its pixels leave the counter. A tile without buffer is
skipped (`continue`). -/
def discard (s : TilesManager) (ptr : TilePtr) : TilesManager :=
  match pixmapAt s.tiles ptr with
  | none => s
  | some p =>
    { s with totalPixels := s.totalPixels - ((p.width * p.height : Nat) : Int)
             tiles := clearTile s.tiles ptr }

/-- The `while` loop of `cleanupPixmapMemory`. `order` is `rankedTiles` from
its last element to its first, so that `takeLast` takes the head. -/
def evictLoop : Nat → List TilePtr → TilesManager → TilesManager
  | _, [], s => s
  | numberOfBytes, ptr :: order, s =>
    if numberOfBytes = 0 then s
    else
      match pixmapAt s.tiles ptr with
      | none => evictLoop numberOfBytes order s
      | some p =>
        let pixels : Nat := p.width * p.height
        evictLoop (if numberOfBytes < 4 * pixels then 0 else numberOfBytes - 4 * pixels) order
          (discard s ptr)

/-- The order in which `cleanupPixmapMemory` takes the candidates: the sorted
`rankedTiles`, last element first. -/
def evictionOrder (E : Env) (s : TilesManager) : List TilePtr :=
  let r := rankRoots 0 s.tiles []
  (E.qSort (fun p q => rankedTilesLessThan (deref r.1 p) (deref r.1 q)) r.2).reverse

/-- The state after the ranking pass of `cleanupPixmapMemory`. -/
def ranked (s : TilesManager) : TilesManager :=
  { s with tiles := (rankRoots 0 s.tiles []).1 }

/-- The method `TilesManager::cleanupPixmapMemory`. -/
def cleanupPixmapMemory (E : Env) (numberOfBytes : Nat) (s : TilesManager) : TilesManager :=
  evictLoop numberOfBytes (evictionOrder E s) (ranked s)

/-- The number of pixels held by the buffers of all tiles reachable from the
roots. -/
def bufferPixels (s : TilesManager) : Int := (s.tiles.map Tile.bufferPixels).sum

end TilesManager

/-- The states a `TilesManager` can be in: the constructor's, and those the
public operations lead to. -/
inductive Reachable (E : Env) : TilesManager → Prop
  | construct (width height : Int) (rotation : Rotation) :
      Reachable E (TilesManager.construct width height rotation)
  | setWidth (width : Int) {s : TilesManager} :
      Reachable E s → Reachable E (s.setWidth width)
  | setHeight (height : Int) {s : TilesManager} :
      Reachable E s → Reachable E (s.setHeight height)
  | setRotation (rotation : Rotation) {s : TilesManager} :
      Reachable E s → Reachable E (s.setRotation rotation)
  | setPixmap (pixmap : QPixmap) (rect : NormalizedRect) {s : TilesManager} :
      Reachable E s → Reachable E (s.setPixmap E pixmap rect)
  | tilesAt (rect : NormalizedRect) (allowEmpty : Bool) {s : TilesManager} :
      Reachable E s → Reachable E (s.tilesAt E rect allowEmpty).1
  | cleanupPixmapMemory (numberOfBytes : Nat) {s : TilesManager} :
      Reachable E s → Reachable E (s.cleanupPixmapMemory E numberOfBytes)

/-! ## Invariants of the tree -/

/-- The regions of a tree are well formed: every region has a non-empty
interior and the children of a node have the four quadrants of its region. -/
def Tile.Wf : Tile → Prop
  | .leaf d => d.rect.left < d.rect.right ∧ d.rect.top < d.rect.bottom
  | .node d a b c e =>
    d.rect.left < d.rect.right ∧ d.rect.top < d.rect.bottom ∧
    a.rect = ⟨d.rect.left, d.rect.top,
      (d.rect.left + d.rect.right) / 2, (d.rect.top + d.rect.bottom) / 2⟩ ∧
    b.rect = ⟨(d.rect.left + d.rect.right) / 2, d.rect.top,
      d.rect.right, (d.rect.top + d.rect.bottom) / 2⟩ ∧
    c.rect = ⟨d.rect.left, (d.rect.top + d.rect.bottom) / 2,
      (d.rect.left + d.rect.right) / 2, d.rect.bottom⟩ ∧
    e.rect = ⟨(d.rect.left + d.rect.right) / 2, (d.rect.top + d.rect.bottom) / 2,
      d.rect.right, d.rect.bottom⟩ ∧
    a.Wf ∧ b.Wf ∧ c.Wf ∧ e.Wf

/-- No buffer below a buffer: a tile that holds a buffer has no descendant
that holds one. -/
def Tile.BufOk : Tile → Prop
  | .leaf _ => True
  | .node d a b c e =>
    (d.pixmap.isSome →
      a.holdsBuffer = false ∧ b.holdsBuffer = false ∧ c.holdsBuffer = false ∧
        e.holdsBuffer = false) ∧
    a.BufOk ∧ b.BufOk ∧ c.BufOk ∧ e.BufOk

/-- What holds of root `i` in every reachable state: it covers the region the
constructor gave it, its tree is well formed, and no buffer lies below a
buffer. -/
def Tile.RootOk (t : Tile) (i : Nat) : Prop :=
  t.rect = TilesManager.rootRect i ∧ t.Wf ∧ t.BufOk

/-- The invariant of the forest: the sixteen roots are `RootOk`. -/
def TilesManager.Inv (s : TilesManager) : Prop :=
  List.Forall₂ Tile.RootOk s.tiles (List.range 16)

/-- The tree `t'` has the shape and the regions of `t`, and every buffer it
holds is held by `t` at the same place. -/
def Tile.Sub : Tile → Tile → Prop
  | .leaf d', .leaf d => d'.rect = d.rect ∧ (d'.pixmap = none ∨ d'.pixmap = d.pixmap)
  | .node d' a' b' c' e', .node d a b c e =>
    d'.rect = d.rect ∧ (d'.pixmap = none ∨ d'.pixmap = d.pixmap) ∧
    Tile.Sub a' a ∧ Tile.Sub b' b ∧ Tile.Sub c' c ∧ Tile.Sub e' e
  | _, _ => False

/-- The paths, from the tile, to the buffer-holding tiles that `rankTiles`
lists: it does not look below a tile that holds a buffer. -/
def Tile.candidates : Tile → List (List Nat)
  | .leaf d => if d.pixmap.isSome then [[]] else []
  | .node d a b c e =>
    if d.pixmap.isSome then [[]]
    else a.candidates.map (0 :: ·) ++ b.candidates.map (1 :: ·) ++
      c.candidates.map (2 :: ·) ++ e.candidates.map (3 :: ·)

/-! ## A concrete environment -/

/-- Qt's `QPixmap::copy( rect )`: a null pixmap copies to a null pixmap, an
empty rectangle stands for the whole pixmap, and any other rectangle is clipped
to the pixmap. -/
def qtCopy (p : QPixmap) (r : QRect) : QPixmap :=
  if p.width = 0 ∨ p.height = 0 then ⟨0, 0⟩
  else if r.width ≤ 0 ∨ r.height ≤ 0 then p
  else
    let w := min (p.width : Int) (r.x + r.width) - max 0 r.x
    let h := min (p.height : Int) (r.y + r.height) - max 0 r.y
    if w ≤ 0 ∨ h ≤ 0 then ⟨0, 0⟩ else ⟨w.toNat, h.toNat⟩

/-- The environment of the upstream build: `TILES_MAXSIZE` is 2000000,
pixmaps are copied as Qt does, and `qSort` is an insertion sort driven by the
comparator (on two elements it makes the one comparison and swap that Qt's
`qSort` makes). -/
def upstream : Env where
  TILES_MAXSIZE := 2000000
  maxsize_ge := by decide
  copy := qtCopy
  qSort := fun lessThan l => l.insertionSort (fun a b => lessThan b a = false)
  qSort_perm := fun _ l => List.perm_insertionSort _ l

/-! ## States used as concrete inputs -/

/-- A page of 1000 by 1000 pixels at rotation 0 whose root 0 has been given a
buffer: `construct(1000, 1000, Rotation0)` followed by
`setPixmap(buffer, [0, 0, 1/4, 1/4])` with a buffer of 1000 by 1000 pixels. -/
def rootZeroFilled : TilesManager :=
  (TilesManager.construct 1000 1000 .Rotation0).setPixmap upstream ⟨1000, 1000⟩
    ⟨0, 0, 1 / 4, 1 / 4⟩

/-- From `rootZeroFilled`: `setWidth(100000)`, which makes root 0 large enough
to be split, then `tilesAt([0, 0, 1/10, 1/10], true)`, which splits it while it
still holds its buffer. -/
def rootZeroSplit : TilesManager :=
  ((rootZeroFilled.setWidth 100000).tilesAt upstream ⟨0, 0, 1 / 10, 1 / 10⟩ true).1

/-- From `rootZeroSplit`: `setPixmap(buffer, [0, 0, 1/5, 1/5])`, a region that
overlaps root 0 without containing it. -/
def overlapOverSplit : TilesManager :=
  rootZeroSplit.setPixmap upstream ⟨20000, 200⟩ ⟨0, 0, 1 / 5, 1 / 5⟩

/-- As `overlapOverSplit`, with `setHeight(100000)` in place of
`setWidth(100000)`: root 0 stays clean while it is split. -/
def cleanParentOfEmptyTiles : TilesManager :=
  (((rootZeroFilled.setHeight 100000).tilesAt upstream ⟨0, 0, 1 / 10, 1 / 10⟩ true).1).setPixmap
    upstream ⟨200, 20000⟩ ⟨0, 0, 1 / 5, 1 / 5⟩

/-- Two buffers, root 0 dirty and seldom missed, root 15 clean and often
missed: from `rootZeroFilled`, `setWidth(2000)` (root 0 becomes dirty),
`setPixmap(buffer, [3/4, 3/4, 1, 1])` (root 15 gets a clean buffer) and
`tilesAt([0, 0, 1/10, 1/10], false)` (root 0 is served, root 15 is missed). -/
def dirtyServedCleanMissed : TilesManager :=
  ((((rootZeroFilled.setWidth 2000).setPixmap upstream ⟨500, 250⟩ ⟨3 / 4, 3 / 4, 1, 1⟩).tilesAt
    upstream ⟨0, 0, 1 / 10, 1 / 10⟩ false)).1

/-- Two clean buffers, root 0 served and root 15 missed: from `rootZeroFilled`,
`setPixmap(buffer, [3/4, 3/4, 1, 1])` and `tilesAt([0, 0, 1/10, 1/10], false)`. -/
def cleanServedCleanMissed : TilesManager :=
  (((rootZeroFilled.setPixmap upstream ⟨250, 250⟩ ⟨3 / 4, 3 / 4, 1, 1⟩).tilesAt
    upstream ⟨0, 0, 1 / 10, 1 / 10⟩ false)).1

/-- All tiles of the forest. -/
def TilesManager.allTiles (s : TilesManager) : List Tile :=
  s.tiles.flatMap Tile.subtiles

/-- The buffer of the tile a path leads to, from a tile. -/
def Tile.pixmapAt (t : Tile) (path : List Nat) : Option QPixmap :=
  (t.get? path).bind Tile.pixmap

/-- The pointers `rankTiles` appends to `rankedTiles` for the roots `ts`, the
first of which is root `k`. -/
def TilesManager.forestCandidates : Nat → List Tile → List TilePtr
  | _, [] => []
  | k, t :: ts => t.candidates.map (k :: ·) ++ forestCandidates (k + 1) ts

/-- No point lies in the interior of both rectangles. -/
def NormalizedRect.InteriorDisjoint (a b : NormalizedRect) : Prop :=
  ∀ x y : ℚ, ¬ (a.InInterior x y ∧ b.InInterior x y)

/-- The rectangle `a` lies inside the rectangle `b`. -/
def NormalizedRect.Within (a b : NormalizedRect) : Prop :=
  b.left ≤ a.left ∧ a.right ≤ b.right ∧ b.top ≤ a.top ∧ a.bottom ≤ b.bottom

/-- The point of the unrotated page that is shown at `(x, y)` when the page is
displayed with the given rotation: the map on points that `fromRotatedRect`
is on rectangles. -/
def naturalPoint (rotation : Rotation) (x y : ℚ) : ℚ × ℚ :=
  match rotation with
  | .Rotation0 => (x, y)
  | .Rotation90 => (y, 1 - x)
  | .Rotation180 => (1 - x, 1 - y)
  | .Rotation270 => (1 - y, x)

/-- The `miss` counter of every tile of the tree lies between `RANGE_MIN` and
`RANGE_MAX`. -/
def Tile.MissOk : Tile → Prop
  | .leaf d => RANGE_MIN ≤ d.miss ∧ d.miss ≤ RANGE_MAX
  | .node d a b c e =>
    (RANGE_MIN ≤ d.miss ∧ d.miss ≤ RANGE_MAX) ∧ a.MissOk ∧ b.MissOk ∧ c.MissOk ∧ e.MissOk

/-- The scenario of the spec: `construct(1000, 1000, Rotation0)` followed by
`setPixmap(buffer, [0, 0, 1, 1])` with a buffer of 1000 by 1000 pixels. -/
def fullPageFilled : TilesManager :=
  (TilesManager.construct 1000 1000 .Rotation0).setPixmap upstream ⟨1000, 1000⟩ ⟨0, 0, 1, 1⟩

/-- A clean root over a dirty child over a clean buffer: from `rootZeroFilled`,
`setHeight(200000)` (root 0 stays clean), `tilesAt([0, 0, 1/10, 1/10], true)`
(root 0 and its first child are split; the new tiles are dirty) and
`setPixmap(buffer, [0, 0, 1/16, 1/16])` (the first grandchild gets a buffer). -/
def cleanRootDirtyChild : TilesManager :=
  (((rootZeroFilled.setHeight 200000).tilesAt upstream ⟨0, 0, 1 / 10, 1 / 10⟩ true).1).setPixmap
    upstream ⟨62, 12500⟩ ⟨0, 0, 1 / 16, 1 / 16⟩

/-- The runs of `TilesManager::Private::split` that return: `SplitsTo E w h rect
tile tile1` says that `split( tile, rect )` returns and leaves `tile1` in
place of `tile`. There is one rule for each path through the body; the rule
`divide` has the four recursive calls as premises. -/
inductive SplitsTo (E : Env) (width height : Int) (rect : NormalizedRect) : Tile → Tile → Prop
  | hasChildren (d : TileData) (a b c e : Tile) :
      SplitsTo E width height rect (.node d a b c e) (.node d a b c e)
  | outside (d : TileData) :
      (rect.isNull || !d.rect.intersects rect) = true →
      SplitsTo E width height rect (.leaf d) (.leaf d)
  | small (d : TileData) :
      (rect.isNull || !d.rect.intersects rect) = false →
      (d.rect.geometry width height).area < E.TILES_MAXSIZE →
      SplitsTo E width height rect (.leaf d) (.leaf d)
  | divide (d : TileData) (a b c e : Tile) :
      (rect.isNull || !d.rect.intersects rect) = false →
      E.TILES_MAXSIZE ≤ (d.rect.geometry width height).area →
      SplitsTo E width height rect
        (Tile.fresh ⟨d.rect.left, d.rect.top, (d.rect.left + d.rect.right) / 2,
          (d.rect.top + d.rect.bottom) / 2⟩) a →
      SplitsTo E width height rect
        (Tile.fresh ⟨(d.rect.left + d.rect.right) / 2, d.rect.top, d.rect.right,
          (d.rect.top + d.rect.bottom) / 2⟩) b →
      SplitsTo E width height rect
        (Tile.fresh ⟨d.rect.left, (d.rect.top + d.rect.bottom) / 2,
          (d.rect.left + d.rect.right) / 2, d.rect.bottom⟩) c →
      SplitsTo E width height rect
        (Tile.fresh ⟨(d.rect.left + d.rect.right) / 2, (d.rect.top + d.rect.bottom) / 2,
          d.rect.right, d.rect.bottom⟩) e →
      SplitsTo E width height rect (.leaf d) (.node d a b c e)

/-- A page of 16000 by 16000 pixels at rotation 0 on which `tilesAt` has split
root 0 and its first child, the first grandchild has been given a buffer of
1000 by 1000 pixels, and the page has then been resized to 1000 by 1000 pixels:
`construct(16000, 16000, Rotation0)`, `tilesAt([0, 0, 1/16, 1/16], true)`,
`setPixmap(buffer, [0, 0, 1/16, 1/16])`, `setWidth(1000)`, `setHeight(1000)`. -/
def grandchildFilledShrunk : TilesManager :=
  (((((TilesManager.construct 16000 16000 .Rotation0).tilesAt upstream
    ⟨0, 0, 1 / 16, 1 / 16⟩ true).1).setPixmap upstream ⟨1000, 1000⟩
      ⟨0, 0, 1 / 16, 1 / 16⟩).setWidth 1000).setHeight 1000

/-- A page of 1000 by 1000 pixels whose root 0 holds a buffer and which has then
been widened to 100000 pixels: `rootZeroFilled`, then `setWidth(100000)`. -/
def rootZeroFilledWidened : TilesManager := rootZeroFilled.setWidth 100000

/-- A page of 200000 by 200000 pixels at rotation 0 whose root 0 has been given
a buffer: `construct(200000, 200000, Rotation0)` followed by
`setPixmap(buffer, [0, 0, 1/4, 1/4])` with a buffer of 50000 by 50000 pixels. -/
def hugePageFilled : TilesManager :=
  (TilesManager.construct 200000 200000 .Rotation0).setPixmap upstream ⟨50000, 50000⟩
    ⟨0, 0, 1 / 4, 1 / 4⟩

/-! ## Theorems -/

open TilesManager TilesManager.Private

/-! ### Rotation mapping -/

/-- C1: for each of the four rotations and every rectangle, `fromRotatedRect`
and `toRotatedRect` are mutually inverse, field by field. -/
theorem rotation_round_trip (r : NormalizedRect) (rot : Rotation) :
    TilesManager.fromRotatedRect (TilesManager.toRotatedRect r rot) rot = r ∧
    TilesManager.toRotatedRect (TilesManager.fromRotatedRect r rot) rot = r := by
  cases rot <;> simp [TilesManager.fromRotatedRect, TilesManager.toRotatedRect]

/-! ### Fuel: the recursion of `split` is bounded -/



theorem truncToInt_sub_abs_lt (a b : ℚ) : |((truncToInt a - truncToInt b : Int) : ℚ)| < |a - b| + 1 := by
  unfold truncToInt
  have h1 := Int.floor_le a
  have h2 := Int.lt_floor_add_one a
  have h3 := Int.floor_le b
  have h4 := Int.lt_floor_add_one b
  have h5 := Int.le_ceil a
  have h6 := Int.ceil_lt_add_one a
  have h7 := Int.le_ceil b
  have h8 := Int.ceil_lt_add_one b
  rw [abs_lt]
  split_ifs with ha hb hb
  · push_cast
    constructor
    · have := neg_abs_le (a - b); linarith
    · have := le_abs_self (a - b); linarith
  · rw [not_le] at hb
    have hc : (⌈b⌉ : ℚ) ≤ 0 := by exact_mod_cast Int.ceil_le.mpr (by simpa using hb.le)
    have hf : (0 : ℚ) ≤ ⌊a⌋ := by exact_mod_cast Int.floor_nonneg.mpr ha
    push_cast
    constructor
    · have := neg_abs_le (a - b); have := abs_nonneg (a - b); linarith
    · have := le_abs_self (a - b); linarith
  · rw [not_le] at ha
    have hc : (⌈a⌉ : ℚ) ≤ 0 := by exact_mod_cast Int.ceil_le.mpr (by simpa using ha.le)
    have hf : (0 : ℚ) ≤ ⌊b⌋ := by exact_mod_cast Int.floor_nonneg.mpr hb
    push_cast
    constructor
    · have := neg_abs_le (a - b); linarith
    · have := le_abs_self (a - b); have := abs_nonneg (a - b); linarith
  · push_cast
    constructor
    · have := neg_abs_le (a - b); linarith
    · have := le_abs_self (a - b); linarith

theorem geometry_side_le (l r : ℚ) (w : Int) (h : |(r - l) * w| ≤ 1) :
    |truncToInt (r * w) - truncToInt (l * w)| ≤ 2 := by
  have h1 := truncToInt_sub_abs_lt (r * w) (l * w)
  have h2 : r * w - l * w = (r - l) * w := by ring
  rw [h2] at h1
  have h3 : |((truncToInt (r * w) - truncToInt (l * w) : Int) : ℚ)| < 2 := by linarith
  have h4 : |(truncToInt (r * w) - truncToInt (l * w) : Int)| < 2 := by
    have : ((|(truncToInt (r * w) - truncToInt (l * w) : Int)| : Int) : ℚ) < ((2 : Int) : ℚ) := by
      push_cast; push_cast at h3; exact h3
    exact_mod_cast this
  exact h4.le

theorem wrapInt32_of_small (x : Int) (h1 : -2147483648 ≤ x) (h2 : x < 2147483648) :
    wrapInt32 x = x := by
  unfold wrapInt32
  omega

theorem geometry_area_le (a : NormalizedRect) (w h : Int)
    (hx : |(a.right - a.left) * w| ≤ 1) (hy : |(a.bottom - a.top) * h| ≤ 1) :
    (a.geometry w h).area ≤ 4 := by
  have h1 := geometry_side_le a.left a.right w hx
  have h2 := geometry_side_le a.top a.bottom h hy
  simp only [NormalizedRect.geometry, QRect.area]
  have h0 := abs_mul (truncToInt (a.right * w) - truncToInt (a.left * w))
    (truncToInt (a.bottom * h) - truncToInt (a.top * h))
  have h3 := le_abs_self ((truncToInt (a.right * w) - truncToInt (a.left * w)) *
    (truncToInt (a.bottom * h) - truncToInt (a.top * h)))
  have h5 := neg_abs_le ((truncToInt (a.right * w) - truncToInt (a.left * w)) *
    (truncToInt (a.bottom * h) - truncToInt (a.top * h)))
  have h4 := mul_le_mul h1 h2 (abs_nonneg _) (by norm_num)
  rw [wrapInt32_of_small _ (by linarith) (by linarith)]
  linarith

theorem natCeil_half_le (x : ℚ) (hx : 0 ≤ x) : ⌈x / 2⌉₊ ≤ ⌈x⌉₊ :=
  Nat.ceil_mono (by linarith)

theorem natCeil_half_lt (x : ℚ) (hx : 1 < x) : ⌈x / 2⌉₊ < ⌈x⌉₊ := by
  rw [Nat.lt_ceil]
  by_cases h2 : 2 ≤ x
  · have := Nat.ceil_lt_add_one (show (0 : ℚ) ≤ x / 2 by linarith)
    linarith
  · rw [not_le] at h2
    have h3 : ⌈x / 2⌉₊ ≤ 1 := by
      rw [Nat.ceil_le]; push_cast; linarith
    have : ((⌈x / 2⌉₊ : ℕ) : ℚ) ≤ 1 := by exact_mod_cast h3
    linarith

/-- When a region is large enough for `split` to divide it, a region with half
its width and half its height needs less fuel. -/
theorem splitFuel_half_lt (E : Env) (w h : Int) (r q : NormalizedRect)
    (hbig : E.TILES_MAXSIZE ≤ (r.geometry w h).area)
    (hx : q.right - q.left = (r.right - r.left) / 2)
    (hy : q.bottom - q.top = (r.bottom - r.top) / 2) :
    splitFuel w h q < splitFuel w h r := by
  have hge := E.maxsize_ge
  have hnot : ¬ (|(r.right - r.left) * w| ≤ 1 ∧ |(r.bottom - r.top) * h| ≤ 1) := by
    rintro ⟨h1, h2⟩
    have := geometry_area_le r w h h1 h2
    omega
  unfold splitFuel
  rw [hx, hy]
  have e1 : |(r.right - r.left) / 2 * (w : ℚ)| = |(r.right - r.left) * w| / 2 := by
    rw [div_mul_eq_mul_div, abs_div]; norm_num
  have e2 : |(r.bottom - r.top) / 2 * (h : ℚ)| = |(r.bottom - r.top) * h| / 2 := by
    rw [div_mul_eq_mul_div, abs_div]; norm_num
  rw [e1, e2]
  have a1 := natCeil_half_le _ (abs_nonneg ((r.right - r.left) * (w : ℚ)))
  have a2 := natCeil_half_le _ (abs_nonneg ((r.bottom - r.top) * (h : ℚ)))
  by_cases c1 : |(r.right - r.left) * (w : ℚ)| ≤ 1
  · have c2 : 1 < |(r.bottom - r.top) * (h : ℚ)| := by
      by_contra hc; exact hnot ⟨c1, not_lt.mp hc⟩
    have := natCeil_half_lt _ c2
    omega
  · have := natCeil_half_lt _ (not_le.mp c1)
    omega

theorem fuel_pos (w h : Int) (t : Tile) : 0 < t.fuel w h := by
  cases t <;> simp [Tile.fuel, splitFuel]

theorem fuel_fresh (w h : Int) (r : NormalizedRect) : (Tile.fresh r).fuel w h = splitFuel w h r := rfl

/-- Splitting never raises the fuel a tile needs. -/
theorem fuel_splitAux_le (E : Env) (w h : Int) (rect : NormalizedRect) (n : Nat) (t : Tile) :
    (splitAux E w h rect n t).fuel w h ≤ t.fuel w h := by
  induction n generalizing t with
  | zero => cases t <;> simp [splitAux]
  | succ n ih =>
    cases t with
    | node d a b c e => simp [splitAux]
    | leaf d =>
      simp only [splitAux]
      split_ifs with h1 h2
      · exact le_refl _
      · have q1 := splitFuel_half_lt E w h d.rect
          ⟨d.rect.left, d.rect.top, (d.rect.left + d.rect.right) / 2, (d.rect.top + d.rect.bottom) / 2⟩
          h2 (by simp; ring) (by simp; ring)
        have q2 := splitFuel_half_lt E w h d.rect
          ⟨(d.rect.left + d.rect.right) / 2, d.rect.top, d.rect.right, (d.rect.top + d.rect.bottom) / 2⟩
          h2 (by simp; ring) (by simp; ring)
        have q3 := splitFuel_half_lt E w h d.rect
          ⟨d.rect.left, (d.rect.top + d.rect.bottom) / 2, (d.rect.left + d.rect.right) / 2, d.rect.bottom⟩
          h2 (by simp; ring) (by simp; ring)
        have q4 := splitFuel_half_lt E w h d.rect
          ⟨(d.rect.left + d.rect.right) / 2, (d.rect.top + d.rect.bottom) / 2, d.rect.right, d.rect.bottom⟩
          h2 (by simp; ring) (by simp; ring)
        have i1 := ih (Tile.fresh ⟨d.rect.left, d.rect.top, (d.rect.left + d.rect.right) / 2, (d.rect.top + d.rect.bottom) / 2⟩)
        have i2 := ih (Tile.fresh ⟨(d.rect.left + d.rect.right) / 2, d.rect.top, d.rect.right, (d.rect.top + d.rect.bottom) / 2⟩)
        have i3 := ih (Tile.fresh ⟨d.rect.left, (d.rect.top + d.rect.bottom) / 2, (d.rect.left + d.rect.right) / 2, d.rect.bottom⟩)
        have i4 := ih (Tile.fresh ⟨(d.rect.left + d.rect.right) / 2, (d.rect.top + d.rect.bottom) / 2, d.rect.right, d.rect.bottom⟩)
        rw [fuel_fresh] at i1 i2 i3 i4
        simp only [Tile.fuel]
        omega
      · exact le_refl _

/-- With at least `Tile.fuel` fuel the recursion of `split` never runs out:
any two such amounts give the same tree. -/
theorem splitAux_fuel_irrel (E : Env) (w h : Int) (rect : NormalizedRect) (n m : Nat) (t : Tile)
    (hn : t.fuel w h ≤ n) (hm : t.fuel w h ≤ m) :
    splitAux E w h rect n t = splitAux E w h rect m t := by
  induction n generalizing m t with
  | zero => have := fuel_pos w h t; omega
  | succ n ih =>
    cases m with
    | zero => have := fuel_pos w h t; omega
    | succ m =>
      cases t with
      | node d a b c e => simp [splitAux]
      | leaf d =>
        simp only [splitAux]
        split_ifs with h1 h2
        · rfl
        · have q1 := splitFuel_half_lt E w h d.rect
            ⟨d.rect.left, d.rect.top, (d.rect.left + d.rect.right) / 2, (d.rect.top + d.rect.bottom) / 2⟩
            h2 (by simp; ring) (by simp; ring)
          have q2 := splitFuel_half_lt E w h d.rect
            ⟨(d.rect.left + d.rect.right) / 2, d.rect.top, d.rect.right, (d.rect.top + d.rect.bottom) / 2⟩
            h2 (by simp; ring) (by simp; ring)
          have q3 := splitFuel_half_lt E w h d.rect
            ⟨d.rect.left, (d.rect.top + d.rect.bottom) / 2, (d.rect.left + d.rect.right) / 2, d.rect.bottom⟩
            h2 (by simp; ring) (by simp; ring)
          have q4 := splitFuel_half_lt E w h d.rect
            ⟨(d.rect.left + d.rect.right) / 2, (d.rect.top + d.rect.bottom) / 2, d.rect.right, d.rect.bottom⟩
            h2 (by simp; ring) (by simp; ring)
          simp only [Tile.fuel] at hn hm
          rw [ih m (Tile.fresh _) (by rw [fuel_fresh]; omega) (by rw [fuel_fresh]; omega),
            ih m (Tile.fresh ⟨(d.rect.left + d.rect.right) / 2, d.rect.top, d.rect.right, (d.rect.top + d.rect.bottom) / 2⟩) (by rw [fuel_fresh]; omega) (by rw [fuel_fresh]; omega),
            ih m (Tile.fresh ⟨d.rect.left, (d.rect.top + d.rect.bottom) / 2, (d.rect.left + d.rect.right) / 2, d.rect.bottom⟩) (by rw [fuel_fresh]; omega) (by rw [fuel_fresh]; omega),
            ih m (Tile.fresh ⟨(d.rect.left + d.rect.right) / 2, (d.rect.top + d.rect.bottom) / 2, d.rect.right, d.rect.bottom⟩) (by rw [fuel_fresh]; omega) (by rw [fuel_fresh]; omega)]
        · rfl

/-! ### What `split` does to a tile -/

@[simp] theorem Tile.rect_fresh (r : NormalizedRect) : (Tile.fresh r).rect = r := rfl

@[simp] theorem Tile.data_setData (t : Tile) (d : TileData) : (t.setData d).data = d := by
  cases t <;> rfl

theorem splitAux_data (E : Env) (w h : Int) (rect : NormalizedRect) (n : Nat) (t : Tile) :
    (splitAux E w h rect n t).data = t.data := by
  cases n with
  | zero => cases t <;> simp [splitAux]
  | succ n =>
    cases t with
    | node d a b c e => simp [splitAux]
    | leaf d =>
      simp only [splitAux]
      split_ifs <;> rfl

theorem splitAux_rect (E : Env) (w h : Int) (rect : NormalizedRect) (n : Nat) (t : Tile) :
    (splitAux E w h rect n t).rect = t.rect := by
  simp [Tile.rect, splitAux_data]

theorem splitAux_wf (E : Env) (w h : Int) (rect : NormalizedRect) (n : Nat) (t : Tile)
    (ht : t.Wf) : (splitAux E w h rect n t).Wf := by
  induction n generalizing t with
  | zero => cases t <;> simpa [splitAux] using ht
  | succ n ih =>
    cases t with
    | node d a b c e => simpa [splitAux] using ht
    | leaf d =>
      simp only [splitAux]
      simp only [Tile.Wf] at ht
      obtain ⟨hx, hy⟩ := ht
      split_ifs with h1 h2
      · exact ⟨hx, hy⟩
      · simp only [Tile.Wf, splitAux_rect, Tile.rect_fresh, true_and]
        refine ⟨hx, hy, ih _ ?_, ih _ ?_, ih _ ?_, ih _ ?_⟩ <;>
          (simp only [Tile.fresh, Tile.Wf]; constructor <;> linarith)
      · exact ⟨hx, hy⟩

theorem splitAux_fresh_holdsBuffer (E : Env) (w h : Int) (rect : NormalizedRect) (n : Nat)
    (r : NormalizedRect) : (splitAux E w h rect n (Tile.fresh r)).holdsBuffer = false := by
  induction n generalizing r with
  | zero => rfl
  | succ n ih =>
    simp only [splitAux, Tile.fresh]
    split_ifs
    · rfl
    · simp only [Tile.holdsBuffer, Option.isSome_none, Bool.false_or]
      have := fun r => ih r
      simp only [Tile.fresh] at this
      simp [this]
    · rfl

theorem splitAux_holdsBuffer (E : Env) (w h : Int) (rect : NormalizedRect) (n : Nat) (t : Tile) :
    (splitAux E w h rect n t).holdsBuffer = t.holdsBuffer := by
  cases n with
  | zero => cases t <;> simp [splitAux]
  | succ n =>
    cases t with
    | node d a b c e => simp [splitAux]
    | leaf d =>
      simp only [splitAux]
      split_ifs
      · rfl
      · simp [Tile.holdsBuffer, splitAux_fresh_holdsBuffer]
      · rfl

theorem bufOk_of_not_holdsBuffer (t : Tile) (h : t.holdsBuffer = false) : t.BufOk := by
  induction t with
  | leaf d => trivial
  | node d a b c e iha ihb ihc ihe =>
    simp only [Tile.holdsBuffer, Bool.or_eq_false_iff] at h
    obtain ⟨⟨⟨⟨h0, h1⟩, h2⟩, h3⟩, h4⟩ := h
    exact ⟨fun _ => ⟨h1, h2, h3, h4⟩, iha h1, ihb h2, ihc h3, ihe h4⟩

theorem splitAux_bufOk (E : Env) (w h : Int) (rect : NormalizedRect) (n : Nat) (t : Tile)
    (ht : t.BufOk) : (splitAux E w h rect n t).BufOk := by
  cases n with
  | zero => cases t <;> simpa [splitAux] using ht
  | succ n =>
    cases t with
    | node d a b c e => simpa [splitAux] using ht
    | leaf d =>
      simp only [splitAux]
      split_ifs
      · trivial
      · exact ⟨fun _ => ⟨splitAux_fresh_holdsBuffer .., splitAux_fresh_holdsBuffer ..,
          splitAux_fresh_holdsBuffer .., splitAux_fresh_holdsBuffer ..⟩,
          bufOk_of_not_holdsBuffer _ (splitAux_fresh_holdsBuffer ..),
          bufOk_of_not_holdsBuffer _ (splitAux_fresh_holdsBuffer ..),
          bufOk_of_not_holdsBuffer _ (splitAux_fresh_holdsBuffer ..),
          bufOk_of_not_holdsBuffer _ (splitAux_fresh_holdsBuffer ..)⟩
      · trivial

/-- The children `split` creates hold no buffer. -/
theorem splitAux_leaf_cases (E : Env) (w h : Int) (rect : NormalizedRect) (n : Nat) (d : TileData) :
    splitAux E w h rect n (.leaf d) = .leaf d ∨
    ∃ a b c e, splitAux E w h rect n (.leaf d) = .node d a b c e ∧
      a.holdsBuffer = false ∧ b.holdsBuffer = false ∧ c.holdsBuffer = false ∧
      e.holdsBuffer = false := by
  cases n with
  | zero => left; rfl
  | succ n =>
    simp only [splitAux]
    split_ifs
    · left; rfl
    · right
      exact ⟨_, _, _, _, rfl, splitAux_fresh_holdsBuffer .., splitAux_fresh_holdsBuffer ..,
        splitAux_fresh_holdsBuffer .., splitAux_fresh_holdsBuffer ..⟩
    · left; rfl

/-! ### What `setPixmap` does to a tile -/

theorem Tile.Wf.rect_lt {t : Tile} (ht : t.Wf) :
    t.rect.left < t.rect.right ∧ t.rect.top < t.rect.bottom := by
  cases t with
  | leaf d => exact ht
  | node d a b c e => exact ⟨ht.1, ht.2.1⟩

theorem mergeRect_of_lt (acc child : NormalizedRect) (h : acc.left < acc.right) :
    mergeRect acc child = acc.united child := by
  have : acc.isNull = false := by
    simp only [NormalizedRect.isNull, decide_eq_false_iff_not]
    rintro ⟨h1, -, h3, -⟩
    rw [h1, h3] at h
    exact lt_irrefl _ h
  simp [mergeRect, this]

/-- The region the merge branch of `setPixmap` computes from the children is
the region of the tile. -/
theorem mergeRect_children (d : TileData) (a b c e : Tile) (ht : (Tile.node d a b c e).Wf) :
    mergeRect (mergeRect (mergeRect (mergeRect NormalizedRect.null a.rect) b.rect) c.rect) e.rect
      = d.rect := by
  obtain ⟨hx, hy, ha, hb, hc, he, -⟩ := ht
  rw [ha, hb, hc, he]
  have e1 : mergeRect NormalizedRect.null ⟨d.rect.left, d.rect.top, (d.rect.left + d.rect.right) / 2,
      (d.rect.top + d.rect.bottom) / 2⟩ = ⟨d.rect.left, d.rect.top, (d.rect.left + d.rect.right) / 2,
      (d.rect.top + d.rect.bottom) / 2⟩ := by
    simp [mergeRect, NormalizedRect.isNull, NormalizedRect.null]
  have e2 : mergeRect ⟨d.rect.left, d.rect.top, (d.rect.left + d.rect.right) / 2,
      (d.rect.top + d.rect.bottom) / 2⟩ ⟨(d.rect.left + d.rect.right) / 2, d.rect.top,
      d.rect.right, (d.rect.top + d.rect.bottom) / 2⟩
      = ⟨d.rect.left, d.rect.top, d.rect.right, (d.rect.top + d.rect.bottom) / 2⟩ := by
    rw [mergeRect_of_lt _ _ (by simp only; linarith)]
    simp only [NormalizedRect.united, NormalizedRect.mk.injEq, min_def, max_def]
    refine ⟨?_, ?_, ?_, ?_⟩ <;> split_ifs <;> linarith
  have e3 : mergeRect ⟨d.rect.left, d.rect.top, d.rect.right, (d.rect.top + d.rect.bottom) / 2⟩
      ⟨d.rect.left, (d.rect.top + d.rect.bottom) / 2, (d.rect.left + d.rect.right) / 2,
      d.rect.bottom⟩ = ⟨d.rect.left, d.rect.top, d.rect.right, d.rect.bottom⟩ := by
    rw [mergeRect_of_lt _ _ (by simp only; linarith)]
    simp only [NormalizedRect.united, NormalizedRect.mk.injEq, min_def, max_def]
    refine ⟨?_, ?_, ?_, ?_⟩ <;> split_ifs <;> linarith
  have e4 : mergeRect ⟨d.rect.left, d.rect.top, d.rect.right, d.rect.bottom⟩
      ⟨(d.rect.left + d.rect.right) / 2, (d.rect.top + d.rect.bottom) / 2, d.rect.right,
      d.rect.bottom⟩ = ⟨d.rect.left, d.rect.top, d.rect.right, d.rect.bottom⟩ := by
    rw [mergeRect_of_lt _ _ (by simp only; linarith)]
    simp only [NormalizedRect.united, NormalizedRect.mk.injEq, min_def, max_def]
    refine ⟨?_, ?_, ?_, ?_⟩ <;> split_ifs <;> linarith
  rw [e1, e2, e3, e4]

theorem setPixmapAux_wf (E : Env) (w h : Int) (rot : Rotation) (pm : QPixmap)
    (rect : NormalizedRect) (n : Nat) (t : Tile) (T : Int) (ht : t.Wf) :
    (setPixmapAux E w h rot pm rect n t T).1.rect = t.rect ∧
    (setPixmapAux E w h rot pm rect n t T).1.Wf := by
  induction n generalizing t T with
  | zero => exact ⟨rfl, ht⟩
  | succ n ih =>
    simp only [setPixmapAux]
    split_ifs with h1 h2
    · exact ⟨rfl, ht⟩
    · cases t with
      | leaf d => exact ⟨rfl, ht⟩
      | node d a b c e =>
        obtain ⟨hx, hy, ha, hb, hc, he, wa, wb, wc, we⟩ := ht
        refine ⟨rfl, hx, hy, ?_, ?_, ?_, ?_, (ih a _ wa).2, (ih b _ wb).2, (ih c _ wc).2,
          (ih e _ we).2⟩
        · rw [(ih a _ wa).1]; exact ha
        · rw [(ih b _ wb).1]; exact hb
        · rw [(ih c _ wc).1]; exact hc
        · rw [(ih e _ we).1]; exact he
    · cases t with
      | leaf d =>
        simp only
        split_ifs with h3
        · exact ⟨rfl, ht⟩
        · have hs := splitAux_wf E w h rect (Tile.fuel w h (Tile.leaf { d with dirty := false }))
            (Tile.leaf { d with dirty := false }) ht
          have hd := splitAux_data E w h rect (Tile.fuel w h (Tile.leaf { d with dirty := false }))
            (Tile.leaf { d with dirty := false })
          simp only [split]
          generalize splitAux E w h rect (Tile.fuel w h (Tile.leaf { d with dirty := false }))
            (Tile.leaf { d with dirty := false }) = s at hs hd
          cases s with
          | leaf d1 =>
            simp only [Tile.data] at hd
            subst hd
            exact ⟨rfl, hs⟩
          | node d1 a b c e =>
            simp only [Tile.data] at hd
            subst hd
            obtain ⟨hx, hy, ha, hb, hc, he, wa, wb, wc, we⟩ := hs
            refine ⟨rfl, hx, hy, ?_, ?_, ?_, ?_, (ih a _ wa).2, (ih b _ wb).2, (ih c _ wc).2,
              (ih e _ we).2⟩
            · rw [(ih a _ wa).1]; exact ha
            · rw [(ih b _ wb).1]; exact hb
            · rw [(ih c _ wc).1]; exact hc
            · rw [(ih e _ we).1]; exact he
      | node d a b c e =>
        simp only
        split_ifs with h3
        · obtain ⟨hx, hy, ha, hb, hc, he, wa, wb, wc, we⟩ := ht
          refine ⟨rfl, hx, hy, ?_, ?_, ?_, ?_, (ih a _ wa).2, (ih b _ wb).2, (ih c _ wc).2,
            (ih e _ we).2⟩
          · rw [(ih a _ wa).1]; exact ha
          · rw [(ih b _ wb).1]; exact hb
          · rw [(ih c _ wc).1]; exact hc
          · rw [(ih e _ we).1]; exact he
        · have hm := mergeRect_children d a b c e ht
          simp only [Tile.rect, Tile.data] at hm ⊢
          rw [hm]
          exact ⟨rfl, ht.1, ht.2.1⟩

/-! ### Operations that keep the shape of a tree -/

theorem Tile.Sub.same (t : Tile) : Tile.Sub t t := by
  induction t with
  | leaf d => exact ⟨rfl, Or.inr rfl⟩
  | node d a b c e iha ihb ihc ihe => exact ⟨rfl, Or.inr rfl, iha, ihb, ihc, ihe⟩

theorem Tile.Sub.rect_eq {t' t : Tile} (h : Tile.Sub t' t) : t'.rect = t.rect := by
  cases t' <;> cases t <;> first | exact h.1 | exact h.elim

theorem Tile.Sub.wf {t' t : Tile} (h : Tile.Sub t' t) (ht : t.Wf) : t'.Wf := by
  induction t' generalizing t with
  | leaf d' =>
    cases t with
    | leaf d => simp only [Tile.Sub] at h; simp only [Tile.Wf] at ht ⊢; rw [h.1]; exact ht
    | node d a b c e => exact h.elim
  | node d' a' b' c' e' iha ihb ihc ihe =>
    cases t with
    | leaf d => exact h.elim
    | node d a b c e =>
      obtain ⟨hr, -, sa, sb, sc, se⟩ := h
      obtain ⟨hx, hy, ha, hb, hc, he, wa, wb, wc, we⟩ := ht
      simp only [Tile.Wf]
      rw [hr, sa.rect_eq, sb.rect_eq, sc.rect_eq, se.rect_eq]
      exact ⟨hx, hy, ha, hb, hc, he, iha sa wa, ihb sb wb, ihc sc wc, ihe se we⟩

theorem Tile.Sub.holdsBuffer_false {t' t : Tile} (h : Tile.Sub t' t)
    (ht : t.holdsBuffer = false) : t'.holdsBuffer = false := by
  induction t' generalizing t with
  | leaf d' =>
    cases t with
    | leaf d =>
      simp only [Tile.Sub] at h
      simp only [Tile.holdsBuffer] at ht ⊢
      rcases h.2 with h2 | h2
      · rw [h2]; rfl
      · rw [h2]; exact ht
    | node d a b c e => exact h.elim
  | node d' a' b' c' e' iha ihb ihc ihe =>
    cases t with
    | leaf d => exact h.elim
    | node d a b c e =>
      obtain ⟨-, hp, sa, sb, sc, se⟩ := h
      simp only [Tile.holdsBuffer, Bool.or_eq_false_iff] at ht ⊢
      obtain ⟨⟨⟨⟨h0, h1⟩, h2⟩, h3⟩, h4⟩ := ht
      refine ⟨⟨⟨⟨?_, iha sa h1⟩, ihb sb h2⟩, ihc sc h3⟩, ihe se h4⟩
      rcases hp with h2 | h2
      · rw [h2]; rfl
      · rw [h2]; exact h0

theorem Tile.Sub.bufOk {t' t : Tile} (h : Tile.Sub t' t) (ht : t.BufOk) : t'.BufOk := by
  induction t' generalizing t with
  | leaf d' => trivial
  | node d' a' b' c' e' iha ihb ihc ihe =>
    cases t with
    | leaf d => exact h.elim
    | node d a b c e =>
      obtain ⟨-, hp, sa, sb, sc, se⟩ := h
      obtain ⟨h0, ba, bb, bc, be⟩ := ht
      refine ⟨fun hs => ?_, iha sa ba, ihb sb bb, ihc sc bc, ihe se be⟩
      rcases hp with h2 | h2
      · rw [h2] at hs; exact absurd hs (by simp)
      · rw [h2] at hs
        obtain ⟨h1, h2, h3, h4⟩ := h0 hs
        exact ⟨sa.holdsBuffer_false h1, sb.holdsBuffer_false h2, sc.holdsBuffer_false h3,
          se.holdsBuffer_false h4⟩

theorem Tile.Sub.rootOk {t' t : Tile} {i : Nat} (h : Tile.Sub t' t) (ht : t.RootOk i) :
    t'.RootOk i :=
  ⟨h.rect_eq.trans ht.1, h.wf ht.2.1, h.bufOk ht.2.2⟩

theorem Tile.sub_setData (t : Tile) (d : TileData) (hr : d.rect = t.data.rect)
    (hp : d.pixmap = none ∨ d.pixmap = t.data.pixmap) : Tile.Sub (t.setData d) t := by
  cases t with
  | leaf d0 => exact ⟨hr, hp⟩
  | node d0 a b c e =>
    exact ⟨hr, hp, Tile.Sub.same a, Tile.Sub.same b, Tile.Sub.same c, Tile.Sub.same e⟩

theorem markDirty_sub (t : Tile) : Tile.Sub (markDirty t) t := by
  induction t with
  | leaf d => exact ⟨rfl, Or.inr rfl⟩
  | node d a b c e iha ihb ihc ihe => exact ⟨rfl, Or.inr rfl, iha, ihb, ihc, ihe⟩

theorem rankMiss_rect (pm : Option Int) (d : TileData) : (rankMiss pm d).rect = d.rect := by
  cases pm <;> rfl

theorem rankMiss_pixmap (pm : Option Int) (d : TileData) : (rankMiss pm d).pixmap = d.pixmap := by
  cases pm <;> rfl

theorem rankTiles_sub (pm : Option Int) (ptr : TilePtr) (t : Tile) (ranked : List TilePtr) :
    Tile.Sub (rankTiles pm ptr t ranked).1 t := by
  induction t generalizing pm ptr ranked with
  | leaf d =>
    simp only [rankTiles]
    split_ifs <;> exact ⟨rankMiss_rect pm d, Or.inr (rankMiss_pixmap pm d)⟩
  | node d a b c e iha ihb ihc ihe =>
    simp only [rankTiles]
    split_ifs
    · exact ⟨rankMiss_rect pm d, Or.inr (rankMiss_pixmap pm d), Tile.Sub.same a, Tile.Sub.same b,
        Tile.Sub.same c, Tile.Sub.same e⟩
    · exact ⟨rankMiss_rect pm d, Or.inr (rankMiss_pixmap pm d), iha _ _ _, ihb _ _ _, ihc _ _ _,
        ihe _ _ _⟩

theorem clearAt_sub (p : List Nat) (t : Tile) : Tile.Sub (clearAt p t).1 t := by
  induction p generalizing t with
  | nil => exact Tile.sub_setData t _ rfl (Or.inl rfl)
  | cons i p ih =>
    cases t with
    | leaf d => exact Tile.Sub.same _
    | node d a b c e =>
      rcases i with _ | _ | _ | _ | i <;> simp only [clearAt] <;> split_ifs
      · exact ⟨rfl, Or.inr rfl, ih a, Tile.Sub.same b, Tile.Sub.same c, Tile.Sub.same e⟩
      · exact ⟨rfl, Or.inr rfl, ih a, Tile.Sub.same b, Tile.Sub.same c, Tile.Sub.same e⟩
      · exact ⟨rfl, Or.inr rfl, Tile.Sub.same a, ih b, Tile.Sub.same c, Tile.Sub.same e⟩
      · exact ⟨rfl, Or.inr rfl, Tile.Sub.same a, ih b, Tile.Sub.same c, Tile.Sub.same e⟩
      · exact ⟨rfl, Or.inr rfl, Tile.Sub.same a, Tile.Sub.same b, ih c, Tile.Sub.same e⟩
      · exact ⟨rfl, Or.inr rfl, Tile.Sub.same a, Tile.Sub.same b, ih c, Tile.Sub.same e⟩
      · exact ⟨rfl, Or.inr rfl, Tile.Sub.same a, Tile.Sub.same b, Tile.Sub.same c, ih e⟩
      · exact ⟨rfl, Or.inr rfl, Tile.Sub.same a, Tile.Sub.same b, Tile.Sub.same c, ih e⟩
      · exact ⟨rfl, Or.inr rfl, Tile.Sub.same a, Tile.Sub.same b, Tile.Sub.same c, Tile.Sub.same e⟩
      · exact Tile.Sub.same _

theorem setPixmapAux_bufOk (E : Env) (w h : Int) (rot : Rotation) (pm : QPixmap)
    (rect : NormalizedRect) (n : Nat) (t : Tile) (T : Int) (ht : t.BufOk) :
    (setPixmapAux E w h rot pm rect n t T).1.BufOk := by
  induction n generalizing t T with
  | zero => exact ht
  | succ n ih =>
    simp only [setPixmapAux]
    split_ifs with h1 h2
    · exact ht
    · cases t with
      | leaf d => exact ht
      | node d a b c e =>
        obtain ⟨-, ba, bb, bc, be⟩ := ht
        exact ⟨fun hs => absurd hs (by simp), ih a _ ba, ih b _ bb, ih c _ bc, ih e _ be⟩
    · cases t with
      | leaf d =>
        simp only
        split_ifs with h3
        · trivial
        · have hs := splitAux_bufOk E w h rect (Tile.fuel w h (Tile.leaf { d with dirty := false }))
            (Tile.leaf { d with dirty := false }) trivial
          simp only [split]
          generalize splitAux E w h rect (Tile.fuel w h (Tile.leaf { d with dirty := false }))
            (Tile.leaf { d with dirty := false }) = s at hs
          cases s with
          | leaf d1 => trivial
          | node d1 a b c e =>
            obtain ⟨-, ba, bb, bc, be⟩ := hs
            exact ⟨fun hs => absurd hs (by simp), ih a _ ba, ih b _ bb, ih c _ bc, ih e _ be⟩
      | node d a b c e =>
        simp only
        split_ifs with h3
        · obtain ⟨-, ba, bb, bc, be⟩ := ht
          exact ⟨fun hs => absurd hs (by simp), ih a _ ba, ih b _ bb, ih c _ bc, ih e _ be⟩
        · trivial

theorem setPixmap_rootOk (E : Env) (w h : Int) (rot : Rotation) (pm : QPixmap)
    (rect : NormalizedRect) (t : Tile) (T : Int) (i : Nat) (ht : t.RootOk i) :
    (Private.setPixmap E w h rot pm rect t T).1.RootOk i := by
  obtain ⟨h1, h2, h3⟩ := ht
  have := setPixmapAux_wf E w h rot pm rect (t.fuel w h) t T h2
  exact ⟨this.1.trans h1, this.2, setPixmapAux_bufOk E w h rot pm rect _ t T h3⟩

/-! ### What `tilesAt` does to a tile -/

theorem Tile.holdsBuffer_setData (t : Tile) (d : TileData) (hp : d.pixmap = t.data.pixmap) :
    (t.setData d).holdsBuffer = t.holdsBuffer := by
  cases t <;> simp [Tile.setData, Tile.holdsBuffer, Tile.data] at hp ⊢ <;> rw [hp]

theorem tilesAtAux_holdsBuffer (E : Env) (w h : Int) (rot : Rotation) (rect : NormalizedRect)
    (allowEmpty : Bool) (n : Nat) (t : Tile) (res : List Tile) :
    (tilesAtAux E w h rot rect allowEmpty n t res).1.holdsBuffer = t.holdsBuffer := by
  induction n generalizing t res with
  | zero => rfl
  | succ n ih =>
    simp only [tilesAtAux]
    split_ifs with h1 h2
    · exact Tile.holdsBuffer_setData t _ rfl
    · exact (Tile.holdsBuffer_setData (split E w h rect t)
        { (split E w h rect t).data with miss := max ((split E w h rect t).miss - 1) RANGE_MIN }
        rfl).trans (splitAux_holdsBuffer ..)
    · have hs := splitAux_holdsBuffer E w h rect (t.fuel w h) t
      simp only [split]
      generalize splitAux E w h rect (t.fuel w h) t = s at hs
      cases s with
      | leaf d => exact hs
      | node d a b c e =>
        rw [← hs]
        simp only [Tile.holdsBuffer, ih]

theorem tilesAtAux_sound (E : Env) (w h : Int) (rot : Rotation) (rect : NormalizedRect)
    (allowEmpty : Bool) (n : Nat) (t : Tile) (res : List Tile) (ht : t.Wf ∧ t.BufOk) :
    (tilesAtAux E w h rot rect allowEmpty n t res).1.rect = t.rect ∧
    (tilesAtAux E w h rot rect allowEmpty n t res).1.Wf ∧
    (tilesAtAux E w h rot rect allowEmpty n t res).1.BufOk := by
  induction n generalizing t res with
  | zero => exact ⟨rfl, ht⟩
  | succ n ih =>
    simp only [tilesAtAux]
    split_ifs with h1 h2
    · have := Tile.sub_setData t { t.data with miss := min (t.miss + 1) RANGE_MAX } rfl (Or.inr rfl)
      exact ⟨this.rect_eq, this.wf ht.1, this.bufOk ht.2⟩
    · have := Tile.sub_setData (split E w h rect t)
        { (split E w h rect t).data with miss := max ((split E w h rect t).miss - 1) RANGE_MIN }
        rfl (Or.inr rfl)
      exact ⟨this.rect_eq.trans (splitAux_rect ..), this.wf (splitAux_wf _ _ _ _ _ _ ht.1),
        this.bufOk (splitAux_bufOk _ _ _ _ _ _ ht.2)⟩
    · have hw := splitAux_wf E w h rect (t.fuel w h) t ht.1
      have hb := splitAux_bufOk E w h rect (t.fuel w h) t ht.2
      have hr := splitAux_rect E w h rect (t.fuel w h) t
      simp only [split]
      generalize splitAux E w h rect (t.fuel w h) t = s at hw hb hr
      cases s with
      | leaf d => exact ⟨hr, hw, hb⟩
      | node d a b c e =>
        obtain ⟨hx, hy, ha, hb', hc, he, wa, wb, wc, we⟩ := hw
        obtain ⟨h0, ba, bb, bc, be⟩ := hb
        refine ⟨hr, ⟨hx, hy, ?_, ?_, ?_, ?_, (ih a _ ⟨wa, ba⟩).2.1, (ih b _ ⟨wb, bb⟩).2.1,
          (ih c _ ⟨wc, bc⟩).2.1, (ih e _ ⟨we, be⟩).2.1⟩,
          ⟨fun hs => ?_, (ih a _ ⟨wa, ba⟩).2.2, (ih b _ ⟨wb, bb⟩).2.2,
          (ih c _ ⟨wc, bc⟩).2.2, (ih e _ ⟨we, be⟩).2.2⟩⟩
        · rw [(ih a _ ⟨wa, ba⟩).1]; exact ha
        · rw [(ih b _ ⟨wb, bb⟩).1]; exact hb'
        · rw [(ih c _ ⟨wc, bc⟩).1]; exact hc
        · rw [(ih e _ ⟨we, be⟩).1]; exact he
        · simp only [tilesAtAux_holdsBuffer]
          exact h0 hs

theorem tilesAt_rootOk (E : Env) (w h : Int) (rot : Rotation) (rect : NormalizedRect)
    (allowEmpty : Bool) (t : Tile) (res : List Tile) (i : Nat) (ht : t.RootOk i) :
    (Private.tilesAt E w h rot rect allowEmpty t res).1.RootOk i := by
  obtain ⟨h1, h2, h3⟩ := ht
  have := tilesAtAux_sound E w h rot rect allowEmpty (t.fuel w h) t res ⟨h2, h3⟩
  exact ⟨this.1.trans h1, this.2.1, this.2.2⟩

/-! ### The invariant of the forest -/

theorem setPixmapRoots_forall₂ (E : Env) (w h : Int) (rot : Rotation) (pm : QPixmap)
    (rect : NormalizedRect) (ts : List Tile) (T : Int) (is : List Nat)
    (hts : List.Forall₂ Tile.RootOk ts is) :
    List.Forall₂ Tile.RootOk (setPixmapRoots E w h rot pm rect ts T).1 is := by
  induction hts generalizing T with
  | nil => exact List.Forall₂.nil
  | cons hd _ ih => exact List.Forall₂.cons (setPixmap_rootOk _ _ _ _ _ _ _ _ _ hd) (ih _)

theorem tilesAtRoots_forall₂ (E : Env) (w h : Int) (rot : Rotation) (rect : NormalizedRect)
    (allowEmpty : Bool) (ts : List Tile) (res : List Tile) (is : List Nat)
    (hts : List.Forall₂ Tile.RootOk ts is) :
    List.Forall₂ Tile.RootOk (tilesAtRoots E w h rot rect allowEmpty ts res).1 is := by
  induction hts generalizing res with
  | nil => exact List.Forall₂.nil
  | cons hd _ ih => exact List.Forall₂.cons (tilesAt_rootOk _ _ _ _ _ _ _ _ _ hd) (ih _)

theorem rankRoots_forall₂ (k : Nat) (ts : List Tile) (ranked : List TilePtr) (is : List Nat)
    (hts : List.Forall₂ Tile.RootOk ts is) :
    List.Forall₂ Tile.RootOk (rankRoots k ts ranked).1 is := by
  induction hts generalizing k ranked with
  | nil => exact List.Forall₂.nil
  | cons hd _ ih => exact List.Forall₂.cons ((rankTiles_sub _ _ _ _).rootOk hd) (ih _ _)

theorem map_markDirty_forall₂ (ts : List Tile) (is : List Nat)
    (hts : List.Forall₂ Tile.RootOk ts is) :
    List.Forall₂ Tile.RootOk (ts.map markDirty) is := by
  induction hts with
  | nil => exact List.Forall₂.nil
  | cons hd _ ih => exact List.Forall₂.cons ((markDirty_sub _).rootOk hd) ih

theorem clearTile_forall₂ (ts : List Tile) (ptr : TilePtr) (is : List Nat)
    (hts : List.Forall₂ Tile.RootOk ts is) :
    List.Forall₂ Tile.RootOk (clearTile ts ptr) is := by
  cases ptr with
  | nil => exact hts
  | cons i p =>
    simp only [clearTile]
    induction hts generalizing i with
    | nil => simp
    | @cons t j ts js hd tl ih =>
      cases i with
      | zero =>
        simp only [List.get?_cons_zero, List.set_cons_zero]
        exact List.Forall₂.cons ((clearAt_sub p t).rootOk hd) tl
      | succ i =>
        simp only [List.get?_cons_succ, List.set_cons_succ]
        have := ih i
        split at this
        · exact List.Forall₂.cons hd this
        · exact List.Forall₂.cons hd tl

theorem discard_inv (s : TilesManager) (ptr : TilePtr) (hs : s.Inv) : (discard s ptr).Inv := by
  unfold TilesManager.discard
  split
  · exact hs
  · exact clearTile_forall₂ _ _ _ hs

theorem evictLoop_inv (n : Nat) (order : List TilePtr) (s : TilesManager) (hs : s.Inv) :
    (evictLoop n order s).Inv := by
  induction order generalizing n s with
  | nil => exact hs
  | cons ptr order ih =>
    simp only [evictLoop]
    split_ifs
    · exact hs
    · split
      · exact ih _ _ hs
      · exact ih _ _ (discard_inv _ _ hs)

theorem construct_inv (w h : Int) (rot : Rotation) : (construct w h rot).Inv := by
  simp only [TilesManager.Inv, construct]
  rw [List.forall₂_map_left_iff]
  apply List.forall₂_same.mpr
  intro i _
  exact ⟨rfl, by
    simp only [Tile.fresh, Tile.Wf, rootRect]
    constructor <;> linarith, trivial⟩

/-- Every reachable state satisfies the invariant of the forest. -/
theorem Reachable.inv {E : Env} {s : TilesManager} (hs : Reachable E s) : s.Inv := by
  induction hs with
  | construct w h rot => exact construct_inv w h rot
  | setWidth w _ ih =>
    unfold TilesManager.setWidth
    split_ifs
    · exact ih
    · exact map_markDirty_forall₂ _ _ ih
  | setHeight h _ ih =>
    unfold TilesManager.setHeight
    split_ifs
    · exact ih
    · exact ih
  | setRotation rot _ ih =>
    unfold TilesManager.setRotation
    split_ifs
    · exact ih
    · exact map_markDirty_forall₂ _ _ ih
  | setPixmap pm rect _ ih => exact setPixmapRoots_forall₂ _ _ _ _ _ _ _ _ _ ih
  | tilesAt rect allowEmpty _ ih => exact tilesAtRoots_forall₂ _ _ _ _ _ _ _ _ _ ih
  | cleanupPixmapMemory n _ ih =>
    exact evictLoop_inv _ _ _ (rankRoots_forall₂ _ _ _ _ ih)

/-! ### Coverage after a full-page `setPixmap` -/

theorem fromRotatedRect_full (rot : Rotation) :
    fromRotatedRect ⟨0, 0, 1, 1⟩ rot = ⟨0, 0, 1, 1⟩ := by
  cases rot <;> simp [fromRotatedRect]

theorem rootRect_inUnitSquare (i : Nat) (hi : i < 16) : (rootRect i).InUnitSquare := by
  have h1 : i % 4 < 4 := Nat.mod_lt _ (by norm_num)
  have h2 : i / 4 < 4 := by omega
  have h3 : ((i % 4 : Nat) : ℚ) ≤ 3 := by exact_mod_cast Nat.lt_succ_iff.mp h1
  have h4 : ((i / 4 : Nat) : ℚ) ≤ 3 := by exact_mod_cast Nat.lt_succ_iff.mp h2
  have h5 : (0 : ℚ) ≤ ((i % 4 : Nat) : ℚ) := Nat.cast_nonneg _
  have h6 : (0 : ℚ) ≤ ((i / 4 : Nat) : ℚ) := Nat.cast_nonneg _
  simp only [NormalizedRect.InUnitSquare, rootRect]
  refine ⟨?_, ?_, ?_, ?_⟩ <;> linarith

theorem intersects_full (a : NormalizedRect) (hu : a.InUnitSquare)
    (hx : a.left < a.right) (hy : a.top < a.bottom) :
    a.intersects ⟨0, 0, 1, 1⟩ = true := by
  obtain ⟨h1, h2, h3, h4⟩ := hu
  simp only [NormalizedRect.intersects, decide_eq_true_eq]
  refine ⟨?_, ?_, ?_, ?_⟩ <;> linarith

theorem containedIn_full (a : NormalizedRect) (hu : a.InUnitSquare) :
    a.containedIn ⟨0, 0, 1, 1⟩ = true := by
  obtain ⟨h1, h2, h3, h4⟩ := hu
  simp only [NormalizedRect.containedIn, decide_eq_true_eq, NormalizedRect.inter]
  split_ifs with h
  · simp only [Bool.or_eq_true] at h
    rcases h with h | h
    · simp only [NormalizedRect.isNull, decide_eq_true_eq] at h
      obtain ⟨e1, e2, e3, e4⟩ := h
      cases a
      simp only at e1 e2 e3 e4
      simp [NormalizedRect.null, e1, e2, e3, e4]
    · simp [NormalizedRect.isNull] at h
  · cases a
    simp only [NormalizedRect.mk.injEq]
    simp only at h1 h2 h3 h4
    exact ⟨max_eq_left h1, max_eq_left h3, min_eq_left h2, min_eq_left h4⟩

/-- A big leaf that meets a non-empty region is divided by `split`. -/
theorem split_leaf_big (E : Env) (w h : Int) (rect : NormalizedRect) (d : TileData)
    (hn : rect.isNull = false) (hi : d.rect.intersects rect = true)
    (hbig : E.TILES_MAXSIZE ≤ (d.rect.geometry w h).area) :
    ∃ a b c e, split E w h rect (.leaf d) = .node d a b c e := by
  simp only [split, Tile.fuel, splitFuel, splitAux, hn, hi, hbig]
  exact ⟨_, _, _, _, rfl⟩

/-- After `setPixmap` with the whole page, a tile inside the page passes the
coverage test for every region. -/
theorem setPixmap_full_hasPixmap (E : Env) (w h : Int) (rot : Rotation) (pm : QPixmap)
    (t : Tile) (T : Int) (hw : t.Wf) (hu : t.rect.InUnitSquare) (r : NormalizedRect) :
    Private.hasPixmap r (Private.setPixmap E w h rot pm ⟨0, 0, 1, 1⟩ t T).1 = true := by
  have hlt := hw.rect_lt
  have hi := intersects_full t.rect hu hlt.1 hlt.2
  have hc := containedIn_full t.rect hu
  obtain ⟨n, hn⟩ : ∃ n, t.fuel w h = n + 1 := ⟨t.fuel w h - 1, by have := fuel_pos w h t; omega⟩
  simp only [Private.setPixmap, hn, setPixmapAux, hi, hc]
  cases t with
  | leaf d =>
    simp only [Bool.not_true, Bool.false_eq_true, if_false]
    split_ifs with h3
    · simp [Private.hasPixmap]
    · obtain ⟨a, b, c, e, hs⟩ := split_leaf_big E w h ⟨0, 0, 1, 1⟩ { d with dirty := false }
        (by simp [NormalizedRect.isNull]) hi (not_lt.mp h3)
      rw [hs]
      simp [Private.hasPixmap]
  | node d a b c e =>
    simp only [Bool.not_true, Bool.false_eq_true, if_false]
    split_ifs with h3
    · simp [Private.hasPixmap]
    · simp [Private.hasPixmap]

theorem setPixmapRoots_full_hasPixmap (E : Env) (w h : Int) (rot : Rotation) (pm : QPixmap)
    (ts : List Tile) (T : Int) (is : List Nat) (hts : List.Forall₂ Tile.RootOk ts is)
    (his : ∀ i ∈ is, i < 16) (r : NormalizedRect) :
    ∀ t ∈ (setPixmapRoots E w h rot pm ⟨0, 0, 1, 1⟩ ts T).1, Private.hasPixmap r t = true := by
  induction hts generalizing T with
  | nil => simp [setPixmapRoots]
  | @cons t i ts is hd _ ih =>
    intro t' ht'
    simp only [setPixmapRoots, List.mem_cons] at ht'
    rcases ht' with rfl | ht'
    · apply setPixmap_full_hasPixmap _ _ _ _ _ _ _ hd.2.1
      rw [hd.1]
      exact rootRect_inUnitSquare i (his i (List.mem_cons_self _ _))
    · exact ih _ (fun j hj => his j (List.mem_cons_of_mem _ hj)) t' ht'

/-- C2: in every reachable state, after `setPixmap(buffer, [0,0,1,1])` the
test `hasPixmap(r)` returns true, for every width, height and rotation and
every rectangle `r` (in particular for the well-formed ones inside the unit
square). -/
theorem hasPixmap_after_full_setPixmap (E : Env) (s : TilesManager) (hs : Reachable E s)
    (buffer : QPixmap) (r : NormalizedRect) :
    (s.setPixmap E buffer ⟨0, 0, 1, 1⟩).hasPixmap r = true := by
  simp only [TilesManager.hasPixmap, TilesManager.setPixmap, List.all_eq_true,
    fromRotatedRect_full]
  exact setPixmapRoots_full_hasPixmap E _ _ _ _ _ _ _ hs.inv
    (fun i hi => List.mem_range.mp hi) _

/-- C2, at an instance: the page of the spec's scenario. -/
theorem hasPixmap_after_full_setPixmap_witness :
    ((construct 1000 1000 .Rotation0).setPixmap upstream ⟨1000, 1000⟩ ⟨0, 0, 1, 1⟩).hasPixmap
      ⟨1 / 4, 1 / 4, 3 / 4, 3 / 4⟩ = true :=
  hasPixmap_after_full_setPixmap upstream _ (Reachable.construct 1000 1000 .Rotation0) _ _

/-! ### The counter `totalPixels` -/

theorem reachable_rootZeroFilled : Reachable upstream rootZeroFilled :=
  Reachable.setPixmap _ _ (Reachable.construct 1000 1000 .Rotation0)

theorem reachable_rootZeroSplit : Reachable upstream rootZeroSplit :=
  Reachable.tilesAt _ _ (Reachable.setWidth _ reachable_rootZeroFilled)

theorem reachable_overlapOverSplit : Reachable upstream overlapOverSplit :=
  Reachable.setPixmap _ _ reachable_rootZeroSplit

/-- C3 (code bug): the partial-overlap branch of `setPixmap` deletes the buffer
of a tile that has children without subtracting its pixels. In the reachable
state `rootZeroSplit` the counter equals the pixels held (62500, the buffer of
root 0); after `setPixmap(buffer, [0, 0, 1/5, 1/5])` the counter is 1625000 and
the buffers hold 1562500 pixels: the 62500 pixels of the deleted buffer are
still counted. -/
theorem totalPixels_not_bufferPixels_after_edge_overlap :
    Reachable upstream rootZeroSplit ∧
    rootZeroSplit.totalPixels = 62500 ∧ rootZeroSplit.bufferPixels = 62500 ∧
    (rootZeroSplit.setPixmap upstream ⟨20000, 200⟩ ⟨0, 0, 1 / 5, 1 / 5⟩).totalPixels = 1625000 ∧
    (rootZeroSplit.setPixmap upstream ⟨20000, 200⟩ ⟨0, 0, 1 / 5, 1 / 5⟩).bufferPixels = 1562500 :=
  ⟨reachable_rootZeroSplit, by decide!, by decide!, by decide!, by decide!⟩

/-- C6 (code bug): in the reachable state `overlapOverSplit` the counter holds
62500 pixels that no buffer holds. `cleanupPixmapMemory(totalMemory())`
discards the only buffer there is and leaves `totalMemory() == 250000`; no
tile holds a buffer any more, and no further call changes the counter. (In the
scenario of the spec, a full-page `setPixmap` on a new cache of 1000 by 1000
pixels followed by `cleanupPixmapMemory(4000000)`, the counter does reach 0.) -/
theorem totalMemory_positive_after_cleanup :
    Reachable upstream overlapOverSplit ∧
    overlapOverSplit.totalMemory = 6500000 ∧
    (overlapOverSplit.cleanupPixmapMemory upstream 6500000).totalMemory = 250000 ∧
    (∀ t ∈ (overlapOverSplit.cleanupPixmapMemory upstream 6500000).allTiles, t.pixmap = none) ∧
    (((construct 1000 1000 .Rotation0).setPixmap upstream ⟨1000, 1000⟩
      ⟨0, 0, 1, 1⟩).cleanupPixmapMemory upstream 4000000).totalMemory = 0 ∧
    ∀ N : Nat, ((overlapOverSplit.cleanupPixmapMemory upstream 6500000).cleanupPixmapMemory
      upstream N).totalMemory = 250000 := by
  refine ⟨reachable_overlapOverSplit, by decide!, by decide!, by decide!, by decide!,
    fun N => ?_⟩
  have h1 : evictionOrder upstream (overlapOverSplit.cleanupPixmapMemory upstream 6500000) = [] := by
    decide!
  have h2 : (overlapOverSplit.cleanupPixmapMemory upstream 6500000).totalPixels = 62500 := by
    decide!
  generalize overlapOverSplit.cleanupPixmapMemory upstream 6500000 = s' at h1 h2 ⊢
  show (evictLoop N (evictionOrder upstream s') (ranked s')).totalMemory = 250000
  rw [h1]
  simp only [evictLoop, totalMemory, ranked, h2]
  norm_num

theorem reachable_cleanParentOfEmptyTiles : Reachable upstream cleanParentOfEmptyTiles :=
  Reachable.setPixmap _ _ (Reachable.tilesAt _ _ (Reachable.setHeight _ reachable_rootZeroFilled))

/-- C5 (code bug): in the reachable state `cleanParentOfEmptyTiles` root 0 is
not dirty and has children, but neither it nor its second child holds a
buffer. `hasPixmap([3/20, 1/20, 1/5, 1/10])` returns true, although no valid
tile (one that holds a buffer and is not dirty) even touches that region: the
only valid tile is the first child of root 0, over `[0, 0, 1/8, 1/8]`. -/
theorem hasPixmap_true_without_valid_tile :
    Reachable upstream cleanParentOfEmptyTiles ∧
    cleanParentOfEmptyTiles.hasPixmap ⟨3 / 20, 1 / 20, 1 / 5, 1 / 10⟩ = true ∧
    (cleanParentOfEmptyTiles.allTiles.filter Tile.isValid).map Tile.rect
      = [⟨0, 0, 1 / 8, 1 / 8⟩] ∧
    (∀ t ∈ cleanParentOfEmptyTiles.allTiles, t.isValid = true →
      t.rect.intersects ⟨3 / 20, 1 / 20, 1 / 5, 1 / 10⟩ = false) ∧
    (deref cleanParentOfEmptyTiles.tiles [0]).dirty = false ∧
    pixmapAt cleanParentOfEmptyTiles.tiles [0] = none ∧
    pixmapAt cleanParentOfEmptyTiles.tiles [0, 1] = none :=
  ⟨reachable_cleanParentOfEmptyTiles, by decide!, by decide!, by decide!, by decide!,
    by decide!, by decide!⟩

theorem reachable_dirtyServedCleanMissed : Reachable upstream dirtyServedCleanMissed :=
  Reachable.tilesAt _ _ (Reachable.setPixmap _ _ (Reachable.setWidth _ reachable_rootZeroFilled))

/-- C9 (code bug): in the reachable state `dirtyServedCleanMissed` the two
buffers are those of root 0 (dirty, `miss` -1) and of root 15 (clean, `miss`
1). The comparator puts root 0 before root 15 because its `miss` is smaller,
so `cleanupPixmapMemory(4)` takes root 15 last-first: the clean buffer is
discarded and the dirty one is kept. -/
theorem clean_buffer_evicted_before_dirty_buffer :
    Reachable upstream dirtyServedCleanMissed ∧
    (deref dirtyServedCleanMissed.tiles [0]).dirty = true ∧
    (deref dirtyServedCleanMissed.tiles [0]).miss = -1 ∧
    (deref dirtyServedCleanMissed.tiles [15]).dirty = false ∧
    (deref dirtyServedCleanMissed.tiles [15]).miss = 1 ∧
    rankedTilesLessThan (deref dirtyServedCleanMissed.tiles [0])
      (deref dirtyServedCleanMissed.tiles [15]) = true ∧
    rankedTilesLessThan (deref dirtyServedCleanMissed.tiles [15])
      (deref dirtyServedCleanMissed.tiles [0]) = false ∧
    pixmapAt dirtyServedCleanMissed.tiles [0] = some ⟨250, 250⟩ ∧
    pixmapAt dirtyServedCleanMissed.tiles [15] = some ⟨500, 250⟩ ∧
    pixmapAt (dirtyServedCleanMissed.cleanupPixmapMemory upstream 4).tiles [15] = none ∧
    pixmapAt (dirtyServedCleanMissed.cleanupPixmapMemory upstream 4).tiles [0]
      = some ⟨250, 250⟩ :=
  ⟨reachable_dirtyServedCleanMissed, by decide!, by decide!, by decide!, by decide!, by decide!,
    by decide!, by decide!, by decide!, by decide!, by decide!⟩

theorem reachable_cleanServedCleanMissed : Reachable upstream cleanServedCleanMissed :=
  Reachable.tilesAt _ _ (Reachable.setPixmap _ _ reachable_rootZeroFilled)

/-- C10 (code bug): for two tiles of the same validity the comparator returns
`!t1->dirty` whatever the `miss` values are: two clean tiles are each "less
than" the other, two dirty tiles never are. In the reachable state
`cleanServedCleanMissed` both buffers are clean, root 0 has `miss` -1 and root
15 has `miss` 1, and `cleanupPixmapMemory(4)` discards the buffer of root 0,
the one with the lower `miss`. -/
theorem same_validity_not_ordered_by_miss :
    (∀ (r : NormalizedRect) (p : Option QPixmap) (m1 m2 : Int),
      rankedTilesLessThan ⟨r, p, false, m1⟩ ⟨r, p, false, m2⟩ = true ∧
      rankedTilesLessThan ⟨r, p, true, m1⟩ ⟨r, p, true, m2⟩ = false) ∧
    Reachable upstream cleanServedCleanMissed ∧
    (deref cleanServedCleanMissed.tiles [0]).dirty = false ∧
    (deref cleanServedCleanMissed.tiles [0]).miss = -1 ∧
    (deref cleanServedCleanMissed.tiles [15]).dirty = false ∧
    (deref cleanServedCleanMissed.tiles [15]).miss = 1 ∧
    pixmapAt cleanServedCleanMissed.tiles [0] = some ⟨250, 250⟩ ∧
    pixmapAt cleanServedCleanMissed.tiles [15] = some ⟨250, 250⟩ ∧
    pixmapAt (cleanServedCleanMissed.cleanupPixmapMemory upstream 4).tiles [0] = none ∧
    pixmapAt (cleanServedCleanMissed.cleanupPixmapMemory upstream 4).tiles [15]
      = some ⟨250, 250⟩ :=
  ⟨fun _ _ _ _ => ⟨rfl, rfl⟩, reachable_cleanServedCleanMissed, by decide!, by decide!,
    by decide!, by decide!, by decide!, by decide!, by decide!, by decide!⟩

/-! ### Buffers and pointers -/

@[simp] theorem Tile.pixmapAt_nil (t : Tile) : t.pixmapAt [] = t.data.pixmap := by
  cases t <;> rfl

@[simp] theorem Tile.pixmapAt_leaf_cons (d : TileData) (i : Nat) (p : List Nat) :
    (Tile.leaf d).pixmapAt (i :: p) = none := rfl

theorem Tile.pixmapAt_node_cons (d : TileData) (a b c e : Tile) (i : Nat) (p : List Nat) :
    (Tile.node d a b c e).pixmapAt (i :: p) =
      match i with
      | 0 => a.pixmapAt p
      | 1 => b.pixmapAt p
      | 2 => c.pixmapAt p
      | 3 => e.pixmapAt p
      | _ => none := by
  rcases i with _ | _ | _ | _ | i <;> rfl

theorem Tile.pixmapAt_setData (t : Tile) (d : TileData) (hp : d.pixmap = t.data.pixmap)
    (p : List Nat) : (t.setData d).pixmapAt p = t.pixmapAt p := by
  cases t with
  | leaf d0 => cases p <;> simp [Tile.setData, Tile.pixmapAt_nil, Tile.data] at hp ⊢; exact hp
  | node d0 a b c e =>
    cases p with
    | nil => simpa [Tile.setData, Tile.data] using hp
    | cons i p => simp only [Tile.setData, Tile.pixmapAt_node_cons]

theorem Tile.pixmapAt_of_not_holdsBuffer (t : Tile) (h : t.holdsBuffer = false) (p : List Nat) :
    t.pixmapAt p = none := by
  induction t generalizing p with
  | leaf d =>
    cases p with
    | nil => simpa [Tile.holdsBuffer, Tile.data] using h
    | cons i p => rfl
  | node d a b c e iha ihb ihc ihe =>
    simp only [Tile.holdsBuffer, Bool.or_eq_false_iff] at h
    obtain ⟨⟨⟨⟨h0, h1⟩, h2⟩, h3⟩, h4⟩ := h
    cases p with
    | nil => simpa [Tile.data] using h0
    | cons i p =>
      rw [Tile.pixmapAt_node_cons]
      rcases i with _ | _ | _ | _ | i
      · exact iha h1 p
      · exact ihb h2 p
      · exact ihc h3 p
      · exact ihe h4 p
      · rfl

/-- Under `BufOk` the candidates of a tile are exactly the paths to its
buffers. -/
theorem Tile.mem_candidates (t : Tile) (ht : t.BufOk) (p : List Nat) :
    p ∈ t.candidates ↔ (t.pixmapAt p).isSome = true := by
  induction t generalizing p with
  | leaf d =>
    simp only [Tile.candidates]
    cases p with
    | nil => by_cases h : d.pixmap.isSome = true <;> simp [h, Tile.data]
    | cons i p => by_cases h : d.pixmap.isSome = true <;> simp [h]
  | node d a b c e iha ihb ihc ihe =>
    obtain ⟨h0, ba, bb, bc, be⟩ := ht
    simp only [Tile.candidates]
    by_cases h : d.pixmap.isSome = true
    · obtain ⟨h1, h2, h3, h4⟩ := h0 h
      simp only [h, if_true, List.mem_singleton]
      cases p with
      | nil => simp [Tile.data, h]
      | cons i p =>
        rw [Tile.pixmapAt_node_cons]
        rcases i with _ | _ | _ | _ | i <;>
          simp [Tile.pixmapAt_of_not_holdsBuffer, h1, h2, h3, h4]
    · simp only [h, Bool.false_eq_true, if_false, List.mem_append, List.mem_map]
      cases p with
      | nil => simp [Tile.data, h]
      | cons i p =>
        rw [Tile.pixmapAt_node_cons]
        rcases i with _ | _ | _ | _ | i
        · simp [iha ba]
        · simp [ihb bb]
        · simp [ihc bc]
        · simp [ihe be]
        · simp

theorem Tile.nodup_candidates (t : Tile) : t.candidates.Nodup := by
  induction t with
  | leaf d => simp only [Tile.candidates]; split_ifs <;> simp
  | node d a b c e iha ihb ihc ihe =>
    simp only [Tile.candidates]
    split_ifs
    · simp
    · have inj : ∀ i : Nat, Function.Injective (fun p : List Nat => i :: p) :=
        fun i p q h => (List.cons.inj h).2
      have na := iha.map (inj 0)
      have nb := ihb.map (inj 1)
      have nc := ihc.map (inj 2)
      have ne := ihe.map (inj 3)
      refine List.Nodup.append (List.Nodup.append (List.Nodup.append na nb ?_) nc ?_) ne ?_
      · intro x hx hy
        simp only [List.mem_map] at hx hy
        obtain ⟨_, _, rfl⟩ := hx
        obtain ⟨_, _, h⟩ := hy
        simp at h
      · intro x hx hy
        simp only [List.mem_append, List.mem_map] at hx hy
        obtain ⟨_, _, h⟩ := hy
        rcases hx with ⟨_, _, rfl⟩ | ⟨_, _, rfl⟩ <;> simp at h
      · intro x hx hy
        simp only [List.mem_append, List.mem_map] at hx hy
        obtain ⟨_, _, h⟩ := hy
        rcases hx with (⟨_, _, rfl⟩ | ⟨_, _, rfl⟩) | ⟨_, _, rfl⟩ <;> simp at h

/-- `rankTiles` appends the candidates of the tile, as pointers. -/
theorem rankTiles_snd (pm : Option Int) (ptr : TilePtr) (t : Tile) (ranked : List TilePtr) :
    (rankTiles pm ptr t ranked).2 = ranked ++ t.candidates.map (ptr ++ ·) := by
  induction t generalizing pm ptr ranked with
  | leaf d =>
    simp only [rankTiles, Tile.candidates, rankMiss_pixmap]
    split_ifs <;> simp
  | node d a b c e iha ihb ihc ihe =>
    simp only [rankTiles, Tile.candidates, rankMiss_pixmap]
    split_ifs
    · simp
    · simp only [iha, ihb, ihc, ihe, List.map_append, List.map_map, List.append_assoc]
      rfl

@[simp] theorem pixmapAt_nil_ptr (ts : List Tile) : pixmapAt ts [] = none := rfl

@[simp] theorem pixmapAt_nil_forest (q : TilePtr) : pixmapAt [] q = none := by
  cases q <;> rfl

@[simp] theorem pixmapAt_cons_zero (t : Tile) (ts : List Tile) (p : List Nat) :
    pixmapAt (t :: ts) (0 :: p) = t.pixmapAt p := by
  simp [pixmapAt, tileAt, Tile.pixmapAt]

@[simp] theorem pixmapAt_cons_succ (t : Tile) (ts : List Tile) (i : Nat) (p : List Nat) :
    pixmapAt (t :: ts) ((i + 1) :: p) = pixmapAt ts (i :: p) := by
  simp [pixmapAt, tileAt]

theorem rankRoots_snd (k : Nat) (ts : List Tile) (ranked : List TilePtr) :
    (rankRoots k ts ranked).2 = ranked ++ forestCandidates k ts := by
  induction ts generalizing k ranked with
  | nil => simp [rankRoots, forestCandidates]
  | cons t ts ih =>
    simp only [rankRoots, forestCandidates, ih, rankTiles_snd, List.append_assoc]
    rfl

theorem mem_forestCandidates (k : Nat) (ts : List Tile) (hts : ∀ t ∈ ts, t.BufOk) (q : TilePtr) :
    q ∈ forestCandidates k ts ↔
      ∃ i p, q = (k + i) :: p ∧ (pixmapAt ts (i :: p)).isSome = true := by
  induction ts generalizing k with
  | nil => simp [forestCandidates]
  | cons t ts ih =>
    simp only [forestCandidates, List.mem_append, List.mem_map]
    rw [ih (k + 1) (fun u hu => hts u (List.mem_cons_of_mem _ hu))]
    constructor
    · rintro (⟨p, hp, rfl⟩ | ⟨i, p, rfl, hp⟩)
      · exact ⟨0, p, rfl, by
          simpa using (Tile.mem_candidates t (hts t (List.mem_cons_self _ _)) p).mp hp⟩
      · exact ⟨i + 1, p, by rw [Nat.add_assoc, Nat.add_comm 1 i], by simpa using hp⟩
    · rintro ⟨i, p, rfl, hp⟩
      cases i with
      | zero =>
        left
        exact ⟨p, (Tile.mem_candidates t (hts t (List.mem_cons_self _ _)) p).mpr
          (by simpa using hp), rfl⟩
      | succ i =>
        right
        exact ⟨i, p, by rw [Nat.add_assoc, Nat.add_comm 1 i], by simpa using hp⟩

theorem head_ge_of_mem_forestCandidates (k : Nat) (ts : List Tile) (q : TilePtr)
    (h : q ∈ forestCandidates k ts) : ∃ i p, q = (k + i) :: p := by
  induction ts generalizing k with
  | nil => simp [forestCandidates] at h
  | cons t ts ih =>
    simp only [forestCandidates, List.mem_append, List.mem_map] at h
    rcases h with ⟨p, -, rfl⟩ | h
    · exact ⟨0, p, rfl⟩
    · obtain ⟨i, p, rfl⟩ := ih (k + 1) h
      exact ⟨i + 1, p, by rw [Nat.add_assoc, Nat.add_comm 1 i]⟩

theorem nodup_forestCandidates (k : Nat) (ts : List Tile) : (forestCandidates k ts).Nodup := by
  induction ts generalizing k with
  | nil => simp [forestCandidates]
  | cons t ts ih =>
    simp only [forestCandidates]
    refine List.Nodup.append ((Tile.nodup_candidates t).map fun p q h => (List.cons.inj h).2)
      (ih (k + 1)) ?_
    intro x hx hy
    simp only [List.mem_map] at hx
    obtain ⟨p, -, rfl⟩ := hx
    obtain ⟨i, p', h⟩ := head_ge_of_mem_forestCandidates (k + 1) ts _ hy
    have := (List.cons.inj h).1
    omega

theorem rootOk_of_mem {ts : List Tile} {is : List Nat} (h : List.Forall₂ Tile.RootOk ts is) :
    ∀ t ∈ ts, ∃ i ∈ is, t.RootOk i := by
  induction h with
  | nil => simp
  | cons hd _ ih =>
    intro a ha
    rcases List.mem_cons.mp ha with rfl | ha
    · exact ⟨_, List.mem_cons_self _ _, hd⟩
    · obtain ⟨b, hb, hr⟩ := ih a ha
      exact ⟨b, List.mem_cons_of_mem _ hb, hr⟩

theorem TilesManager.Inv.roots_bufOk {s : TilesManager} (hs : s.Inv) : ∀ t ∈ s.tiles, t.BufOk := by
  intro t ht
  obtain ⟨i, -, h⟩ := rootOk_of_mem hs t ht
  exact h.2.2

theorem contains_toRotatedRect (a : NormalizedRect) (rot : Rotation) (x y : ℚ) :
    (toRotatedRect a rot).Contains x y ↔
      a.Contains (naturalPoint rot x y).1 (naturalPoint rot x y).2 := by
  cases rot <;> simp only [toRotatedRect, naturalPoint, NormalizedRect.Contains] <;>
    constructor <;> rintro ⟨h1, h2, h3, h4⟩ <;> refine ⟨?_, ?_, ?_, ?_⟩ <;> linarith

theorem inInterior_toRotatedRect (a : NormalizedRect) (rot : Rotation) (x y : ℚ) :
    (toRotatedRect a rot).InInterior x y ↔
      a.InInterior (naturalPoint rot x y).1 (naturalPoint rot x y).2 := by
  cases rot <;> simp only [toRotatedRect, naturalPoint, NormalizedRect.InInterior] <;>
    constructor <;> rintro ⟨h1, h2, h3, h4⟩ <;> refine ⟨?_, ?_, ?_, ?_⟩ <;> linarith

theorem contains_fromRotatedRect (r : NormalizedRect) (rot : Rotation) (x y : ℚ) :
    (fromRotatedRect r rot).Contains (naturalPoint rot x y).1 (naturalPoint rot x y).2 ↔
      r.Contains x y := by
  cases rot <;> simp only [fromRotatedRect, naturalPoint, NormalizedRect.Contains] <;>
    constructor <;> rintro ⟨h1, h2, h3, h4⟩ <;> refine ⟨?_, ?_, ?_, ?_⟩ <;> linarith

theorem naturalPoint_unit (rot : Rotation) (x y : ℚ) :
    (0 ≤ (naturalPoint rot x y).1 ∧ (naturalPoint rot x y).1 ≤ 1 ∧
      0 ≤ (naturalPoint rot x y).2 ∧ (naturalPoint rot x y).2 ≤ 1) ↔
    (0 ≤ x ∧ x ≤ 1 ∧ 0 ≤ y ∧ y ≤ 1) := by
  cases rot <;> simp only [naturalPoint] <;>
    constructor <;> rintro ⟨h1, h2, h3, h4⟩ <;> refine ⟨?_, ?_, ?_, ?_⟩ <;> linarith

theorem interiorDisjoint_toRotatedRect (a b : NormalizedRect) (rot : Rotation)
    (h : a.InteriorDisjoint b) :
    (toRotatedRect a rot).InteriorDisjoint (toRotatedRect b rot) := by
  intro x y ⟨h1, h2⟩
  exact h _ _ ⟨(inInterior_toRotatedRect a rot x y).mp h1, (inInterior_toRotatedRect b rot x y).mp h2⟩

theorem intersects_of_contains (a r : NormalizedRect) (x y : ℚ) (ha : a.Contains x y)
    (hr : r.Contains x y) : a.intersects r = true := by
  obtain ⟨a1, a2, a3, a4⟩ := ha
  obtain ⟨r1, r2, r3, r4⟩ := hr
  simp only [NormalizedRect.intersects, decide_eq_true_eq]
  refine ⟨?_, ?_, ?_, ?_⟩ <;> linarith

theorem NormalizedRect.Within.trans {a b c : NormalizedRect} (h1 : a.Within b) (h2 : b.Within c) :
    a.Within c := by
  obtain ⟨a1, a2, a3, a4⟩ := h1
  obtain ⟨b1, b2, b3, b4⟩ := h2
  refine ⟨?_, ?_, ?_, ?_⟩ <;> linarith

theorem NormalizedRect.Within.self (a : NormalizedRect) : a.Within a :=
  ⟨le_refl _, le_refl _, le_refl _, le_refl _⟩

/-- Rectangles on either side of a vertical line have disjoint interiors. -/
theorem interiorDisjoint_of_sep_x (a b : NormalizedRect) (m : ℚ) (h1 : a.right ≤ m)
    (h2 : m ≤ b.left) : a.InteriorDisjoint b := by
  rintro x y ⟨⟨-, a2, -, -⟩, ⟨b1, -, -, -⟩⟩
  linarith

/-- Rectangles on either side of a horizontal line have disjoint interiors. -/
theorem interiorDisjoint_of_sep_y (a b : NormalizedRect) (m : ℚ) (h1 : a.bottom ≤ m)
    (h2 : m ≤ b.top) : a.InteriorDisjoint b := by
  rintro x y ⟨⟨-, -, -, a4⟩, ⟨-, -, b3, -⟩⟩
  linarith

theorem NormalizedRect.InteriorDisjoint.symm {a b : NormalizedRect} (h : a.InteriorDisjoint b) :
    b.InteriorDisjoint a := fun x y ⟨h1, h2⟩ => h x y ⟨h2, h1⟩

theorem rootRect_interior (i : Nat) (r : NormalizedRect) (hr : r.Within (rootRect i)) (x y : ℚ)
    (h : r.InInterior x y) :
    ((i % 4 : Nat) : ℚ) < 4 * x ∧ 4 * x < ((i % 4 : Nat) : ℚ) + 1 ∧
    ((i / 4 : Nat) : ℚ) < 4 * y ∧ 4 * y < ((i / 4 : Nat) : ℚ) + 1 := by
  obtain ⟨r1, r2, r3, r4⟩ := hr
  obtain ⟨h1, h2, h3, h4⟩ := h
  simp only [rootRect] at r1 r2 r3 r4
  refine ⟨?_, ?_, ?_, ?_⟩ <;> linarith

/-- Regions inside different cells of the 4x4 grid have disjoint interiors. -/
theorem interiorDisjoint_of_roots (i j : Nat) (hij : i ≠ j) (a b : NormalizedRect)
    (ha : a.Within (rootRect i)) (hb : b.Within (rootRect j)) : a.InteriorDisjoint b := by
  rintro x y ⟨h1, h2⟩
  obtain ⟨a1, a2, a3, a4⟩ := rootRect_interior i a ha x y h1
  obtain ⟨b1, b2, b3, b4⟩ := rootRect_interior j b hb x y h2
  have e1 : ((i % 4 : Nat) : ℚ) < ((j % 4 : Nat) : ℚ) + 1 := by linarith
  have e2 : ((j % 4 : Nat) : ℚ) < ((i % 4 : Nat) : ℚ) + 1 := by linarith
  have e3 : ((i / 4 : Nat) : ℚ) < ((j / 4 : Nat) : ℚ) + 1 := by linarith
  have e4 : ((j / 4 : Nat) : ℚ) < ((i / 4 : Nat) : ℚ) + 1 := by linarith
  have f1 : i % 4 < j % 4 + 1 := by exact_mod_cast e1
  have f2 : j % 4 < i % 4 + 1 := by exact_mod_cast e2
  have f3 : i / 4 < j / 4 + 1 := by exact_mod_cast e3
  have f4 : j / 4 < i / 4 + 1 := by exact_mod_cast e4
  omega

/-- Every point of the unit square lies in a cell of the 4x4 grid. -/
theorem exists_rootRect_contains (x y : ℚ) (hx0 : 0 ≤ x) (hx1 : x ≤ 1) (hy0 : 0 ≤ y)
    (hy1 : y ≤ 1) : ∃ i, i < 16 ∧ (rootRect i).Contains x y := by
  have hcol : ∃ a : Nat, a < 4 ∧ (a : ℚ) / 4 ≤ x ∧ x ≤ (a : ℚ) / 4 + 1 / 4 := by
    by_cases h1 : x ≤ 1 / 4
    · exact ⟨0, by norm_num, by norm_num; linarith, by norm_num; linarith⟩
    · by_cases h2 : x ≤ 1 / 2
      · exact ⟨1, by norm_num, by norm_num; linarith, by norm_num; linarith⟩
      · by_cases h3 : x ≤ 3 / 4
        · exact ⟨2, by norm_num, by norm_num; linarith, by norm_num; linarith⟩
        · exact ⟨3, by norm_num, by norm_num; linarith, by norm_num; linarith⟩
  have hrow : ∃ b : Nat, b < 4 ∧ (b : ℚ) / 4 ≤ y ∧ y ≤ (b : ℚ) / 4 + 1 / 4 := by
    by_cases h1 : y ≤ 1 / 4
    · exact ⟨0, by norm_num, by norm_num; linarith, by norm_num; linarith⟩
    · by_cases h2 : y ≤ 1 / 2
      · exact ⟨1, by norm_num, by norm_num; linarith, by norm_num; linarith⟩
      · by_cases h3 : y ≤ 3 / 4
        · exact ⟨2, by norm_num, by norm_num; linarith, by norm_num; linarith⟩
        · exact ⟨3, by norm_num, by norm_num; linarith, by norm_num; linarith⟩
  obtain ⟨a, ha, ha1, ha2⟩ := hcol
  obtain ⟨b, hb, hb1, hb2⟩ := hrow
  refine ⟨a + 4 * b, by omega, ?_⟩
  have e1 : (a + 4 * b) % 4 = a := by omega
  have e2 : (a + 4 * b) / 4 = b := by omega
  simp only [rootRect, NormalizedRect.Contains, e1, e2]
  refine ⟨?_, ?_, ?_, ?_⟩ <;> linarith

theorem rootRect_within_unit (i : Nat) (hi : i < 16) (a : NormalizedRect)
    (ha : a.Within (rootRect i)) (x y : ℚ) (h : a.Contains x y) :
    0 ≤ x ∧ x ≤ 1 ∧ 0 ≤ y ∧ y ≤ 1 := by
  obtain ⟨u1, u2, u3, u4⟩ := rootRect_inUnitSquare i hi
  obtain ⟨a1, a2, a3, a4⟩ := ha
  obtain ⟨h1, h2, h3, h4⟩ := h
  refine ⟨?_, ?_, ?_, ?_⟩ <;> linarith

/-! ### The tiles `tilesAt` returns -/

theorem snapshot_rect (rot : Rotation) (t : Tile) :
    (snapshot rot t).rect = toRotatedRect t.rect rot := by
  unfold snapshot
  split_ifs with h
  · simp [Tile.rect]
  · simp only [ne_eq, not_not] at h
    subst h
    rfl

theorem Tile.rect_setData (t : Tile) (d : TileData) : (t.setData d).rect = d.rect := by
  simp [Tile.rect]

/-- What `tilesAt(rect, allowEmpty = true)` appends for one tile: regions
inside the tile, with pairwise disjoint interiors, that cover every point the
tile shares with `rect`. The regions are listed before rotation. -/
theorem tilesAtAux_regions (E : Env) (w h : Int) (rot : Rotation) (rect : NormalizedRect)
    (n : Nat) (t : Tile) (res : List Tile) (ht : t.Wf) (hn : t.fuel w h ≤ n) :
    ∃ new : List NormalizedRect,
      (tilesAtAux E w h rot rect true n t res).2.map Tile.rect
        = res.map Tile.rect ++ new.map (toRotatedRect · rot) ∧
      (∀ r ∈ new, r.Within t.rect) ∧
      new.Pairwise NormalizedRect.InteriorDisjoint ∧
      ∀ x y, t.rect.Contains x y → rect.Contains x y → ∃ r ∈ new, r.Contains x y := by
  induction n generalizing t res with
  | zero => have := fuel_pos w h t; omega
  | succ n ih =>
    simp only [tilesAtAux]
    by_cases h1 : t.rect.intersects rect = true
    · simp only [h1, Bool.not_true, Bool.false_eq_true, if_false, Bool.true_and, Bool.not_true,
        Bool.false_and, Bool.or_false]
      have hw := splitAux_wf E w h rect (t.fuel w h) t ht
      have hr := splitAux_rect E w h rect (t.fuel w h) t
      have hf := fuel_splitAux_le E w h rect (t.fuel w h) t
      simp only [split]
      generalize splitAux E w h rect (t.fuel w h) t = s at hw hr hf
      cases s with
      | leaf d =>
        refine ⟨[t.rect], ?_, ?_, List.pairwise_singleton _ _, ?_⟩
        · have hr' : d.rect = t.rect := hr
          have hnt : ((Tile.leaf d).nTiles == 0) = true := rfl
          simp only [hnt, if_true, List.map_append, List.map_cons,
            List.map_nil, snapshot_rect, Tile.rect_setData, Tile.data, hr']
        · intro r hr'
          rw [List.mem_singleton.mp hr']
          exact NormalizedRect.Within.self _
        · intro x y hx _
          exact ⟨t.rect, List.mem_singleton_self _, hx⟩
      | node d a b c e =>
        obtain ⟨hx, hy, ha, hb, hc, he, wa, wb, wc, we⟩ := hw
        simp only [Tile.fuel] at hf
        have hr' : d.rect = t.rect := hr
        obtain ⟨na, ea, wia, pa, ca⟩ := ih a res wa (by omega)
        obtain ⟨nb, eb, wib, pb, cb⟩ := ih b
          (tilesAtAux E w h rot rect true n a res).2 wb (by omega)
        obtain ⟨nc, ec, wic, pc, cc⟩ := ih c
          (tilesAtAux E w h rot rect true n b (tilesAtAux E w h rot rect true n a res).2).2 wc
          (by omega)
        obtain ⟨ne, ee, wie, pe, ce⟩ := ih e
          (tilesAtAux E w h rot rect true n c (tilesAtAux E w h rot rect true n b
            (tilesAtAux E w h rot rect true n a res).2).2).2 we (by omega)
        rw [ha] at wia ca
        rw [hb] at wib cb
        rw [hc] at wic cc
        rw [he] at wie ce
        have hrl : t.rect.left = d.rect.left := by rw [← hr']
        have hrr : t.rect.right = d.rect.right := by rw [← hr']
        have hrt : t.rect.top = d.rect.top := by rw [← hr']
        have hrb : t.rect.bottom = d.rect.bottom := by rw [← hr']
        refine ⟨na ++ nb ++ nc ++ ne, ?_, ?_, ?_, ?_⟩
        · have hnt : ((Tile.node d a b c e).nTiles == 0) = false := rfl
          simp only [hnt, Bool.false_eq_true, if_false]
          rw [ee, ec, eb, ea]
          simp only [List.map_append, List.append_assoc]
        · intro r hr'
          simp only [List.mem_append] at hr'
          rcases hr' with ((hr' | hr') | hr') | hr'
          · obtain ⟨q1, q2, q3, q4⟩ := wia r hr'
            simp only at q1 q2 q3 q4
            refine ⟨?_, ?_, ?_, ?_⟩ <;> linarith
          · obtain ⟨q1, q2, q3, q4⟩ := wib r hr'
            simp only at q1 q2 q3 q4
            refine ⟨?_, ?_, ?_, ?_⟩ <;> linarith
          · obtain ⟨q1, q2, q3, q4⟩ := wic r hr'
            simp only at q1 q2 q3 q4
            refine ⟨?_, ?_, ?_, ?_⟩ <;> linarith
          · obtain ⟨q1, q2, q3, q4⟩ := wie r hr'
            simp only at q1 q2 q3 q4
            refine ⟨?_, ?_, ?_, ?_⟩ <;> linarith
        · refine List.pairwise_append.mpr ⟨List.pairwise_append.mpr
            ⟨List.pairwise_append.mpr ⟨pa, pb, ?_⟩, pc, ?_⟩, pe, ?_⟩
          · intro r1 h1' r2 h2'
            exact interiorDisjoint_of_sep_x r1 r2 _ (wia r1 h1').2.1 (wib r2 h2').1
          · intro r1 h1' r2 h2'
            rcases List.mem_append.mp h1' with h1' | h1'
            · exact interiorDisjoint_of_sep_y r1 r2 _ (wia r1 h1').2.2.2 (wic r2 h2').2.2.1
            · exact (interiorDisjoint_of_sep_x r2 r1 _ (wic r2 h2').2.1 (wib r1 h1').1).symm
          · intro r1 h1' r2 h2'
            rcases List.mem_append.mp h1' with h1' | h1'
            · rcases List.mem_append.mp h1' with h1' | h1'
              · exact interiorDisjoint_of_sep_x r1 r2 _ (wia r1 h1').2.1 (wie r2 h2').1
              · exact interiorDisjoint_of_sep_y r1 r2 _ (wib r1 h1').2.2.2 (wie r2 h2').2.2.1
            · exact interiorDisjoint_of_sep_x r1 r2 _ (wic r1 h1').2.1 (wie r2 h2').1
        · intro x y hxy hrect
          obtain ⟨p1, p2, p3, p4⟩ := hxy
          rw [hrl] at p1
          rw [hrr] at p2
          rw [hrt] at p3
          rw [hrb] at p4
          by_cases cx : x ≤ (d.rect.left + d.rect.right) / 2
          · by_cases cy : y ≤ (d.rect.top + d.rect.bottom) / 2
            · obtain ⟨r, hr1, hr2⟩ := ca x y ⟨p1, cx, p3, cy⟩ hrect
              exact ⟨r, by simp [hr1], hr2⟩
            · obtain ⟨r, hr1, hr2⟩ := cc x y ⟨p1, cx, (not_le.mp cy).le, p4⟩ hrect
              exact ⟨r, by simp [hr1], hr2⟩
          · by_cases cy : y ≤ (d.rect.top + d.rect.bottom) / 2
            · obtain ⟨r, hr1, hr2⟩ := cb x y ⟨(not_le.mp cx).le, p2, p3, cy⟩ hrect
              exact ⟨r, by simp [hr1], hr2⟩
            · obtain ⟨r, hr1, hr2⟩ := ce x y ⟨(not_le.mp cx).le, p2, (not_le.mp cy).le, p4⟩ hrect
              exact ⟨r, by simp [hr1], hr2⟩
    · simp only [h1, Bool.not_false, if_true]
      refine ⟨[], by simp, by simp, List.Pairwise.nil, ?_⟩
      intro x y hx hr
      exact absurd (intersects_of_contains _ _ x y hx hr) h1

/-- What `tilesAt(rect, allowEmpty = true)` appends for the roots. -/
theorem tilesAtRoots_regions (E : Env) (w h : Int) (rot : Rotation) (rect : NormalizedRect)
    (ts : List Tile) (is : List Nat) (res : List Tile)
    (hts : List.Forall₂ Tile.RootOk ts is) (hnd : is.Nodup) :
    ∃ new : List NormalizedRect,
      (tilesAtRoots E w h rot rect true ts res).2.map Tile.rect
        = res.map Tile.rect ++ new.map (toRotatedRect · rot) ∧
      (∀ r ∈ new, ∃ i ∈ is, r.Within (rootRect i)) ∧
      new.Pairwise NormalizedRect.InteriorDisjoint ∧
      ∀ i ∈ is, ∀ x y, (rootRect i).Contains x y → rect.Contains x y →
        ∃ r ∈ new, r.Contains x y := by
  induction hts generalizing res with
  | nil => exact ⟨[], by simp [tilesAtRoots], by simp, List.Pairwise.nil, by simp⟩
  | @cons t i ts is hd _ ih =>
    obtain ⟨hi, hnd'⟩ := List.nodup_cons.mp hnd
    obtain ⟨n1, e1, w1, p1, c1⟩ :=
      tilesAtAux_regions E w h rot rect (t.fuel w h) t res hd.2.1 (le_refl _)
    obtain ⟨n2, e2, w2, p2, c2⟩ := ih (Private.tilesAt E w h rot rect true t res).2 hnd'
    rw [hd.1] at w1 c1
    refine ⟨n1 ++ n2, ?_, ?_, ?_, ?_⟩
    · simp only [tilesAtRoots]
      rw [e2]
      simp only [Private.tilesAt]
      rw [e1]
      simp only [List.map_append, List.append_assoc]
    · intro r hr
      rcases List.mem_append.mp hr with hr | hr
      · exact ⟨i, List.mem_cons_self _ _, w1 r hr⟩
      · obtain ⟨j, hj, hw⟩ := w2 r hr
        exact ⟨j, List.mem_cons_of_mem _ hj, hw⟩
    · refine List.pairwise_append.mpr ⟨p1, p2, ?_⟩
      intro r1 h1 r2 h2
      obtain ⟨j, hj, hw⟩ := w2 r2 h2
      exact interiorDisjoint_of_roots i j (fun hij => hi (hij ▸ hj)) r1 r2 (w1 r1 h1) hw
    · intro j hj x y hx hr
      rcases List.mem_cons.mp hj with rfl | hj
      · obtain ⟨r, hr1, hr2⟩ := c1 x y hx hr
        exact ⟨r, List.mem_append_left _ hr1, hr2⟩
      · obtain ⟨r, hr1, hr2⟩ := c2 j hj x y hx hr
        exact ⟨r, List.mem_append_right _ hr1, hr2⟩

/-- C4: in every reachable state and for every rectangle `r` (in particular
every well-formed one), the tiles `tilesAt(r, allowEmpty = true)` returns have
regions with pairwise disjoint interiors, and the part of `r` their regions
cover is the part of `r` that lies in the unit square. -/
theorem tilesAt_regions_partition (E : Env) (s : TilesManager) (hs : Reachable E s)
    (r : NormalizedRect) :
    (s.tilesAt E r true).2.Pairwise (fun t u => t.rect.InteriorDisjoint u.rect) ∧
    ∀ x y : ℚ, ((∃ t ∈ (s.tilesAt E r true).2, t.rect.Contains x y) ∧ r.Contains x y) ↔
      (r.Contains x y ∧ 0 ≤ x ∧ x ≤ 1 ∧ 0 ≤ y ∧ y ≤ 1) := by
  obtain ⟨new, e, hw, hp, hc⟩ := tilesAtRoots_regions E s.width s.height s.rotation
    (fromRotatedRect r s.rotation) s.tiles (List.range 16) [] hs.inv (List.nodup_range 16)
  simp only [List.map_nil, List.nil_append] at e
  have hres : (s.tilesAt E r true).2 = (tilesAtRoots E s.width s.height s.rotation
    (fromRotatedRect r s.rotation) true s.tiles []).2 := rfl
  rw [hres]
  constructor
  · have h1 : (new.map (toRotatedRect · s.rotation)).Pairwise NormalizedRect.InteriorDisjoint := by
      rw [List.pairwise_map]
      exact hp.imp fun hab => interiorDisjoint_toRotatedRect _ _ _ hab
    rw [← e, List.pairwise_map] at h1
    exact h1
  · intro x y
    constructor
    · rintro ⟨⟨t, ht, htc⟩, hr⟩
      refine ⟨hr, ?_⟩
      have hm : t.rect ∈ new.map (toRotatedRect · s.rotation) := by
        rw [← e]; exact List.mem_map_of_mem _ ht
      obtain ⟨a, ha, hat⟩ := List.mem_map.mp hm
      obtain ⟨i, hi, hwi⟩ := hw a ha
      rw [← hat] at htc
      have := rootRect_within_unit i (List.mem_range.mp hi) a hwi _ _
        ((contains_toRotatedRect a s.rotation x y).mp htc)
      exact (naturalPoint_unit s.rotation x y).mp this
    · rintro ⟨hr, hu⟩
      refine ⟨?_, hr⟩
      obtain ⟨u1, u2, u3, u4⟩ := (naturalPoint_unit s.rotation x y).mpr hu
      obtain ⟨i, hi, hci⟩ := exists_rootRect_contains _ _ u1 u2 u3 u4
      obtain ⟨a, ha, hac⟩ := hc i (List.mem_range.mpr hi) _ _ hci
        ((contains_fromRotatedRect r s.rotation x y).mpr hr)
      have hm : toRotatedRect a s.rotation ∈ (tilesAtRoots E s.width s.height s.rotation
          (fromRotatedRect r s.rotation) true s.tiles []).2.map Tile.rect := by
        rw [e]; exact List.mem_map_of_mem _ ha
      obtain ⟨t, ht, hte⟩ := List.mem_map.mp hm
      exact ⟨t, ht, by rw [hte]; exact (contains_toRotatedRect a s.rotation x y).mpr hac⟩

/-- C4, at an instance: a page of 8000 by 8000 pixels at rotation 90 with one
root filled, queried over its middle. -/
theorem tilesAt_regions_partition_witness :
    ((((construct 8000 8000 .Rotation90).setPixmap upstream ⟨2000, 2000⟩
        ⟨0, 0, 1 / 4, 1 / 4⟩).tilesAt upstream ⟨1 / 4, 1 / 4, 3 / 4, 3 / 4⟩ true).2.Pairwise
      (fun t u => t.rect.InteriorDisjoint u.rect)) ∧
    ∀ x y : ℚ,
      ((∃ t ∈ (((construct 8000 8000 .Rotation90).setPixmap upstream ⟨2000, 2000⟩
          ⟨0, 0, 1 / 4, 1 / 4⟩).tilesAt upstream ⟨1 / 4, 1 / 4, 3 / 4, 3 / 4⟩ true).2,
            t.rect.Contains x y) ∧
        (⟨1 / 4, 1 / 4, 3 / 4, 3 / 4⟩ : NormalizedRect).Contains x y) ↔
      ((⟨1 / 4, 1 / 4, 3 / 4, 3 / 4⟩ : NormalizedRect).Contains x y ∧
        0 ≤ x ∧ x ≤ 1 ∧ 0 ≤ y ∧ y ≤ 1) :=
  tilesAt_regions_partition upstream _
    (Reachable.setPixmap _ _ (Reachable.construct 8000 8000 .Rotation90)) _

/-! ### Fuel: the recursions of `setPixmap` and `tilesAt` are bounded -/

theorem fuel_node_children (w h : Int) (d : TileData) (a b c e : Tile) (n : Nat)
    (hn : (Tile.node d a b c e).fuel w h ≤ n + 1) :
    a.fuel w h ≤ n ∧ b.fuel w h ≤ n ∧ c.fuel w h ≤ n ∧ e.fuel w h ≤ n := by
  simp only [Tile.fuel] at hn
  omega

/-- With at least `Tile.fuel` fuel the recursion of `setPixmap` never runs out:
any two such amounts give the same result. -/
theorem setPixmapAux_fuel_irrel (E : Env) (w h : Int) (rot : Rotation) (pm : QPixmap)
    (rect : NormalizedRect) (n m : Nat) (t : Tile) (T : Int)
    (hn : t.fuel w h ≤ n) (hm : t.fuel w h ≤ m) :
    setPixmapAux E w h rot pm rect n t T = setPixmapAux E w h rot pm rect m t T := by
  induction n generalizing m t T with
  | zero => have := fuel_pos w h t; omega
  | succ n ih =>
    cases m with
    | zero => have := fuel_pos w h t; omega
    | succ m =>
      simp only [setPixmapAux]
      split_ifs with h1 h2
      · rfl
      · cases t with
        | leaf d => rfl
        | node d a b c e =>
          obtain ⟨an, bn, cn, en⟩ := fuel_node_children w h d a b c e n hn
          obtain ⟨am, bm, cm, em⟩ := fuel_node_children w h d a b c e m hm
          simp only [ih m a _ an am, ih m b _ bn bm, ih m c _ cn cm, ih m e _ en em]
      · cases t with
        | leaf d =>
          simp only
          split_ifs with h3
          · rfl
          · have hf := fuel_splitAux_le E w h rect
              (Tile.fuel w h (Tile.leaf { d with dirty := false }))
              (Tile.leaf { d with dirty := false })
            have hfe : Tile.fuel w h (Tile.leaf { d with dirty := false })
              = Tile.fuel w h (Tile.leaf d) := rfl
            simp only [split]
            generalize splitAux E w h rect (Tile.fuel w h (Tile.leaf { d with dirty := false }))
              (Tile.leaf { d with dirty := false }) = s at hf
            cases s with
            | leaf d1 => rfl
            | node d1 a b c e =>
              obtain ⟨an, bn, cn, en⟩ := fuel_node_children w h d1 a b c e n (by omega)
              obtain ⟨am, bm, cm, em⟩ := fuel_node_children w h d1 a b c e m (by omega)
              simp only [ih m a _ an am, ih m b _ bn bm, ih m c _ cn cm, ih m e _ en em]
        | node d a b c e =>
          simp only
          split_ifs with h3
          · obtain ⟨an, bn, cn, en⟩ := fuel_node_children w h d a b c e n hn
            obtain ⟨am, bm, cm, em⟩ := fuel_node_children w h d a b c e m hm
            simp only [ih m a _ an am, ih m b _ bn bm, ih m c _ cn cm, ih m e _ en em]
          · rfl

/-- With at least `Tile.fuel` fuel the recursion of `tilesAt` never runs out:
any two such amounts give the same result. -/
theorem tilesAtAux_fuel_irrel (E : Env) (w h : Int) (rot : Rotation) (rect : NormalizedRect)
    (allowEmpty : Bool) (n m : Nat) (t : Tile) (res : List Tile)
    (hn : t.fuel w h ≤ n) (hm : t.fuel w h ≤ m) :
    tilesAtAux E w h rot rect allowEmpty n t res
      = tilesAtAux E w h rot rect allowEmpty m t res := by
  induction n generalizing m t res with
  | zero => have := fuel_pos w h t; omega
  | succ n ih =>
    cases m with
    | zero => have := fuel_pos w h t; omega
    | succ m =>
      simp only [tilesAtAux]
      split_ifs with h1 h2
      · rfl
      · rfl
      · have hf := fuel_splitAux_le E w h rect (t.fuel w h) t
        simp only [split]
        generalize splitAux E w h rect (t.fuel w h) t = s at hf
        cases s with
        | leaf d => rfl
        | node d a b c e =>
          obtain ⟨an, bn, cn, en⟩ := fuel_node_children w h d a b c e n (by omega)
          obtain ⟨am, bm, cm, em⟩ := fuel_node_children w h d a b c e m (by omega)
          simp only [ih m a _ an am, ih m b _ bn bm, ih m c _ cn cm, ih m e _ en em]

/-! ### The tiles of a reachable forest -/

theorem mem_allTiles {s : TilesManager} {t : Tile} :
    t ∈ s.allTiles ↔ ∃ root ∈ s.tiles, t ∈ root.subtiles := by
  simp [TilesManager.allTiles, List.mem_flatMap]

theorem Tile.self_mem_subtiles (t : Tile) : t ∈ t.subtiles := by
  cases t <;> simp [Tile.subtiles]

theorem Tile.mem_subtiles_node {u : Tile} {d : TileData} {a b c e : Tile} :
    u ∈ (Tile.node d a b c e).subtiles ↔
      u = Tile.node d a b c e ∨ u ∈ a.subtiles ∨ u ∈ b.subtiles ∨ u ∈ c.subtiles ∨
        u ∈ e.subtiles := by
  simp [Tile.subtiles, or_assoc]

theorem Tile.Wf.subtiles {t : Tile} (ht : t.Wf) : ∀ u ∈ t.subtiles, u.Wf := by
  induction t with
  | leaf d =>
    intro u hu
    simp only [Tile.subtiles, List.mem_singleton] at hu
    rw [hu]; exact ht
  | node d a b c e iha ihb ihc ihe =>
    intro u hu
    rcases Tile.mem_subtiles_node.mp hu with rfl | h | h | h | h
    · exact ht
    · exact iha ht.2.2.2.2.2.2.1 u h
    · exact ihb ht.2.2.2.2.2.2.2.1 u h
    · exact ihc ht.2.2.2.2.2.2.2.2.1 u h
    · exact ihe ht.2.2.2.2.2.2.2.2.2 u h

theorem Reachable.wf_of_mem_allTiles {E : Env} {s : TilesManager} (hs : Reachable E s)
    {t : Tile} (ht : t ∈ s.allTiles) : t.Wf := by
  obtain ⟨root, hr, hsub⟩ := mem_allTiles.mp ht
  obtain ⟨i, -, hi⟩ := rootOk_of_mem hs.inv root hr
  exact hi.2.1.subtiles t hsub

/-- C15: in every reachable state every tile with children has exactly four,
over the quadrants of its region cut at the horizontal and vertical midpoints;
the four regions have pairwise disjoint interiors and a point lies in the
region of the tile exactly when it lies in the region of a child. -/
theorem children_are_quadrants (E : Env) (s : TilesManager) (hs : Reachable E s) (t : Tile)
    (ht : t ∈ s.allTiles) (hn : t.nTiles ≠ 0) :
    t.nTiles = 4 ∧
    ∃ d a b c e, t = Tile.node d a b c e ∧
      a.rect = ⟨d.rect.left, d.rect.top,
        (d.rect.left + d.rect.right) / 2, (d.rect.top + d.rect.bottom) / 2⟩ ∧
      b.rect = ⟨(d.rect.left + d.rect.right) / 2, d.rect.top,
        d.rect.right, (d.rect.top + d.rect.bottom) / 2⟩ ∧
      c.rect = ⟨d.rect.left, (d.rect.top + d.rect.bottom) / 2,
        (d.rect.left + d.rect.right) / 2, d.rect.bottom⟩ ∧
      e.rect = ⟨(d.rect.left + d.rect.right) / 2, (d.rect.top + d.rect.bottom) / 2,
        d.rect.right, d.rect.bottom⟩ ∧
      a.rect.InteriorDisjoint b.rect ∧ a.rect.InteriorDisjoint c.rect ∧
      a.rect.InteriorDisjoint e.rect ∧ b.rect.InteriorDisjoint c.rect ∧
      b.rect.InteriorDisjoint e.rect ∧ c.rect.InteriorDisjoint e.rect ∧
      ∀ x y : ℚ, d.rect.Contains x y ↔
        (a.rect.Contains x y ∨ b.rect.Contains x y ∨ c.rect.Contains x y ∨
          e.rect.Contains x y) := by
  have hw := hs.wf_of_mem_allTiles ht
  cases t with
  | leaf d => exact absurd rfl hn
  | node d a b c e =>
    obtain ⟨hx, hy, ha, hb, hc, he, -⟩ := hw
    refine ⟨rfl, d, a, b, c, e, rfl, ha, hb, hc, he, ?_, ?_, ?_, ?_, ?_, ?_, ?_⟩
    · rw [ha, hb]; exact interiorDisjoint_of_sep_x _ _ _ (le_refl _) (le_refl _)
    · rw [ha, hc]; exact interiorDisjoint_of_sep_y _ _ _ (le_refl _) (le_refl _)
    · rw [ha, he]; exact interiorDisjoint_of_sep_x _ _ _ (le_refl _) (le_refl _)
    · rw [hb, hc]
      exact (interiorDisjoint_of_sep_x _ _ _ (le_refl _) (le_refl _)).symm
    · rw [hb, he]; exact interiorDisjoint_of_sep_y _ _ _ (le_refl _) (le_refl _)
    · rw [hc, he]; exact interiorDisjoint_of_sep_x _ _ _ (le_refl _) (le_refl _)
    · intro x y
      rw [ha, hb, hc, he]
      simp only [NormalizedRect.Contains]
      constructor
      · rintro ⟨p1, p2, p3, p4⟩
        by_cases cx : x ≤ (d.rect.left + d.rect.right) / 2
        · by_cases cy : y ≤ (d.rect.top + d.rect.bottom) / 2
          · exact Or.inl ⟨p1, cx, p3, cy⟩
          · exact Or.inr (Or.inr (Or.inl ⟨p1, cx, (not_le.mp cy).le, p4⟩))
        · by_cases cy : y ≤ (d.rect.top + d.rect.bottom) / 2
          · exact Or.inr (Or.inl ⟨(not_le.mp cx).le, p2, p3, cy⟩)
          · exact Or.inr (Or.inr (Or.inr ⟨(not_le.mp cx).le, p2, (not_le.mp cy).le, p4⟩))
      · rintro (⟨p1, p2, p3, p4⟩ | ⟨p1, p2, p3, p4⟩ | ⟨p1, p2, p3, p4⟩ | ⟨p1, p2, p3, p4⟩) <;>
          refine ⟨?_, ?_, ?_, ?_⟩ <;> linarith

/-- C15, at an instance: root 0 of the state `rootZeroSplit`, which `tilesAt` has
split. -/
theorem children_are_quadrants_witness :
    (Tile.node ⟨⟨0, 0, 1 / 4, 1 / 4⟩, some ⟨250, 250⟩, true, 0⟩
        (Tile.leaf ⟨⟨0, 0, 1 / 8, 1 / 8⟩, none, true, -1⟩)
        (Tile.leaf ⟨⟨1 / 8, 0, 1 / 4, 1 / 8⟩, none, true, 1⟩)
        (Tile.leaf ⟨⟨0, 1 / 8, 1 / 8, 1 / 4⟩, none, true, 1⟩)
        (Tile.leaf ⟨⟨1 / 8, 1 / 8, 1 / 4, 1 / 4⟩, none, true, 1⟩)) ∈ rootZeroSplit.allTiles ∧
    ∃ t ∈ rootZeroSplit.allTiles, t.nTiles = 4 ∧
    ∃ d a b c e, t = Tile.node d a b c e ∧
      a.rect = ⟨d.rect.left, d.rect.top,
        (d.rect.left + d.rect.right) / 2, (d.rect.top + d.rect.bottom) / 2⟩ ∧
      b.rect = ⟨(d.rect.left + d.rect.right) / 2, d.rect.top,
        d.rect.right, (d.rect.top + d.rect.bottom) / 2⟩ ∧
      c.rect = ⟨d.rect.left, (d.rect.top + d.rect.bottom) / 2,
        (d.rect.left + d.rect.right) / 2, d.rect.bottom⟩ ∧
      e.rect = ⟨(d.rect.left + d.rect.right) / 2, (d.rect.top + d.rect.bottom) / 2,
        d.rect.right, d.rect.bottom⟩ ∧
      a.rect.InteriorDisjoint b.rect ∧ a.rect.InteriorDisjoint c.rect ∧
      a.rect.InteriorDisjoint e.rect ∧ b.rect.InteriorDisjoint c.rect ∧
      b.rect.InteriorDisjoint e.rect ∧ c.rect.InteriorDisjoint e.rect ∧
      ∀ x y : ℚ, d.rect.Contains x y ↔
        (a.rect.Contains x y ∨ b.rect.Contains x y ∨ c.rect.Contains x y ∨
          e.rect.Contains x y) :=
  have hmem : (Tile.node ⟨⟨0, 0, 1 / 4, 1 / 4⟩, some ⟨250, 250⟩, true, 0⟩
        (Tile.leaf ⟨⟨0, 0, 1 / 8, 1 / 8⟩, none, true, -1⟩)
        (Tile.leaf ⟨⟨1 / 8, 0, 1 / 4, 1 / 8⟩, none, true, 1⟩)
        (Tile.leaf ⟨⟨0, 1 / 8, 1 / 8, 1 / 4⟩, none, true, 1⟩)
        (Tile.leaf ⟨⟨1 / 8, 1 / 8, 1 / 4, 1 / 4⟩, none, true, 1⟩)) ∈ rootZeroSplit.allTiles := by
    decide!
  ⟨hmem, _, hmem,
    children_are_quadrants upstream rootZeroSplit reachable_rootZeroSplit _ hmem (by decide)⟩

/-! ### The roots -/

theorem rootRect_eq (i : Nat) :
    rootRect i = ⟨((i % 4 : Nat) : ℚ) / 4, ((i / 4 : Nat) : ℚ) / 4,
      ((i % 4 : Nat) : ℚ) / 4 + 1 / 4, ((i / 4 : Nat) : ℚ) / 4 + 1 / 4⟩ := by
  simp only [rootRect, NormalizedRect.mk.injEq]
  refine ⟨?_, ?_, ?_, ?_⟩ <;> ring

theorem TilesManager.Inv.get? {s : TilesManager} (hs : s.Inv) (i : Nat) (hi : i < 16) :
    ∃ t, s.tiles.get? i = some t ∧ t.RootOk i := by
  have hl : s.tiles.length = 16 := by
    have := List.Forall₂.length_eq hs
    simpa using this
  have h1 : i < s.tiles.length := by omega
  have h2 : i < (List.range 16).length := by simpa using hi
  have := List.Forall₂.get hs h1 h2
  refine ⟨s.tiles.get ⟨i, h1⟩, List.get?_eq_get h1, ?_⟩
  simpa using this

theorem TilesManager.Inv.index_of_get? {s : TilesManager} (hs : s.Inv) (i : Nat) (t : Tile)
    (ht : s.tiles.get? i = some t) : i < 16 ∧ t.RootOk i := by
  have hl : s.tiles.length = 16 := by
    have := List.Forall₂.length_eq hs
    simpa using this
  have hi : i < 16 := by
    have := List.get?_eq_some.mp ht
    obtain ⟨h, -⟩ := this
    omega
  obtain ⟨u, hu, hok⟩ := hs.get? i hi
  rw [ht] at hu
  cases hu
  exact ⟨hi, hok⟩

/-- C16: in every reachable state there are sixteen roots, root `i` has the
region `[(i mod 4)/4, (i div 4)/4, (i mod 4)/4 + 1/4, (i div 4)/4 + 1/4]`, the
regions of two different roots have disjoint interiors, and the regions of the
roots cover exactly the unit square. -/
theorem roots_form_grid (E : Env) (s : TilesManager) (hs : Reachable E s) :
    s.tiles.length = 16 ∧
    (∀ i, i < 16 → ∃ t, s.tiles.get? i = some t ∧
      t.rect = ⟨((i % 4 : Nat) : ℚ) / 4, ((i / 4 : Nat) : ℚ) / 4,
        ((i % 4 : Nat) : ℚ) / 4 + 1 / 4, ((i / 4 : Nat) : ℚ) / 4 + 1 / 4⟩) ∧
    (∀ i j t u, i ≠ j → s.tiles.get? i = some t → s.tiles.get? j = some u →
      t.rect.InteriorDisjoint u.rect) ∧
    ∀ x y : ℚ, (∃ t ∈ s.tiles, t.rect.Contains x y) ↔ (0 ≤ x ∧ x ≤ 1 ∧ 0 ≤ y ∧ y ≤ 1) := by
  have hinv := hs.inv
  refine ⟨by simpa using List.Forall₂.length_eq hinv, ?_, ?_, ?_⟩
  · intro i hi
    obtain ⟨t, ht, hok⟩ := hinv.get? i hi
    exact ⟨t, ht, by rw [hok.1, rootRect_eq]⟩
  · intro i j t u hij ht hu
    obtain ⟨-, hti⟩ := hinv.index_of_get? i t ht
    obtain ⟨-, huj⟩ := hinv.index_of_get? j u hu
    exact interiorDisjoint_of_roots i j hij _ _ (hti.1 ▸ NormalizedRect.Within.self _)
      (huj.1 ▸ NormalizedRect.Within.self _)
  · intro x y
    constructor
    · rintro ⟨t, ht, hc⟩
      obtain ⟨i, hi, hok⟩ := rootOk_of_mem hinv t ht
      exact rootRect_within_unit i (List.mem_range.mp hi) t.rect
        (hok.1 ▸ NormalizedRect.Within.self _) x y hc
    · rintro ⟨h1, h2, h3, h4⟩
      obtain ⟨i, hi, hc⟩ := exists_rootRect_contains x y h1 h2 h3 h4
      obtain ⟨t, ht, hok⟩ := hinv.get? i hi
      exact ⟨t, List.get?_mem ht, by rw [hok.1]; exact hc⟩

/-- C16, at an instance: the state `overlapOverSplit`. -/
theorem roots_form_grid_witness :
    overlapOverSplit.tiles.length = 16 ∧
    (∀ i, i < 16 → ∃ t, overlapOverSplit.tiles.get? i = some t ∧
      t.rect = ⟨((i % 4 : Nat) : ℚ) / 4, ((i / 4 : Nat) : ℚ) / 4,
        ((i % 4 : Nat) : ℚ) / 4 + 1 / 4, ((i / 4 : Nat) : ℚ) / 4 + 1 / 4⟩) ∧
    (∀ i j t u, i ≠ j → overlapOverSplit.tiles.get? i = some t →
      overlapOverSplit.tiles.get? j = some u → t.rect.InteriorDisjoint u.rect) ∧
    ∀ x y : ℚ, (∃ t ∈ overlapOverSplit.tiles, t.rect.Contains x y) ↔
      (0 ≤ x ∧ x ≤ 1 ∧ 0 ≤ y ∧ y ≤ 1) :=
  roots_form_grid upstream overlapOverSplit reachable_overlapOverSplit

/-! ### `setHeight` -/

/-- C13: `setHeight(h)` stores `h` and changes nothing else: the tiles (regions,
buffers, dirty flags, `miss`, children), the width, the rotation and
`totalPixels` are the same, and so is the answer of `hasPixmap` for every
rectangle. -/
theorem setHeight_changes_only_height (s : TilesManager) (h : Int) :
    (s.setHeight h).height = h ∧
    (s.setHeight h).tiles = s.tiles ∧
    (s.setHeight h).width = s.width ∧
    (s.setHeight h).rotation = s.rotation ∧
    (s.setHeight h).totalPixels = s.totalPixels ∧
    ∀ r : NormalizedRect, (s.setHeight h).hasPixmap r = s.hasPixmap r := by
  unfold TilesManager.setHeight
  split_ifs with hh
  · exact ⟨hh.symm, rfl, rfl, rfl, rfl, fun _ => rfl⟩
  · exact ⟨rfl, rfl, rfl, rfl, rfl, fun _ => rfl⟩

/-! ### The counter `miss` stays in its range -/

theorem Tile.MissOk.miss_range {t : Tile} (ht : t.MissOk) :
    RANGE_MIN ≤ t.miss ∧ t.miss ≤ RANGE_MAX := by
  cases t with
  | leaf d => exact ht
  | node d a b c e => exact ht.1

theorem Tile.MissOk.subtiles_missOk {t : Tile} (ht : t.MissOk) : ∀ u ∈ t.subtiles, u.MissOk := by
  induction t with
  | leaf d =>
    intro u hu
    simp only [Tile.subtiles, List.mem_singleton] at hu
    rw [hu]; exact ht
  | node d a b c e iha ihb ihc ihe =>
    intro u hu
    rcases Tile.mem_subtiles_node.mp hu with rfl | h | h | h | h
    · exact ht
    · exact iha ht.2.1 u h
    · exact ihb ht.2.2.1 u h
    · exact ihc ht.2.2.2.1 u h
    · exact ihe ht.2.2.2.2 u h

theorem Tile.missOk_setData (t : Tile) (d : TileData) (ht : t.MissOk)
    (hd : RANGE_MIN ≤ d.miss ∧ d.miss ≤ RANGE_MAX) : (t.setData d).MissOk := by
  cases t with
  | leaf d0 => exact hd
  | node d0 a b c e => exact ⟨hd, ht.2⟩

theorem range_zero : RANGE_MIN ≤ (0 : Int) ∧ (0 : Int) ≤ RANGE_MAX := by
  constructor <;> decide

theorem markDirty_missOk (t : Tile) (ht : t.MissOk) : (markDirty t).MissOk := by
  induction t with
  | leaf d => exact ht
  | node d a b c e iha ihb ihc ihe =>
    exact ⟨ht.1, iha ht.2.1, ihb ht.2.2.1, ihc ht.2.2.2.1, ihe ht.2.2.2.2⟩

theorem splitAux_fresh_missOk (E : Env) (w h : Int) (rect : NormalizedRect) (n : Nat)
    (r : NormalizedRect) : (splitAux E w h rect n (Tile.fresh r)).MissOk := by
  induction n generalizing r with
  | zero => exact range_zero
  | succ n ih =>
    simp only [splitAux, Tile.fresh]
    split_ifs
    · exact range_zero
    · have := fun r => ih r
      simp only [Tile.fresh] at this
      exact ⟨range_zero, this _, this _, this _, this _⟩
    · exact range_zero

theorem splitAux_missOk (E : Env) (w h : Int) (rect : NormalizedRect) (n : Nat) (t : Tile)
    (ht : t.MissOk) : (splitAux E w h rect n t).MissOk := by
  cases n with
  | zero => cases t <;> simpa [splitAux] using ht
  | succ n =>
    cases t with
    | node d a b c e => simpa [splitAux] using ht
    | leaf d =>
      simp only [splitAux]
      split_ifs
      · exact ht
      · exact ⟨ht, splitAux_fresh_missOk .., splitAux_fresh_missOk ..,
          splitAux_fresh_missOk .., splitAux_fresh_missOk ..⟩
      · exact ht

theorem setPixmapAux_missOk (E : Env) (w h : Int) (rot : Rotation) (pm : QPixmap)
    (rect : NormalizedRect) (n : Nat) (t : Tile) (T : Int) (ht : t.MissOk) :
    (setPixmapAux E w h rot pm rect n t T).1.MissOk := by
  induction n generalizing t T with
  | zero => exact ht
  | succ n ih =>
    simp only [setPixmapAux]
    split_ifs with h1 h2
    · exact ht
    · cases t with
      | leaf d => exact ht
      | node d a b c e =>
        exact ⟨ht.1, ih a _ ht.2.1, ih b _ ht.2.2.1, ih c _ ht.2.2.2.1, ih e _ ht.2.2.2.2⟩
    · cases t with
      | leaf d =>
        simp only
        split_ifs with h3
        · exact ht
        · have hs := splitAux_missOk E w h rect
            (Tile.fuel w h (Tile.leaf { d with dirty := false }))
            (Tile.leaf { d with dirty := false }) ht
          simp only [split]
          generalize splitAux E w h rect (Tile.fuel w h (Tile.leaf { d with dirty := false }))
            (Tile.leaf { d with dirty := false }) = s at hs
          cases s with
          | leaf d1 => exact hs
          | node d1 a b c e =>
            exact ⟨hs.1, ih a _ hs.2.1, ih b _ hs.2.2.1, ih c _ hs.2.2.2.1, ih e _ hs.2.2.2.2⟩
      | node d a b c e =>
        simp only
        split_ifs with h3
        · exact ⟨ht.1, ih a _ ht.2.1, ih b _ ht.2.2.1, ih c _ ht.2.2.2.1, ih e _ ht.2.2.2.2⟩
        · exact ht.1

theorem miss_up_range (m : Int) (h : RANGE_MIN ≤ m ∧ m ≤ RANGE_MAX) :
    RANGE_MIN ≤ min (m + 1) RANGE_MAX ∧ min (m + 1) RANGE_MAX ≤ RANGE_MAX := by
  obtain ⟨h1, h2⟩ := h
  simp only [RANGE_MIN, RANGE_MAX] at *
  omega

theorem miss_down_range (m : Int) (h : RANGE_MIN ≤ m ∧ m ≤ RANGE_MAX) :
    RANGE_MIN ≤ max (m - 1) RANGE_MIN ∧ max (m - 1) RANGE_MIN ≤ RANGE_MAX := by
  obtain ⟨h1, h2⟩ := h
  simp only [RANGE_MIN, RANGE_MAX] at *
  omega

theorem snapshot_miss (rot : Rotation) (t : Tile) : (snapshot rot t).miss = t.miss := by
  unfold snapshot
  split_ifs <;> simp [Tile.miss]

/-- `tilesAt` keeps the `miss` counters of a tile in range, and the tiles it
appends to the result have their `miss` in range. -/
theorem tilesAtAux_missOk (E : Env) (w h : Int) (rot : Rotation) (rect : NormalizedRect)
    (allowEmpty : Bool) (n : Nat) (t : Tile) (res : List Tile) (ht : t.MissOk) :
    (tilesAtAux E w h rot rect allowEmpty n t res).1.MissOk ∧
    ∀ x ∈ (tilesAtAux E w h rot rect allowEmpty n t res).2,
      x ∈ res ∨ (RANGE_MIN ≤ x.miss ∧ x.miss ≤ RANGE_MAX) := by
  induction n generalizing t res with
  | zero => exact ⟨ht, fun x hx => Or.inl hx⟩
  | succ n ih =>
    simp only [tilesAtAux]
    split_ifs with h1 h2
    · exact ⟨Tile.missOk_setData _ _ ht (miss_up_range _ ht.miss_range), fun x hx => Or.inl hx⟩
    · have hs := splitAux_missOk E w h rect (t.fuel w h) t ht
      refine ⟨Tile.missOk_setData _ _ hs (miss_down_range _ hs.miss_range), fun x hx => ?_⟩
      rcases List.mem_append.mp hx with hx | hx
      · exact Or.inl hx
      · right
        rw [List.mem_singleton.mp hx, snapshot_miss]
        simpa [Tile.miss] using miss_down_range _ hs.miss_range
    · have hs := splitAux_missOk E w h rect (t.fuel w h) t ht
      simp only [split]
      generalize splitAux E w h rect (t.fuel w h) t = s at hs
      cases s with
      | leaf d => exact ⟨hs, fun x hx => Or.inl hx⟩
      | node d a b c e =>
        obtain ⟨h0, ma, mb, mc, me⟩ := hs
        refine ⟨⟨h0, (ih a _ ma).1, (ih b _ mb).1, (ih c _ mc).1, (ih e _ me).1⟩, ?_⟩
        intro x hx
        rcases (ih e _ me).2 x hx with hx | hx
        · rcases (ih c _ mc).2 x hx with hx | hx
          · rcases (ih b _ mb).2 x hx with hx | hx
            · exact (ih a _ ma).2 x hx
            · exact Or.inr hx
          · exact Or.inr hx
        · exact Or.inr hx

theorem rankMiss_range (pm : Option Int) (d : TileData) (hd : RANGE_MIN ≤ d.miss ∧ d.miss ≤ RANGE_MAX) :
    RANGE_MIN ≤ (rankMiss pm d).miss ∧ (rankMiss pm d).miss ≤ RANGE_MAX := by
  cases pm with
  | none => exact hd
  | some m =>
    simp only [rankMiss, qBound, RANGE_MIN, RANGE_MAX]
    omega

theorem rankTiles_missOk (pm : Option Int) (ptr : TilePtr) (t : Tile) (ranked : List TilePtr)
    (ht : t.MissOk) : (rankTiles pm ptr t ranked).1.MissOk := by
  induction t generalizing pm ptr ranked with
  | leaf d =>
    simp only [rankTiles]
    split_ifs <;> exact rankMiss_range pm d ht
  | node d a b c e iha ihb ihc ihe =>
    simp only [rankTiles]
    split_ifs
    · exact ⟨rankMiss_range pm d ht.1, ht.2⟩
    · exact ⟨range_zero, iha _ _ _ ht.2.1, ihb _ _ _ ht.2.2.1, ihc _ _ _ ht.2.2.2.1,
        ihe _ _ _ ht.2.2.2.2⟩

theorem clearAt_node_miss (i : Nat) (p : List Nat) (d : TileData) (a b c e : Tile) :
    ∃ d', d'.miss = d.miss ∧
      (clearAt (i :: p) (.node d a b c e)).1 =
        .node d' (if i = 0 then (clearAt p a).1 else a) (if i = 1 then (clearAt p b).1 else b)
          (if i = 2 then (clearAt p c).1 else c) (if i = 3 then (clearAt p e).1 else e) := by
  rcases i with _ | _ | _ | _ | i
  · by_cases hc : ((clearAt p a).2 && !d.dirty) = true
    · exact ⟨{ d with dirty := true }, rfl, by simp [clearAt, hc, Tile.setData]⟩
    · exact ⟨d, rfl, by simp [clearAt, hc]⟩
  · by_cases hc : ((clearAt p b).2 && !d.dirty) = true
    · exact ⟨{ d with dirty := true }, rfl, by simp [clearAt, hc, Tile.setData]⟩
    · exact ⟨d, rfl, by simp [clearAt, hc]⟩
  · by_cases hc : ((clearAt p c).2 && !d.dirty) = true
    · exact ⟨{ d with dirty := true }, rfl, by simp [clearAt, hc, Tile.setData]⟩
    · exact ⟨d, rfl, by simp [clearAt, hc]⟩
  · by_cases hc : ((clearAt p e).2 && !d.dirty) = true
    · exact ⟨{ d with dirty := true }, rfl, by simp [clearAt, hc, Tile.setData]⟩
    · exact ⟨d, rfl, by simp [clearAt, hc]⟩
  · exact ⟨d, rfl, by simp [clearAt]⟩

theorem clearAt_missOk (p : List Nat) (t : Tile) (ht : t.MissOk) : (clearAt p t).1.MissOk := by
  induction p generalizing t with
  | nil => exact Tile.missOk_setData _ _ ht range_zero
  | cons i p ih =>
    cases t with
    | leaf d => exact ht
    | node d a b c e =>
      obtain ⟨d', hd, heq⟩ := clearAt_node_miss i p d a b c e
      rw [heq]
      obtain ⟨h0, ma, mb, mc, me⟩ := ht
      refine ⟨by rw [hd]; exact h0, ?_, ?_, ?_, ?_⟩
      · split_ifs
        · exact ih a ma
        · exact ma
      · split_ifs
        · exact ih b mb
        · exact mb
      · split_ifs
        · exact ih c mc
        · exact mc
      · split_ifs
        · exact ih e me
        · exact me

/-! ### Lifting a property of tiles to the roots -/

theorem setPixmapRoots_forall (P : Tile → Prop) (E : Env) (w h : Int) (rot : Rotation)
    (pm : QPixmap) (rect : NormalizedRect)
    (hP : ∀ t T, P t → P (Private.setPixmap E w h rot pm rect t T).1)
    (ts : List Tile) (T : Int) (hts : ∀ t ∈ ts, P t) :
    ∀ t ∈ (setPixmapRoots E w h rot pm rect ts T).1, P t := by
  induction ts generalizing T with
  | nil => simp [setPixmapRoots]
  | cons t ts ih =>
    intro u hu
    simp only [setPixmapRoots, List.mem_cons] at hu
    rcases hu with rfl | hu
    · exact hP _ _ (hts t (List.mem_cons_self _ _))
    · exact ih _ (fun v hv => hts v (List.mem_cons_of_mem _ hv)) u hu

theorem tilesAtRoots_forall (P : Tile → Prop) (E : Env) (w h : Int) (rot : Rotation)
    (rect : NormalizedRect) (allowEmpty : Bool)
    (hP : ∀ t res, P t → P (Private.tilesAt E w h rot rect allowEmpty t res).1)
    (ts : List Tile) (res : List Tile) (hts : ∀ t ∈ ts, P t) :
    ∀ t ∈ (tilesAtRoots E w h rot rect allowEmpty ts res).1, P t := by
  induction ts generalizing res with
  | nil => simp [tilesAtRoots]
  | cons t ts ih =>
    intro u hu
    simp only [tilesAtRoots, List.mem_cons] at hu
    rcases hu with rfl | hu
    · exact hP _ _ (hts t (List.mem_cons_self _ _))
    · exact ih _ (fun v hv => hts v (List.mem_cons_of_mem _ hv)) u hu

theorem rankRoots_forall (P : Tile → Prop)
    (hP : ∀ pm ptr t ranked, P t → P (rankTiles pm ptr t ranked).1)
    (k : Nat) (ts : List Tile) (ranked : List TilePtr) (hts : ∀ t ∈ ts, P t) :
    ∀ t ∈ (rankRoots k ts ranked).1, P t := by
  induction ts generalizing k ranked with
  | nil => simp [rankRoots]
  | cons t ts ih =>
    intro u hu
    simp only [rankRoots, List.mem_cons] at hu
    rcases hu with rfl | hu
    · exact hP _ _ _ _ (hts t (List.mem_cons_self _ _))
    · exact ih _ _ (fun v hv => hts v (List.mem_cons_of_mem _ hv)) u hu

theorem clearTile_forall (P : Tile → Prop) (hP : ∀ p t, P t → P (clearAt p t).1)
    (ts : List Tile) (ptr : TilePtr) (hts : ∀ t ∈ ts, P t) :
    ∀ t ∈ clearTile ts ptr, P t := by
  cases ptr with
  | nil => exact hts
  | cons i p =>
    simp only [clearTile]
    cases hget : ts.get? i with
    | none => exact hts
    | some t =>
      intro u hu
      rcases List.mem_or_eq_of_mem_set hu with hu | rfl
      · exact hts u hu
      · exact hP _ _ (hts t (List.get?_mem hget))

theorem evictLoop_forall (P : Tile → Prop) (hP : ∀ p t, P t → P (clearAt p t).1)
    (n : Nat) (order : List TilePtr) (s : TilesManager) (hs : ∀ t ∈ s.tiles, P t) :
    ∀ t ∈ (evictLoop n order s).tiles, P t := by
  induction order generalizing n s with
  | nil => exact hs
  | cons ptr order ih =>
    simp only [evictLoop]
    split_ifs
    · exact hs
    · split
      · exact ih _ _ hs
      · apply ih
        unfold TilesManager.discard
        split
        · exact hs
        · exact clearTile_forall P hP _ _ hs

/-- A property of tiles that every operation on a tile preserves holds of the
roots of every reachable state. -/
theorem Reachable.forall_roots {E : Env} (P : Tile → Prop)
    (hfresh : ∀ r, P (Tile.fresh r))
    (hdirty : ∀ t, P t → P (markDirty t))
    (hset : ∀ w h rot pm rect t T, P t → P (Private.setPixmap E w h rot pm rect t T).1)
    (hat : ∀ w h rot rect allowEmpty t res, P t →
      P (Private.tilesAt E w h rot rect allowEmpty t res).1)
    (hrank : ∀ pm ptr t ranked, P t → P (rankTiles pm ptr t ranked).1)
    (hclear : ∀ p t, P t → P (clearAt p t).1)
    {s : TilesManager} (hs : Reachable E s) : ∀ t ∈ s.tiles, P t := by
  induction hs with
  | construct w h rot =>
    intro t ht
    have ht' : t ∈ (List.range 16).map fun i => Tile.fresh (rootRect i) := ht
    obtain ⟨i, -, rfl⟩ := List.mem_map.mp ht'
    exact hfresh _
  | setWidth w _ ih =>
    unfold TilesManager.setWidth
    split_ifs
    · exact ih
    · intro t ht
      obtain ⟨u, hu, rfl⟩ := List.mem_map.mp ht
      exact hdirty u (ih u hu)
  | setHeight h _ ih =>
    unfold TilesManager.setHeight
    split_ifs
    · exact ih
    · exact ih
  | setRotation rot _ ih =>
    unfold TilesManager.setRotation
    split_ifs
    · exact ih
    · intro t ht
      obtain ⟨u, hu, rfl⟩ := List.mem_map.mp ht
      exact hdirty u (ih u hu)
  | setPixmap pm rect _ ih =>
    exact setPixmapRoots_forall P E _ _ _ _ _ (hset _ _ _ _ _) _ _ ih
  | tilesAt rect allowEmpty _ ih =>
    exact tilesAtRoots_forall P E _ _ _ _ _ (hat _ _ _ _ _) _ _ ih
  | cleanupPixmapMemory n _ ih =>
    exact evictLoop_forall P hclear _ _ _ (rankRoots_forall P hrank _ _ _ ih)

theorem Reachable.missOk {E : Env} {s : TilesManager} (hs : Reachable E s) :
    ∀ t ∈ s.tiles, t.MissOk :=
  Reachable.forall_roots Tile.MissOk (fun _ => range_zero) markDirty_missOk
    (fun _ _ _ _ _ _ _ ht => setPixmapAux_missOk _ _ _ _ _ _ _ _ _ ht)
    (fun _ _ _ _ _ _ _ ht => (tilesAtAux_missOk _ _ _ _ _ _ _ _ _ ht).1)
    (fun _ _ _ _ ht => rankTiles_missOk _ _ _ _ ht) clearAt_missOk hs

theorem tilesAtRoots_miss (E : Env) (w h : Int) (rot : Rotation) (rect : NormalizedRect)
    (allowEmpty : Bool) (ts : List Tile) (res : List Tile) (hts : ∀ t ∈ ts, t.MissOk) :
    ∀ x ∈ (tilesAtRoots E w h rot rect allowEmpty ts res).2,
      x ∈ res ∨ (RANGE_MIN ≤ x.miss ∧ x.miss ≤ RANGE_MAX) := by
  induction ts generalizing res with
  | nil => exact fun x hx => Or.inl hx
  | cons t ts ih =>
    intro x hx
    simp only [tilesAtRoots] at hx
    rcases ih _ (fun v hv => hts v (List.mem_cons_of_mem _ hv)) x hx with hx | hx
    · exact (tilesAtAux_missOk _ _ _ _ _ _ _ _ _ (hts t (List.mem_cons_self _ _))).2 x hx
    · exact Or.inr hx

/-- C11: in every reachable state the `miss` counter of every tile of the
forest lies between -1073741824 and 1073741823, and so does the `miss` of
every tile `tilesAt` returns. -/
theorem miss_saturates (E : Env) (s : TilesManager) (hs : Reachable E s) :
    (∀ t ∈ s.allTiles, -1073741824 ≤ t.miss ∧ t.miss ≤ 1073741823) ∧
    ∀ (rect : NormalizedRect) (allowEmpty : Bool), ∀ t ∈ (s.tilesAt E rect allowEmpty).2,
      -1073741824 ≤ t.miss ∧ t.miss ≤ 1073741823 := by
  constructor
  · intro t ht
    obtain ⟨root, hr, hsub⟩ := mem_allTiles.mp ht
    exact ((hs.missOk root hr).subtiles_missOk t hsub).miss_range
  · intro rect allowEmpty t ht
    rcases tilesAtRoots_miss E _ _ _ _ _ _ _ hs.missOk t ht with h | h
    · simp at h
    · exact h

/-- C11, at an instance: the state `dirtyServedCleanMissed`. -/
theorem miss_saturates_witness :
    (∀ t ∈ dirtyServedCleanMissed.allTiles, -1073741824 ≤ t.miss ∧ t.miss ≤ 1073741823) ∧
    ∀ (rect : NormalizedRect) (allowEmpty : Bool),
      ∀ t ∈ (dirtyServedCleanMissed.tilesAt upstream rect allowEmpty).2,
        -1073741824 ≤ t.miss ∧ t.miss ≤ 1073741823 :=
  miss_saturates upstream dirtyServedCleanMissed reachable_dirtyServedCleanMissed

/-! ### Invalidation by `setWidth` and `setRotation` -/

theorem markDirty_subtiles_dirty (t : Tile) : ∀ u ∈ (markDirty t).subtiles, u.dirty = true := by
  induction t with
  | leaf d =>
    intro u hu
    simp only [markDirty, Tile.subtiles, List.mem_singleton] at hu
    rw [hu]; rfl
  | node d a b c e iha ihb ihc ihe =>
    intro u hu
    simp only [markDirty] at hu
    rcases Tile.mem_subtiles_node.mp hu with rfl | h | h | h | h
    · rfl
    · exact iha u h
    · exact ihb u h
    · exact ihc u h
    · exact ihe u h

/-- A tree whose tiles are all dirty fails the coverage test for every region
that shares a point with it. -/
theorem hasPixmap_false_of_dirty (rect : NormalizedRect) (t : Tile) (hw : t.Wf)
    (hd : ∀ u ∈ t.subtiles, u.dirty = true) (x y : ℚ) (ht : t.rect.Contains x y)
    (hr : rect.Contains x y) : Private.hasPixmap rect t = false := by
  induction t with
  | leaf d =>
    have h1 : d.rect.intersects rect = true := intersects_of_contains _ _ x y ht hr
    have h2 : d.dirty = true := hd _ (Tile.self_mem_subtiles _)
    simp [Private.hasPixmap, h1, h2]
  | node d a b c e iha ihb ihc ihe =>
    have h1 : d.rect.intersects rect = true := intersects_of_contains _ _ x y ht hr
    have h2 : d.dirty = true := hd _ (Tile.self_mem_subtiles _)
    obtain ⟨hx, hy, ha, hb, hc, he, wa, wb, wc, we⟩ := hw
    have da : ∀ u ∈ a.subtiles, u.dirty = true := fun u hu =>
      hd u (Tile.mem_subtiles_node.mpr (Or.inr (Or.inl hu)))
    have db : ∀ u ∈ b.subtiles, u.dirty = true := fun u hu =>
      hd u (Tile.mem_subtiles_node.mpr (Or.inr (Or.inr (Or.inl hu))))
    have dc : ∀ u ∈ c.subtiles, u.dirty = true := fun u hu =>
      hd u (Tile.mem_subtiles_node.mpr (Or.inr (Or.inr (Or.inr (Or.inl hu)))))
    have de : ∀ u ∈ e.subtiles, u.dirty = true := fun u hu =>
      hd u (Tile.mem_subtiles_node.mpr (Or.inr (Or.inr (Or.inr (Or.inr hu)))))
    obtain ⟨p1, p2, p3, p4⟩ : d.rect.Contains x y := ht
    simp only [Private.hasPixmap, h1, h2, Bool.not_true, Bool.false_eq_true, if_false]
    by_cases cx : x ≤ (d.rect.left + d.rect.right) / 2
    · by_cases cy : y ≤ (d.rect.top + d.rect.bottom) / 2
      · rw [iha wa da (by rw [ha]; exact ⟨p1, cx, p3, cy⟩)]; simp
      · rw [ihc wc dc (by rw [hc]; exact ⟨p1, cx, (not_le.mp cy).le, p4⟩)]; simp
    · by_cases cy : y ≤ (d.rect.top + d.rect.bottom) / 2
      · rw [ihb wb db (by rw [hb]; exact ⟨(not_le.mp cx).le, p2, p3, cy⟩)]; simp
      · rw [ihe we de (by rw [he]; exact ⟨(not_le.mp cx).le, p2, (not_le.mp cy).le, p4⟩)]; simp

theorem map_markDirty_inv (s : TilesManager) (hs : s.Inv) (w : Int) (rot : Rotation) :
    ({ s with width := w, rotation := rot, tiles := s.tiles.map markDirty } : TilesManager).Inv :=
  map_markDirty_forall₂ _ _ hs

/-- After all roots have been marked dirty, every tile is dirty and the
coverage test fails for every well-formed rectangle inside the unit square. -/
theorem invalidated (s : TilesManager) (hs : s.Inv) (w : Int) (rot : Rotation) :
    (∀ t ∈ ({ s with width := w, rotation := rot, tiles := s.tiles.map markDirty }
      : TilesManager).allTiles, t.dirty = true) ∧
    ∀ r : NormalizedRect, r.WellFormed → r.InUnitSquare →
      ({ s with width := w, rotation := rot, tiles := s.tiles.map markDirty }
        : TilesManager).hasPixmap r = false := by
  constructor
  · intro t ht
    obtain ⟨root, hr, hsub⟩ := mem_allTiles.mp ht
    obtain ⟨u, -, rfl⟩ := List.mem_map.mp hr
    exact markDirty_subtiles_dirty u t hsub
  · intro r hwf hu
    obtain ⟨u1, u2, u3, u4⟩ := hu
    obtain ⟨w1, w2⟩ := hwf
    have hin : r.Contains r.left r.top := ⟨le_refl _, w1, le_refl _, w2⟩
    have hunit : 0 ≤ r.left ∧ r.left ≤ 1 ∧ 0 ≤ r.top ∧ r.top ≤ 1 :=
      ⟨u1, by linarith, u3, by linarith⟩
    obtain ⟨n1, n2, n3, n4⟩ := (naturalPoint_unit rot r.left r.top).mpr hunit
    obtain ⟨i, hi, hci⟩ := exists_rootRect_contains _ _ n1 n2 n3 n4
    have hinv := map_markDirty_inv s hs w rot
    obtain ⟨t, ht, hok⟩ := hinv.get? i hi
    have hmem : t ∈ s.tiles.map markDirty := List.get?_mem ht
    obtain ⟨u, -, hu⟩ := List.mem_map.mp hmem
    have hfalse : Private.hasPixmap (fromRotatedRect r rot) t = false := by
      apply hasPixmap_false_of_dirty _ t hok.2.1 _ _ _ (by rw [hok.1]; exact hci)
        ((contains_fromRotatedRect r rot r.left r.top).mpr hin)
      rw [← hu]
      exact markDirty_subtiles_dirty u
    simp only [TilesManager.hasPixmap]
    rw [Bool.eq_false_iff]
    intro hall
    rw [List.all_eq_true] at hall
    have := hall t hmem
    rw [hfalse] at this
    exact Bool.false_ne_true this

/-- C12: in every reachable state, `setRotation` with a rotation other than
the current one, and `setWidth` with a width other than the current one, leave
every tile of the forest dirty, and afterwards `hasPixmap(r)` returns false for
every well-formed rectangle `r` inside the unit square. -/
theorem full_invalidation (E : Env) (s : TilesManager) (hs : Reachable E s) :
    (∀ rot : Rotation, rot ≠ s.rotation →
      (∀ t ∈ (s.setRotation rot).allTiles, t.dirty = true) ∧
      ∀ r : NormalizedRect, r.WellFormed → r.InUnitSquare →
        (s.setRotation rot).hasPixmap r = false) ∧
    (∀ w : Int, w ≠ s.width →
      (∀ t ∈ (s.setWidth w).allTiles, t.dirty = true) ∧
      ∀ r : NormalizedRect, r.WellFormed → r.InUnitSquare →
        (s.setWidth w).hasPixmap r = false) := by
  constructor
  · intro rot hne
    have h := invalidated s hs.inv s.width rot
    simp only [TilesManager.setRotation, hne, if_false]
    exact h
  · intro w hne
    have h := invalidated s hs.inv w s.rotation
    simp only [TilesManager.setWidth, hne, if_false]
    exact h

/-- C12, at an instance: the scenario of the spec, then `setRotation(90)` or
`setWidth(2000)`, asked for the middle of the page. -/
theorem full_invalidation_witness :
    (fullPageFilled.setRotation .Rotation90).hasPixmap ⟨1 / 4, 1 / 4, 3 / 4, 3 / 4⟩ = false ∧
    (fullPageFilled.setWidth 2000).hasPixmap ⟨1 / 4, 1 / 4, 3 / 4, 3 / 4⟩ = false :=
  have hr : Reachable upstream fullPageFilled :=
    Reachable.setPixmap _ _ (Reachable.construct 1000 1000 .Rotation0)
  have hwf : (⟨1 / 4, 1 / 4, 3 / 4, 3 / 4⟩ : NormalizedRect).WellFormed := by
    constructor <;> norm_num
  have hu : (⟨1 / 4, 1 / 4, 3 / 4, 3 / 4⟩ : NormalizedRect).InUnitSquare := by
    refine ⟨?_, ?_, ?_, ?_⟩ <;> norm_num
  ⟨((full_invalidation upstream fullPageFilled hr).1 .Rotation90 (by decide)).2 _ hwf hu,
    ((full_invalidation upstream fullPageFilled hr).2 2000 (by decide)).2 _ hwf hu⟩

/-! ### Buffers of tiles that have children -/

theorem Tile.BufOk.subtiles_bufOk {t : Tile} (ht : t.BufOk) : ∀ u ∈ t.subtiles, u.BufOk := by
  induction t with
  | leaf d =>
    intro u hu
    simp only [Tile.subtiles, List.mem_singleton] at hu
    rw [hu]; trivial
  | node d a b c e iha ihb ihc ihe =>
    intro u hu
    rcases Tile.mem_subtiles_node.mp hu with rfl | h | h | h | h
    · exact ht
    · exact iha ht.2.1 u h
    · exact ihb ht.2.2.1 u h
    · exact ihc ht.2.2.2.1 u h
    · exact ihe ht.2.2.2.2 u h

theorem Tile.Wf.subtiles_within {t : Tile} (ht : t.Wf) :
    ∀ u ∈ t.subtiles, u.rect.Within t.rect := by
  induction t with
  | leaf d =>
    intro u hu
    simp only [Tile.subtiles, List.mem_singleton] at hu
    rw [hu]; exact NormalizedRect.Within.self _
  | node d a b c e iha ihb ihc ihe =>
    intro u hu
    obtain ⟨hx, hy, ha, hb, hc, he, wa, wb, wc, we⟩ := ht
    have qa : a.rect.Within d.rect := by
      rw [ha]; refine ⟨?_, ?_, ?_, ?_⟩ <;> simp only <;> linarith
    have qb : b.rect.Within d.rect := by
      rw [hb]; refine ⟨?_, ?_, ?_, ?_⟩ <;> simp only <;> linarith
    have qc : c.rect.Within d.rect := by
      rw [hc]; refine ⟨?_, ?_, ?_, ?_⟩ <;> simp only <;> linarith
    have qe : e.rect.Within d.rect := by
      rw [he]; refine ⟨?_, ?_, ?_, ?_⟩ <;> simp only <;> linarith
    rcases Tile.mem_subtiles_node.mp hu with rfl | h | h | h | h
    · exact NormalizedRect.Within.self _
    · exact (iha wa u h).trans qa
    · exact (ihb wb u h).trans qb
    · exact (ihc wc u h).trans qc
    · exact (ihe we u h).trans qe

theorem intersects_of_within (a b rect : NormalizedRect) (hab : a.Within b)
    (h : a.intersects rect = true) : b.intersects rect = true := by
  obtain ⟨w1, w2, w3, w4⟩ := hab
  simp only [NormalizedRect.intersects, decide_eq_true_eq] at h ⊢
  obtain ⟨h1, h2, h3, h4⟩ := h
  refine ⟨?_, ?_, ?_, ?_⟩ <;> linarith

/-- After `setPixmap`, a tile with children whose region meets the region
given holds no buffer. -/
theorem setPixmapAux_clears_nodes (E : Env) (w h : Int) (rot : Rotation) (pm : QPixmap)
    (rect : NormalizedRect) (n : Nat) (t : Tile) (T : Int) (ht : t.Wf) (hn : t.fuel w h ≤ n) :
    ∀ u ∈ (setPixmapAux E w h rot pm rect n t T).1.subtiles,
      u.nTiles ≠ 0 → u.rect.intersects rect = true → u.pixmap = none := by
  induction n generalizing t T with
  | zero => have := fuel_pos w h t; omega
  | succ n ih =>
    simp only [setPixmapAux]
    split_ifs with h1 h2
    · intro u hu _ hi
      have := intersects_of_within _ _ rect (ht.subtiles_within u hu) hi
      rw [this] at h1
      exact absurd h1 (by simp)
    · cases t with
      | leaf d =>
        intro u hu hnt
        simp only [Tile.subtiles, List.mem_singleton] at hu
        rw [hu] at hnt
        exact absurd rfl hnt
      | node d a b c e =>
        obtain ⟨an, bn, cn, en⟩ := fuel_node_children w h d a b c e n hn
        obtain ⟨-, -, -, -, -, -, wa, wb, wc, we⟩ := ht
        intro u hu hnt hi
        rcases Tile.mem_subtiles_node.mp hu with rfl | hu | hu | hu | hu
        · rfl
        · exact ih a _ wa an u hu hnt hi
        · exact ih b _ wb bn u hu hnt hi
        · exact ih c _ wc cn u hu hnt hi
        · exact ih e _ we en u hu hnt hi
    · cases t with
      | leaf d =>
        simp only
        split_ifs with h3
        · intro u hu hnt
          simp only [Tile.subtiles, List.mem_singleton] at hu
          rw [hu] at hnt
          exact absurd rfl hnt
        · have hw := splitAux_wf E w h rect (Tile.fuel w h (Tile.leaf { d with dirty := false }))
            (Tile.leaf { d with dirty := false }) ht
          have hf := fuel_splitAux_le E w h rect
            (Tile.fuel w h (Tile.leaf { d with dirty := false }))
            (Tile.leaf { d with dirty := false })
          have hfe : Tile.fuel w h (Tile.leaf { d with dirty := false })
            = Tile.fuel w h (Tile.leaf d) := rfl
          simp only [split]
          generalize splitAux E w h rect (Tile.fuel w h (Tile.leaf { d with dirty := false }))
            (Tile.leaf { d with dirty := false }) = s at hw hf
          cases s with
          | leaf d1 =>
            intro u hu hnt
            simp only [Tile.subtiles, List.mem_singleton] at hu
            rw [hu] at hnt
            exact absurd rfl hnt
          | node d1 a b c e =>
            obtain ⟨an, bn, cn, en⟩ := fuel_node_children w h d1 a b c e n (by omega)
            obtain ⟨-, -, -, -, -, -, wa, wb, wc, we⟩ := hw
            intro u hu hnt hi
            rcases Tile.mem_subtiles_node.mp hu with rfl | hu | hu | hu | hu
            · rfl
            · exact ih a _ wa an u hu hnt hi
            · exact ih b _ wb bn u hu hnt hi
            · exact ih c _ wc cn u hu hnt hi
            · exact ih e _ we en u hu hnt hi
      | node d a b c e =>
        simp only
        split_ifs with h3
        · obtain ⟨an, bn, cn, en⟩ := fuel_node_children w h d a b c e n hn
          obtain ⟨-, -, -, -, -, -, wa, wb, wc, we⟩ := ht
          intro u hu hnt hi
          rcases Tile.mem_subtiles_node.mp hu with rfl | hu | hu | hu | hu
          · rfl
          · exact ih a _ wa an u hu hnt hi
          · exact ih b _ wb bn u hu hnt hi
          · exact ih c _ wc cn u hu hnt hi
          · exact ih e _ we en u hu hnt hi
        · intro u hu hnt
          simp only [Tile.subtiles, List.mem_singleton] at hu
          rw [hu] at hnt
          exact absurd rfl hnt

theorem setPixmapRoots_clears_nodes (E : Env) (w h : Int) (rot : Rotation) (pm : QPixmap)
    (rect : NormalizedRect) (ts : List Tile) (T : Int) (is : List Nat)
    (hts : List.Forall₂ Tile.RootOk ts is) :
    ∀ root ∈ (setPixmapRoots E w h rot pm rect ts T).1, ∀ u ∈ root.subtiles,
      u.nTiles ≠ 0 → u.rect.intersects rect = true → u.pixmap = none := by
  induction hts generalizing T with
  | nil => simp [setPixmapRoots]
  | @cons t i ts is hd _ ih =>
    intro root hroot
    simp only [setPixmapRoots, List.mem_cons] at hroot
    rcases hroot with rfl | hroot
    · exact setPixmapAux_clears_nodes E w h rot pm rect _ t T hd.2.1 (le_refl _)
    · exact ih _ root hroot

/-- C14 (as stated, false): in the reachable state `rootZeroSplit` root 0 has
four children and holds a buffer of 250 by 250 pixels: `setWidth` has made it
large enough for `tilesAt` to split it, and `split` leaves its buffer alone. -/
theorem tile_with_children_holds_buffer :
    Reachable upstream rootZeroSplit ∧
    ¬ ∀ t ∈ rootZeroSplit.allTiles, 0 < t.nTiles → t.pixmap = none := by
  refine ⟨reachable_rootZeroSplit, fun h => ?_⟩
  have h1 : ∃ t ∈ rootZeroSplit.allTiles, t.nTiles = 4 ∧ t.pixmap = some ⟨250, 250⟩ := by
    decide!
  obtain ⟨t, ht, hn, hp⟩ := h1
  have := h t ht (by omega)
  rw [hp] at this
  exact Option.noConfusion this

/-- C14 (amended): in every reachable state a tile that has children and holds
a buffer has no descendant that holds a buffer, and directly after
`setPixmap(pixmap, rect)` no tile with children whose region intersects the
region given (mapped to the unrotated page) holds a buffer. -/
theorem buffer_of_tile_with_children (E : Env) (s : TilesManager) (hs : Reachable E s) :
    (∀ t ∈ s.allTiles, ∀ d a b c e, t = Tile.node d a b c e → d.pixmap.isSome = true →
      a.holdsBuffer = false ∧ b.holdsBuffer = false ∧ c.holdsBuffer = false ∧
        e.holdsBuffer = false) ∧
    ∀ (pixmap : QPixmap) (rect : NormalizedRect),
      ∀ t ∈ (s.setPixmap E pixmap rect).allTiles, t.nTiles ≠ 0 →
        t.rect.intersects (fromRotatedRect rect s.rotation) = true → t.pixmap = none := by
  constructor
  · intro t ht d a b c e hnode hp
    obtain ⟨root, hr, hsub⟩ := mem_allTiles.mp ht
    have hb := (hs.inv.roots_bufOk root hr).subtiles_bufOk t hsub
    rw [hnode] at hb
    exact hb.1 hp
  · intro pixmap rect t ht
    obtain ⟨root, hr, hsub⟩ := mem_allTiles.mp ht
    exact setPixmapRoots_clears_nodes E _ _ _ _ _ _ _ _ hs.inv root hr t hsub

/-- C14 (amended), at an instance: the state `rootZeroSplit`, whose root 0 has
children and a buffer, and `setPixmap` over its first quarter. -/
theorem buffer_of_tile_with_children_witness :
    (∀ t ∈ rootZeroSplit.allTiles, ∀ d a b c e, t = Tile.node d a b c e →
      d.pixmap.isSome = true →
      a.holdsBuffer = false ∧ b.holdsBuffer = false ∧ c.holdsBuffer = false ∧
        e.holdsBuffer = false) ∧
    ∀ (pixmap : QPixmap) (rect : NormalizedRect),
      ∀ t ∈ (rootZeroSplit.setPixmap upstream pixmap rect).allTiles, t.nTiles ≠ 0 →
        t.rect.intersects (fromRotatedRect rect rootZeroSplit.rotation) = true →
        t.pixmap = none :=
  buffer_of_tile_with_children upstream rootZeroSplit reachable_rootZeroSplit

/-! ### The buffers `setPixmap` stores -/

theorem pixmap_none_of_not_holdsBuffer {t : Tile} (h : t.holdsBuffer = false) :
    ∀ u ∈ t.subtiles, u.pixmap = none := by
  induction t with
  | leaf d =>
    intro u hu
    simp only [Tile.subtiles, List.mem_singleton] at hu
    rw [hu]
    simpa [Tile.holdsBuffer] using h
  | node d a b c e iha ihb ihc ihe =>
    simp only [Tile.holdsBuffer, Bool.or_eq_false_iff] at h
    obtain ⟨⟨⟨⟨h0, h1⟩, h2⟩, h3⟩, h4⟩ := h
    intro u hu
    rcases Tile.mem_subtiles_node.mp hu with rfl | hu | hu | hu | hu
    · simpa [Tile.pixmap, Tile.data] using h0
    · exact iha h1 u hu
    · exact ihb h2 u hu
    · exact ihc h3 u hu
    · exact ihe h4 u hu

/-- C20 (fails in the code): on a page of 200000 by 200000 pixels the integer
rectangle of root 0 is 50000 by 50000 pixels and the product the size test
computes, a product of two `int`s, is -1794967296. The test `< TILES_MAXSIZE`
passes, and `setPixmap(buffer, [0, 0, 1/4, 1/4])` stores in root 0, without
dividing it, the copy of a rectangle of 50000 by 50000 pixels: a buffer of
2500000000 pixels, which is not below `TILES_MAXSIZE`. -/
theorem stored_buffer_exceeds_threshold :
    Reachable upstream hugePageFilled ∧
    ((rootRect 0).geometry 200000 200000).width = 50000 ∧
    ((rootRect 0).geometry 200000 200000).height = 50000 ∧
    ((rootRect 0).geometry 200000 200000).area = -1794967296 ∧
    ((rootRect 0).geometry 200000 200000).translatedBack
      ((toRotatedRect (fromRotatedRect ⟨0, 0, 1 / 4, 1 / 4⟩ .Rotation0) .Rotation0).geometry
        200000 200000) = ⟨0, 0, 50000, 50000⟩ ∧
    (hugePageFilled.tiles.head?.map fun t => (t.nTiles, t.rect, t.pixmap, t.dirty))
      = some (0, rootRect 0, some ⟨50000, 50000⟩, false) ∧
    (50000 : Int) * 50000 = 2500000000 ∧
    ¬ (2500000000 : Int) < upstream.TILES_MAXSIZE := by
  refine ⟨Reachable.setPixmap _ _ (Reachable.construct 200000 200000 .Rotation0), ?_⟩
  decide!

/-! ### The scenario of the full page -/

/-- C18: in the scenario of the spec (a page of 1000 by 1000 pixels at rotation
0, then `setPixmap` with a buffer of the full page) no root reaches the split
threshold; every root holds a buffer whose pixel count is the width times the
height of the integer rectangle of its region, 250 by 250 pixels;
`hasPixmap([1/4, 1/4, 3/4, 3/4])` is true and `totalMemory()` is
`4*1000*1000`, four times the pixels the buffers hold. -/
theorem full_page_scenario :
    (∀ i < 16,
      ((rootRect i).geometry 1000 1000).width = 250 ∧
      ((rootRect i).geometry 1000 1000).height = 250 ∧
      ((rootRect i).geometry 1000 1000).area < upstream.TILES_MAXSIZE ∧
      (fullPageFilled.tiles.get? i).map Tile.nTiles = some 0 ∧
      (pixmapAt fullPageFilled.tiles [i]).map QPixmap.pixels
        = some (((rootRect i).geometry 1000 1000).width
            * ((rootRect i).geometry 1000 1000).height)) ∧
    fullPageFilled.hasPixmap ⟨1 / 4, 1 / 4, 3 / 4, 3 / 4⟩ = true ∧
    fullPageFilled.totalMemory = 4 * 1000 * 1000 ∧
    fullPageFilled.totalMemory = 4 * fullPageFilled.bufferPixels := by
  decide!

/-! ### Eviction below a clean root -/

theorem reachable_cleanRootDirtyChild : Reachable upstream cleanRootDirtyChild :=
  Reachable.setPixmap _ _ (Reachable.tilesAt _ _ (Reachable.setHeight _ reachable_rootZeroFilled))

/-- C17 (fails in the code): in the reachable state `cleanRootDirtyChild` the
only buffer is held by the tile at path 0, 0, 0, whose parent is dirty and
whose grandparent, root 0, is not. `cleanupPixmapMemory(4)` discards that
buffer, finds the parent dirty already and stops there: root 0, a strict
ancestor of the tile discarded, is still not dirty, and `hasPixmap` still
answers true for the region of the tile. -/
theorem ancestor_stays_clean_after_eviction :
    Reachable upstream cleanRootDirtyChild ∧
    evictionOrder upstream cleanRootDirtyChild = [[0, 0, 0]] ∧
    pixmapAt cleanRootDirtyChild.tiles [0, 0, 0] = some ⟨62, 12500⟩ ∧
    (deref cleanRootDirtyChild.tiles [0, 0]).dirty = true ∧
    (deref cleanRootDirtyChild.tiles [0]).dirty = false ∧
    pixmapAt (cleanRootDirtyChild.cleanupPixmapMemory upstream 4).tiles [0, 0, 0] = none ∧
    (deref (cleanRootDirtyChild.cleanupPixmapMemory upstream 4).tiles [0, 0]).dirty = true ∧
    (deref (cleanRootDirtyChild.cleanupPixmapMemory upstream 4).tiles [0]).dirty = false ∧
    (cleanRootDirtyChild.cleanupPixmapMemory upstream 4).hasPixmap ⟨0, 0, 1 / 16, 1 / 16⟩
      = true := by
  refine ⟨reachable_cleanRootDirtyChild, ?_⟩
  decide!

/-! ### The comparator -/

/-- C26: when exactly one of two tiles is dirty `rankedTilesLessThan` answers
whether the first has the smaller `miss`; when both have the same dirty flag it
answers whether the first is not dirty, whatever the `miss` values and the
second tile are. -/
theorem rankedTilesLessThan_shape (t1 t2 : TileData) :
    (t1.dirty ≠ t2.dirty → (rankedTilesLessThan t1 t2 = true ↔ t1.miss < t2.miss)) ∧
    (t1.dirty = t2.dirty → rankedTilesLessThan t1 t2 = !t1.dirty) ∧
    (t1.dirty = t2.dirty → ∀ u1 u2 : TileData, u1.dirty = t1.dirty → u2.dirty = t1.dirty →
      rankedTilesLessThan u1 u2 = rankedTilesLessThan t1 t2) := by
  refine ⟨fun h => ?_, fun h => ?_, fun h u1 u2 h1 h2 => ?_⟩
  · have hx : xor t1.dirty t2.dirty = true := by
      cases h1 : t1.dirty <;> cases h2 : t2.dirty <;> simp_all
    simp [rankedTilesLessThan, hx]
  · have hx : xor t1.dirty t2.dirty = false := by rw [h]; simp
    simp [rankedTilesLessThan, hx]
  · have hx : xor t1.dirty t2.dirty = false := by rw [h]; simp
    have hy : xor u1.dirty u2.dirty = false := by rw [h1, h2]; simp
    unfold rankedTilesLessThan
    rw [hx, hy]
    simp [h1]

/-- C26, at an instance: a dirty tile with `miss` 1 against a clean one with
`miss` 5, and two clean tiles with `miss` 5 and 1. -/
theorem rankedTilesLessThan_shape_witness :
    (rankedTilesLessThan ⟨NormalizedRect.null, none, true, 1⟩ ⟨NormalizedRect.null, none, false, 5⟩
      = true ↔ (1 : Int) < 5) ∧
    rankedTilesLessThan ⟨NormalizedRect.null, none, false, 5⟩ ⟨NormalizedRect.null, none, false, 1⟩
      = !false :=
  ⟨(rankedTilesLessThan_shape ⟨NormalizedRect.null, none, true, 1⟩
      ⟨NormalizedRect.null, none, false, 5⟩).1 (by decide),
    (rankedTilesLessThan_shape ⟨NormalizedRect.null, none, false, 5⟩
      ⟨NormalizedRect.null, none, false, 1⟩).2.1 rfl⟩

/-! ### `split` returns -/

theorem splitAux_splitsTo (E : Env) (w h : Int) (rect : NormalizedRect) (n : Nat) (t : Tile)
    (hn : t.fuel w h ≤ n) : SplitsTo E w h rect t (splitAux E w h rect n t) := by
  induction n generalizing t with
  | zero => have := fuel_pos w h t; omega
  | succ n ih =>
    cases t with
    | node d a b c e => exact SplitsTo.hasChildren d a b c e
    | leaf d =>
      simp only [splitAux]
      split_ifs with h1 h2
      · exact SplitsTo.outside d h1
      · have q1 := splitFuel_half_lt E w h d.rect
          ⟨d.rect.left, d.rect.top, (d.rect.left + d.rect.right) / 2, (d.rect.top + d.rect.bottom) / 2⟩
          h2 (by simp; ring) (by simp; ring)
        have q2 := splitFuel_half_lt E w h d.rect
          ⟨(d.rect.left + d.rect.right) / 2, d.rect.top, d.rect.right, (d.rect.top + d.rect.bottom) / 2⟩
          h2 (by simp; ring) (by simp; ring)
        have q3 := splitFuel_half_lt E w h d.rect
          ⟨d.rect.left, (d.rect.top + d.rect.bottom) / 2, (d.rect.left + d.rect.right) / 2, d.rect.bottom⟩
          h2 (by simp; ring) (by simp; ring)
        have q4 := splitFuel_half_lt E w h d.rect
          ⟨(d.rect.left + d.rect.right) / 2, (d.rect.top + d.rect.bottom) / 2, d.rect.right, d.rect.bottom⟩
          h2 (by simp; ring) (by simp; ring)
        simp only [Tile.fuel] at hn
        exact SplitsTo.divide d _ _ _ _ (by simpa using h1) h2
          (ih _ (by rw [fuel_fresh]; omega)) (ih _ (by rw [fuel_fresh]; omega))
          (ih _ (by rw [fuel_fresh]; omega)) (ih _ (by rw [fuel_fresh]; omega))
      · exact SplitsTo.small d (by simpa using h1) (not_le.mp h2)

/-- A run of `split` that returns leaves the tree the function `split`
computes. -/
theorem SplitsTo.eq_split {E : Env} {w h : Int} {rect : NormalizedRect} {t t1 : Tile}
    (hr : SplitsTo E w h rect t t1) : t1 = split E w h rect t := by
  have key : ∀ n, t.fuel w h ≤ n → t1 = splitAux E w h rect n t := by
    induction hr with
    | hasChildren d a b c e => intro n _; cases n <;> rfl
    | outside d h1 =>
      intro n hn
      cases n with
      | zero => rfl
      | succ n => simp only [splitAux, h1, if_true]
    | small d h1 h2 =>
      intro n hn
      cases n with
      | zero => rfl
      | succ n =>
        simp only [splitAux, h1, Bool.false_eq_true, if_false, not_le.mpr h2]
    | divide d a b c e h1 h2 _ _ _ _ iha ihb ihc ihe =>
      intro n hn
      cases n with
      | zero => have := fuel_pos w h (Tile.leaf d); omega
      | succ n =>
        have q1 := splitFuel_half_lt E w h d.rect
          ⟨d.rect.left, d.rect.top, (d.rect.left + d.rect.right) / 2, (d.rect.top + d.rect.bottom) / 2⟩
          h2 (by simp; ring) (by simp; ring)
        have q2 := splitFuel_half_lt E w h d.rect
          ⟨(d.rect.left + d.rect.right) / 2, d.rect.top, d.rect.right, (d.rect.top + d.rect.bottom) / 2⟩
          h2 (by simp; ring) (by simp; ring)
        have q3 := splitFuel_half_lt E w h d.rect
          ⟨d.rect.left, (d.rect.top + d.rect.bottom) / 2, (d.rect.left + d.rect.right) / 2, d.rect.bottom⟩
          h2 (by simp; ring) (by simp; ring)
        have q4 := splitFuel_half_lt E w h d.rect
          ⟨(d.rect.left + d.rect.right) / 2, (d.rect.top + d.rect.bottom) / 2, d.rect.right, d.rect.bottom⟩
          h2 (by simp; ring) (by simp; ring)
        simp only [Tile.fuel] at hn
        simp only [splitAux, h1, Bool.false_eq_true, if_false, h2, if_true]
        rw [← iha n (by rw [fuel_fresh]; omega), ← ihb n (by rw [fuel_fresh]; omega),
          ← ihc n (by rw [fuel_fresh]; omega), ← ihe n (by rw [fuel_fresh]; omega)]
  exact key _ (le_refl _)

/-- C27: `split` returns. For every tile, page size and rectangle there is a
run of `split( tile, rect )` that returns, it leaves the tree the function
`split` computes, and no other; the recursion stops because a region whose
sides, in pixels, are at most 1 has an integer rectangle of at most 2 by 2
pixels, which is below a threshold of at least 5. -/
theorem split_terminates (E : Env) (width height : Int) (rect : NormalizedRect) (tile : Tile) :
    SplitsTo E width height rect tile (split E width height rect tile) ∧
    (∀ tile1, SplitsTo E width height rect tile tile1 → tile1 = split E width height rect tile) ∧
    (∀ n, tile.fuel width height ≤ n →
      splitAux E width height rect n tile = split E width height rect tile) ∧
    ∀ r : NormalizedRect, |(r.right - r.left) * width| ≤ 1 → |(r.bottom - r.top) * height| ≤ 1 →
      |(r.geometry width height).width| ≤ 2 ∧ |(r.geometry width height).height| ≤ 2 ∧
      (r.geometry width height).area < E.TILES_MAXSIZE := by
  refine ⟨splitAux_splitsTo E width height rect _ tile (le_refl _), fun t1 h1 => h1.eq_split,
    fun n hn => splitAux_fuel_irrel E width height rect n _ tile hn (le_refl _), ?_⟩
  intro r hx hy
  have := geometry_area_le r width height hx hy
  have := E.maxsize_ge
  exact ⟨geometry_side_le r.left r.right width hx, geometry_side_le r.top r.bottom height hy,
    by omega⟩

/-! ### `hasPixmap` and smaller rectangles -/

theorem within_fromRotatedRect (r1 r2 : NormalizedRect) (rot : Rotation) (h : r1.Within r2) :
    (fromRotatedRect r1 rot).Within (fromRotatedRect r2 rot) := by
  obtain ⟨h1, h2, h3, h4⟩ := h
  cases rot <;> refine ⟨?_, ?_, ?_, ?_⟩ <;> simp only [fromRotatedRect] <;> linarith

theorem hasPixmap_tile_mono (r1 r2 : NormalizedRect) (h : r1.Within r2) (t : Tile)
    (h2 : Private.hasPixmap r2 t = true) : Private.hasPixmap r1 t = true := by
  have hi : ∀ a : NormalizedRect, a.intersects r1 = true → a.intersects r2 = true := by
    intro a ha
    obtain ⟨w1, w2, w3, w4⟩ := h
    simp only [NormalizedRect.intersects, decide_eq_true_eq] at ha ⊢
    obtain ⟨a1, a2, a3, a4⟩ := ha
    refine ⟨?_, ?_, ?_, ?_⟩ <;> linarith
  induction t with
  | leaf d =>
    simp only [Private.hasPixmap] at h2 ⊢
    by_cases c1 : d.rect.intersects r1 = true
    · have c2 := hi _ c1
      simp only [c1, c2, Bool.not_true, Bool.false_eq_true, if_false] at h2 ⊢
      exact h2
    · simp [c1]
  | node d a b c e iha ihb ihc ihe =>
    simp only [Private.hasPixmap] at h2 ⊢
    by_cases c1 : d.rect.intersects r1 = true
    · have c2 := hi _ c1
      simp only [c1, c2, Bool.not_true, Bool.false_eq_true, if_false] at h2 ⊢
      by_cases c3 : d.dirty = true
      · simp only [c3, Bool.not_true, Bool.false_eq_true, if_false, Bool.and_eq_true] at h2 ⊢
        exact ⟨⟨⟨iha h2.1.1.1, ihb h2.1.1.2⟩, ihc h2.1.2⟩, ihe h2.2⟩
      · simp [c3]
    · simp [c1]

/-- C28: in every state, when `hasPixmap` answers true for a rectangle it
answers true for every rectangle inside it. -/
theorem hasPixmap_mono (s : TilesManager) (r1 r2 : NormalizedRect) (h : r1.Within r2)
    (h2 : s.hasPixmap r2 = true) : s.hasPixmap r1 = true := by
  simp only [TilesManager.hasPixmap, List.all_eq_true] at h2 ⊢
  intro t ht
  exact hasPixmap_tile_mono _ _ (within_fromRotatedRect r1 r2 s.rotation h) t (h2 t ht)

/-- C28, at an instance: the page filled as a whole, the full page and its
middle. -/
theorem hasPixmap_mono_witness :
    (⟨1 / 4, 1 / 4, 3 / 4, 3 / 4⟩ : NormalizedRect).Within ⟨0, 0, 1, 1⟩ ∧
    fullPageFilled.hasPixmap ⟨0, 0, 1, 1⟩ = true ∧
    fullPageFilled.hasPixmap ⟨1 / 4, 1 / 4, 3 / 4, 3 / 4⟩ = true :=
  have hw : (⟨1 / 4, 1 / 4, 3 / 4, 3 / 4⟩ : NormalizedRect).Within ⟨0, 0, 1, 1⟩ := by
    refine ⟨?_, ?_, ?_, ?_⟩ <;> norm_num
  have h2 : fullPageFilled.hasPixmap ⟨0, 0, 1, 1⟩ = true := by decide!
  ⟨hw, h2, hasPixmap_mono fullPageFilled _ _ hw h2⟩

/-! ### What `split` divides -/

theorem Tile.nTiles_setData (t : Tile) (d : TileData) : (t.setData d).nTiles = t.nTiles := by
  cases t <;> rfl

theorem split_node (E : Env) (w h : Int) (rect : NormalizedRect) (d : TileData) (a b c e : Tile) :
    split E w h rect (.node d a b c e) = .node d a b c e := by
  unfold split
  cases (Tile.node d a b c e).fuel w h <;> rfl

theorem split_leaf_outside (E : Env) (w h : Int) (rect : NormalizedRect) (d : TileData)
    (ho : (rect.isNull || !d.rect.intersects rect) = true) :
    split E w h rect (.leaf d) = .leaf d := by
  have := (SplitsTo.outside d ho : SplitsTo E w h rect (.leaf d) (.leaf d)).eq_split
  exact this.symm

/-- The tiles of a tree that `split` has grown from a leaf: a tile has children
exactly when its region intersects `rect` and reaches the threshold, and the
children of a tile are fresh tiles over its quadrants. -/
theorem splitsTo_leaf_shape {E : Env} {w h : Int} {rect : NormalizedRect} {t t1 : Tile}
    (hr : SplitsTo E w h rect t t1) (hleaf : t.nTiles = 0) (hnull : rect.isNull = false) :
    ∀ u ∈ t1.subtiles,
      (u.nTiles ≠ 0 ↔
        (u.rect.intersects rect = true ∧ E.TILES_MAXSIZE ≤ (u.rect.geometry w h).area)) ∧
      ∀ d a b c e, u = Tile.node d a b c e →
        a.data = ⟨⟨d.rect.left, d.rect.top, (d.rect.left + d.rect.right) / 2,
          (d.rect.top + d.rect.bottom) / 2⟩, none, true, 0⟩ ∧
        b.data = ⟨⟨(d.rect.left + d.rect.right) / 2, d.rect.top, d.rect.right,
          (d.rect.top + d.rect.bottom) / 2⟩, none, true, 0⟩ ∧
        c.data = ⟨⟨d.rect.left, (d.rect.top + d.rect.bottom) / 2,
          (d.rect.left + d.rect.right) / 2, d.rect.bottom⟩, none, true, 0⟩ ∧
        e.data = ⟨⟨(d.rect.left + d.rect.right) / 2, (d.rect.top + d.rect.bottom) / 2,
          d.rect.right, d.rect.bottom⟩, none, true, 0⟩ := by
  induction hr with
  | hasChildren d a b c e => exact absurd hleaf (by simp [Tile.nTiles])
  | outside d h1 =>
    intro u hu
    simp only [Tile.subtiles, List.mem_singleton] at hu
    subst hu
    rw [hnull, Bool.false_or] at h1
    have h1' : d.rect.intersects rect = false := by simpa using h1
    refine ⟨?_, fun d' a b c e he => Tile.noConfusion he⟩
    simp [Tile.nTiles, Tile.rect, Tile.data, h1']
  | small d h1 h2 =>
    intro u hu
    simp only [Tile.subtiles, List.mem_singleton] at hu
    subst hu
    refine ⟨?_, fun d' a b c e he => Tile.noConfusion he⟩
    simp only [Tile.nTiles, ne_eq, not_true_eq_false, Tile.rect, Tile.data, false_iff, not_and,
      not_le]
    exact fun _ => h2
  | divide d a b c e h1 h2 ra rb rc re iha ihb ihc ihe =>
    intro u hu
    rw [hnull, Bool.false_or] at h1
    have h1' : d.rect.intersects rect = true := by simpa using h1
    rcases Tile.mem_subtiles_node.mp hu with rfl | hu | hu | hu | hu
    · refine ⟨?_, ?_⟩
      · simp only [Tile.nTiles, ne_eq, OfNat.ofNat_ne_zero, not_false_eq_true, Tile.rect,
          Tile.data, true_iff]
        exact ⟨h1', h2⟩
      · intro d' a' b' c' e' he
        cases he
        have da := ra.eq_split
        have db := rb.eq_split
        have dc := rc.eq_split
        have de := re.eq_split
        refine ⟨?_, ?_, ?_, ?_⟩
        · rw [da]; exact splitAux_data ..
        · rw [db]; exact splitAux_data ..
        · rw [dc]; exact splitAux_data ..
        · rw [de]; exact splitAux_data ..
    · exact iha rfl u hu
    · exact ihb rfl u hu
    · exact ihc rfl u hu
    · exact ihe rfl u hu

/-- What `split(tile, rect)` does: it leaves the tile as it is when the tile
has children, when `rect` is null, and when `rect` does not intersect the
region of the tile. Otherwise it keeps the fields of the tile, a tile of the
tree it leaves has children exactly when its region intersects `rect` and the
`int` product of the width and the height of its integer rectangle is at least
`TILES_MAXSIZE`, and the children of each such tile are fresh tiles (no
buffer, dirty, `miss` 0) over the four quadrants of its region. -/
theorem split_lazy (E : Env) (width height : Int) (rect : NormalizedRect) (tile : Tile) :
    (tile.nTiles ≠ 0 → split E width height rect tile = tile) ∧
    (rect.isNull = true → split E width height rect tile = tile) ∧
    (tile.rect.intersects rect = false → split E width height rect tile = tile) ∧
    (tile.nTiles = 0 → rect.isNull = false →
      (split E width height rect tile).data = tile.data ∧
      ∀ u ∈ (split E width height rect tile).subtiles,
        (u.nTiles ≠ 0 ↔
          (u.rect.intersects rect = true ∧
            E.TILES_MAXSIZE ≤ (u.rect.geometry width height).area)) ∧
        ∀ d a b c e, u = Tile.node d a b c e →
          a.data = ⟨⟨d.rect.left, d.rect.top, (d.rect.left + d.rect.right) / 2,
            (d.rect.top + d.rect.bottom) / 2⟩, none, true, 0⟩ ∧
          b.data = ⟨⟨(d.rect.left + d.rect.right) / 2, d.rect.top, d.rect.right,
            (d.rect.top + d.rect.bottom) / 2⟩, none, true, 0⟩ ∧
          c.data = ⟨⟨d.rect.left, (d.rect.top + d.rect.bottom) / 2,
            (d.rect.left + d.rect.right) / 2, d.rect.bottom⟩, none, true, 0⟩ ∧
          e.data = ⟨⟨(d.rect.left + d.rect.right) / 2, (d.rect.top + d.rect.bottom) / 2,
            d.rect.right, d.rect.bottom⟩, none, true, 0⟩) := by
  refine ⟨?_, ?_, ?_, ?_⟩
  · intro hn
    cases tile with
    | leaf d => exact absurd rfl hn
    | node d a b c e => exact split_node ..
  · intro hnull
    cases tile with
    | leaf d => exact split_leaf_outside E width height rect d (by simp [hnull])
    | node d a b c e => exact split_node ..
  · intro hi
    cases tile with
    | leaf d =>
      have hi' : d.rect.intersects rect = false := hi
      exact split_leaf_outside E width height rect d (by simp [hi'])
    | node d a b c e => exact split_node ..
  · intro hleaf hnull
    exact ⟨splitAux_data .., splitsTo_leaf_shape
      (splitAux_splitsTo E width height rect _ tile (le_refl _)) hleaf hnull⟩

/-- C22 (fails in the code): on a page of 200000 by 200000 pixels root 0, a
tile without children whose region intersects `[0, 0, 1/1024, 1/1024]` and
whose integer rectangle has 50000 * 50000 = 2500000000 pixels, far above
`TILES_MAXSIZE`, is left undivided by `split`: the product the size test
computes, a product of two `int`s, is -1794967296. On a page of 16000 by 16000
pixels the same call divides root 0 and its first child, as claimed. -/
theorem split_leaves_huge_tile_whole :
    (⟨0, 0, 1 / 1024, 1 / 1024⟩ : NormalizedRect).isNull = false ∧
    (rootRect 0).intersects ⟨0, 0, 1 / 1024, 1 / 1024⟩ = true ∧
    ((rootRect 0).geometry 200000 200000).width = 50000 ∧
    ((rootRect 0).geometry 200000 200000).height = 50000 ∧
    upstream.TILES_MAXSIZE ≤ (50000 : Int) * 50000 ∧
    ((rootRect 0).geometry 200000 200000).area = -1794967296 ∧
    split upstream 200000 200000 ⟨0, 0, 1 / 1024, 1 / 1024⟩ (Tile.fresh (rootRect 0))
      = Tile.fresh (rootRect 0) ∧
    (Tile.fresh (rootRect 0)).nTiles = 0 ∧
    (split upstream 16000 16000 ⟨0, 0, 1 / 1024, 1 / 1024⟩ (Tile.fresh (rootRect 0))).nTiles
      = 4 := by
  decide!

/-! ### The tiles `tilesAt` returns for `allowEmpty = true` -/

theorem fromRotatedRect_toRotatedRect (r : NormalizedRect) (rot : Rotation) :
    fromRotatedRect (toRotatedRect r rot) rot = r := by
  cases rot <;> simp [fromRotatedRect, toRotatedRect]

theorem snapshot_nTiles (rot : Rotation) (t : Tile) : (snapshot rot t).nTiles = t.nTiles := by
  unfold snapshot
  split_ifs
  · exact Tile.nTiles_setData ..
  · rfl

/-- A tile that `split` leaves without children, for a rectangle that is not
null and intersects its region, is below the threshold. -/
theorem split_leaf_small (E : Env) (w h : Int) (rect : NormalizedRect) (t : Tile)
    (hnull : rect.isNull = false) (hi : t.rect.intersects rect = true)
    (hleaf : (split E w h rect t).nTiles = 0) :
    (t.rect.geometry w h).area < E.TILES_MAXSIZE := by
  have hs := splitAux_splitsTo E w h rect _ t (le_refl _)
  have hs' : SplitsTo E w h rect t (split E w h rect t) := hs
  generalize split E w h rect t = t1 at hs' hleaf
  cases hs' with
  | hasChildren d a b c e => exact absurd hleaf (by simp [Tile.nTiles])
  | outside d h1 =>
    have hi' : d.rect.intersects rect = true := hi
    rw [hnull, hi'] at h1
    exact absurd h1 (by simp)
  | small d h1 h2 => exact h2
  | divide d a b c e h1 h2 _ _ _ _ => exact absurd hleaf (by simp [Tile.nTiles])

theorem tilesAtAux_granular (E : Env) (w h : Int) (rot : Rotation) (rect : NormalizedRect)
    (n : Nat) (t : Tile) (res : List Tile) (hnull : rect.isNull = false)
    (hn : t.fuel w h ≤ n) :
    ∀ x ∈ (tilesAtAux E w h rot rect true n t res).2,
      x ∈ res ∨ (x.nTiles = 0 ∧
        ((fromRotatedRect x.rect rot).geometry w h).area < E.TILES_MAXSIZE) := by
  induction n generalizing t res with
  | zero => exact fun x hx => Or.inl hx
  | succ n ih =>
    simp only [tilesAtAux]
    split_ifs with h1 h2
    · exact fun x hx => Or.inl hx
    · intro x hx
      rcases List.mem_append.mp hx with hx | hx
      · exact Or.inl hx
      · right
        have hi : t.rect.intersects rect = true := by simpa using h1
        have hleaf : (split E w h rect t).nTiles = 0 := by simpa using h2
        rw [List.mem_singleton.mp hx, snapshot_nTiles, Tile.nTiles_setData, snapshot_rect,
          fromRotatedRect_toRotatedRect, Tile.rect_setData]
        refine ⟨hleaf, ?_⟩
        have hr : (split E w h rect t).data.rect = t.rect := splitAux_rect ..
        rw [hr]
        exact split_leaf_small E w h rect t hnull hi hleaf
    · have hf := fuel_splitAux_le E w h rect (t.fuel w h) t
      simp only [split]
      generalize splitAux E w h rect (t.fuel w h) t = s at hf
      cases s with
      | leaf d => exact fun x hx => Or.inl hx
      | node d a b c e =>
        obtain ⟨an, bn, cn, en⟩ := fuel_node_children w h d a b c e n (by omega)
        intro x hx
        rcases ih e _ en x hx with hx | hx
        · rcases ih c _ cn x hx with hx | hx
          · rcases ih b _ bn x hx with hx | hx
            · exact ih a _ an x hx
            · exact Or.inr hx
          · exact Or.inr hx
        · exact Or.inr hx

theorem tilesAtRoots_granular (E : Env) (w h : Int) (rot : Rotation) (rect : NormalizedRect)
    (ts : List Tile) (res : List Tile) (hnull : rect.isNull = false) :
    ∀ x ∈ (tilesAtRoots E w h rot rect true ts res).2,
      x ∈ res ∨ (x.nTiles = 0 ∧
        ((fromRotatedRect x.rect rot).geometry w h).area < E.TILES_MAXSIZE) := by
  induction ts generalizing res with
  | nil => exact fun x hx => Or.inl hx
  | cons t ts ih =>
    intro x hx
    simp only [tilesAtRoots] at hx
    rcases ih _ x hx with hx | hx
    · exact tilesAtAux_granular E w h rot rect _ t res hnull (le_refl _) x hx
    · exact Or.inr hx

/-- In every state, for every rectangle that the current rotation does not
map to the null rectangle, every tile returned by `tilesAt(r, allowEmpty =
true)` has no children and has passed the size test of `split`: the `int`
product of the width and the height of the integer rectangle of its region on
the unrotated page is below `TILES_MAXSIZE`. -/
theorem tilesAt_passes_size_test (E : Env) (s : TilesManager) (r : NormalizedRect)
    (hr : (fromRotatedRect r s.rotation).isNull = false) :
    ∀ t ∈ (s.tilesAt E r true).2, t.nTiles = 0 ∧
      ((fromRotatedRect t.rect s.rotation).geometry s.width s.height).area
        < E.TILES_MAXSIZE := by
  intro t ht
  rcases tilesAtRoots_granular E _ _ _ _ s.tiles [] hr t ht with h | h
  · simp at h
  · exact h

/-- C21 (fails in the code): on a fresh page of 200000 by 200000 pixels at
rotation 0, `tilesAt([0, 0, 1/1024, 1/1024], true)`, for a rectangle that is
well formed and not null, returns root 0 alone, without children, over
`[0, 0, 1/4, 1/4]`: a tile whose integer rectangle has 50000 * 50000 =
2500000000 pixels, not below `TILES_MAXSIZE`. The product the size test of
`split` computes, a product of two `int`s, is -1794967296, so the tile is
not divided. -/
theorem tilesAt_returns_huge_tile :
    Reachable upstream (construct 200000 200000 .Rotation0) ∧
    (⟨0, 0, 1 / 1024, 1 / 1024⟩ : NormalizedRect).isNull = false ∧
    (((construct 200000 200000 .Rotation0).tilesAt upstream ⟨0, 0, 1 / 1024, 1 / 1024⟩ true).2.map
      fun t => (t.nTiles, t.rect, (t.rect.geometry 200000 200000).width,
        (t.rect.geometry 200000 200000).height, (t.rect.geometry 200000 200000).area))
      = [(0, rootRect 0, 50000, 50000, -1794967296)] ∧
    ¬ ((50000 : Int) * 50000 < upstream.TILES_MAXSIZE) := by
  refine ⟨Reachable.construct 200000 200000 .Rotation0, ?_⟩
  decide!

/-! ### `setPixmap` on a tile that is not inside the region -/

theorem setPixmap_leaf_not_contained (E : Env) (w h : Int) (rot : Rotation) (pm : QPixmap)
    (rect : NormalizedRect) (d : TileData) (T : Int) (hc : d.rect.containedIn rect = false) :
    Private.setPixmap E w h rot pm rect (.leaf d) T = (.leaf d, T) := by
  obtain ⟨n, hn⟩ : ∃ n, (Tile.leaf d).fuel w h = n + 1 :=
    ⟨(Tile.leaf d).fuel w h - 1, by have := fuel_pos w h (Tile.leaf d); omega⟩
  have hc' : (Tile.leaf d).rect.containedIn rect = false := hc
  simp only [Private.setPixmap, hn, setPixmapAux, hc', Bool.not_false, if_true]
  split_ifs <;> rfl

theorem setPixmapRoots_fresh (E : Env) (w h : Int) (rot : Rotation) (pm : QPixmap)
    (rect : NormalizedRect) (rs : List NormalizedRect) (T : Int)
    (hrs : ∀ q ∈ rs, q.containedIn rect = false) :
    setPixmapRoots E w h rot pm rect (rs.map Tile.fresh) T = (rs.map Tile.fresh, T) := by
  induction rs generalizing T with
  | nil => rfl
  | cons q rs ih =>
    simp only [List.map_cons, setPixmapRoots]
    have hq : Private.setPixmap E w h rot pm rect (Tile.fresh q) T = (Tile.fresh q, T) :=
      setPixmap_leaf_not_contained E w h rot pm rect _ T (hrs q (List.mem_cons_self _ _))
    rw [hq, ih _ (fun q' hq' => hrs q' (List.mem_cons_of_mem _ hq'))]

theorem construct_tiles (w h : Int) (rot : Rotation) :
    (construct w h rot).tiles = ((List.range 16).map rootRect).map Tile.fresh := by
  simp [construct, List.map_map, Function.comp_def]

theorem hasPixmap_construct (w h : Int) (rot : Rotation) (r : NormalizedRect)
    (hwf : r.WellFormed) (hu : r.InUnitSquare) : (construct w h rot).hasPixmap r = false := by
  have := (invalidated (construct w h rot) (construct_inv w h rot) w rot).2 r hwf hu
  simpa [construct, List.map_map, Function.comp_def, markDirty, Tile.fresh] using this

/-- C23: when `setPixmap` reaches a tile without children whose region
intersects the region given and is not inside it, the tile (buffer, dirty flag,
`miss`, region) and `totalPixels` are left as they are. On a freshly
constructed page, `setPixmap(pixmap, r)` for an `r` whose region on the
unrotated page contains no root leaves the state as it is, and when `r` is
well formed and lies in the unit square `hasPixmap(r)` is false before and
after. -/
theorem setPixmap_edge_overlap_leaf (E : Env) (width height : Int) (rotation : Rotation)
    (pixmap : QPixmap) :
    (∀ (rect : NormalizedRect) (d : TileData) (totalPixels : Int),
      d.rect.intersects rect = true → d.rect.containedIn rect = false →
      Private.setPixmap E width height rotation pixmap rect (.leaf d) totalPixels
        = (.leaf d, totalPixels)) ∧
    ∀ r : NormalizedRect,
      (∀ i < 16, (rootRect i).containedIn (fromRotatedRect r rotation) = false) →
      (construct width height rotation).setPixmap E pixmap r = construct width height rotation ∧
      (r.WellFormed → r.InUnitSquare →
        (construct width height rotation).hasPixmap r = false ∧
        ((construct width height rotation).setPixmap E pixmap r).hasPixmap r = false) := by
  refine ⟨fun rect d T _ hc => setPixmap_leaf_not_contained E width height rotation pixmap
    rect d T hc, ?_⟩
  intro r hroots
  have hsame : (construct width height rotation).setPixmap E pixmap r
      = construct width height rotation := by
    unfold TilesManager.setPixmap
    rw [construct_tiles, setPixmapRoots_fresh]
    · rw [← construct_tiles]
    · intro q hq
      obtain ⟨i, hi, rfl⟩ := List.mem_map.mp hq
      exact hroots i (List.mem_range.mp hi)
  refine ⟨hsame, fun hwf hu => ⟨hasPixmap_construct width height rotation r hwf hu, ?_⟩⟩
  rw [hsame]
  exact hasPixmap_construct width height rotation r hwf hu

/-- C23, at an instance: a fresh page of 1000 by 1000 pixels at rotation 90 and
the region `[0, 0, 1/5, 1/5]`, which overlaps root 12 of the unrotated page and
contains no root. -/
theorem setPixmap_edge_overlap_leaf_witness :
    (TilesManager.rootRect 12).intersects (fromRotatedRect ⟨0, 0, 1 / 5, 1 / 5⟩ .Rotation90) = true ∧
    (construct 1000 1000 .Rotation90).setPixmap upstream ⟨200, 200⟩ ⟨0, 0, 1 / 5, 1 / 5⟩
      = construct 1000 1000 .Rotation90 ∧
    (construct 1000 1000 .Rotation90).hasPixmap ⟨0, 0, 1 / 5, 1 / 5⟩ = false ∧
    ((construct 1000 1000 .Rotation90).setPixmap upstream ⟨200, 200⟩
      ⟨0, 0, 1 / 5, 1 / 5⟩).hasPixmap ⟨0, 0, 1 / 5, 1 / 5⟩ = false :=
  ⟨by decide!,
    ((setPixmap_edge_overlap_leaf upstream 1000 1000 .Rotation90 ⟨200, 200⟩).2
      ⟨0, 0, 1 / 5, 1 / 5⟩ (by decide!)).1,
    ((setPixmap_edge_overlap_leaf upstream 1000 1000 .Rotation90 ⟨200, 200⟩).2
      ⟨0, 0, 1 / 5, 1 / 5⟩ (by decide!)).2 (by constructor <;> norm_num)
      (by refine ⟨?_, ?_, ?_, ?_⟩ <;> norm_num)⟩

/-! ### The merge branch of `setPixmap` -/

/-- What the merge branch of `setPixmap` leaves: the tile without children,
over the same region, with a fresh buffer, not dirty; `totalPixels` loses the
buffers of the four children and of the tile itself, and gains the new
buffer. The buffers of deeper descendants are not subtracted. -/
theorem setPixmap_merge (E : Env) (w h : Int) (rot : Rotation) (pm : QPixmap)
    (rect : NormalizedRect) (d : TileData) (a b c e : Tile) (T : Int)
    (hw : (Tile.node d a b c e).Wf) (hi : d.rect.intersects rect = true)
    (hc : d.rect.containedIn rect = true)
    (hsmall : (d.rect.geometry w h).area < E.TILES_MAXSIZE) :
    Private.setPixmap E w h rot pm rect (.node d a b c e) T =
      (.leaf { rect := d.rect
               pixmap := some (E.copy pm ((d.rect.geometry w h).translatedBack
                 ((toRotatedRect rect rot).geometry w h)))
               dirty := false
               miss := d.miss },
        dropPixels (dropPixels (dropPixels (dropPixels (dropPixels T a.pixmap) b.pixmap)
          c.pixmap) e.pixmap) d.pixmap
          + (E.copy pm ((d.rect.geometry w h).translatedBack
              ((toRotatedRect rect rot).geometry w h))).pixels) := by
  obtain ⟨n, hn⟩ : ∃ n, (Tile.node d a b c e).fuel w h = n + 1 :=
    ⟨(Tile.node d a b c e).fuel w h - 1, by
      have := fuel_pos w h (Tile.node d a b c e); omega⟩
  have hi' : (Tile.node d a b c e).rect.intersects rect = true := hi
  have hc' : (Tile.node d a b c e).rect.containedIn rect = true := hc
  simp only [Private.setPixmap, hn, setPixmapAux, hi', hc', Bool.not_true, Bool.false_eq_true,
    if_false, not_le.mpr hsmall, mergeRect_children d a b c e hw]

theorem reachable_grandchildFilledShrunk : Reachable upstream grandchildFilledShrunk :=
  Reachable.setHeight _ (Reachable.setWidth _ (Reachable.setPixmap _ _
    (Reachable.tilesAt _ _ (Reachable.construct 16000 16000 .Rotation0))))

/-- C24 (fails in the code): in the reachable state `grandchildFilledShrunk`
root 0 has children, lies inside `[0, 0, 1/4, 1/4]` and is below the threshold;
the only buffer of the forest, 1000 by 1000 pixels, is held by a grandchild of
root 0 and `totalPixels` is 1000000. After `setPixmap(buffer, [0, 0, 1/4,
1/4])` root 0 has no children, has its region, holds a buffer of 250 by 250
pixels and is not dirty, and the buffers hold 62500 pixels, but `totalPixels`
is 1062500: the buffer of the grandchild was removed with the subtree and not
subtracted. -/
theorem merge_keeps_pixels_of_grandchildren :
    Reachable upstream grandchildFilledShrunk ∧
    (grandchildFilledShrunk.tiles.head?.map fun t =>
      (t.nTiles, t.rect.intersects ⟨0, 0, 1 / 4, 1 / 4⟩, t.rect.containedIn ⟨0, 0, 1 / 4, 1 / 4⟩,
        (t.rect.geometry 1000 1000).area, t.bufferPixels))
      = some (4, true, true, 62500, 1000000) ∧
    pixmapAt grandchildFilledShrunk.tiles [0, 0, 0] = some ⟨1000, 1000⟩ ∧
    grandchildFilledShrunk.totalPixels = 1000000 ∧
    grandchildFilledShrunk.bufferPixels = 1000000 ∧
    ((grandchildFilledShrunk.setPixmap upstream ⟨1000, 1000⟩ ⟨0, 0, 1 / 4, 1 / 4⟩).tiles.head?.map
      fun t => (t.nTiles, t.rect, t.pixmap, t.dirty))
      = some (0, rootRect 0, some ⟨250, 250⟩, false) ∧
    (grandchildFilledShrunk.setPixmap upstream ⟨1000, 1000⟩ ⟨0, 0, 1 / 4, 1 / 4⟩).bufferPixels
      = 62500 ∧
    (grandchildFilledShrunk.setPixmap upstream ⟨1000, 1000⟩ ⟨0, 0, 1 / 4, 1 / 4⟩).totalPixels
      = 1062500 ∧
    (1062500 : Int) ≠ 1000000 - 1000000 + 62500 := by
  refine ⟨reachable_grandchildFilledShrunk, ?_⟩
  decide!

/-! ### The candidates of `cleanupPixmapMemory` -/

/-- C29: in every reachable state a tile that holds a buffer has no descendant
that holds a buffer, and the list `rankedTiles` that the ranking pass of
`cleanupPixmapMemory` builds has no pointer twice and holds a pointer exactly
when the tile it leads to holds a buffer. -/
theorem no_buffer_below_buffer (E : Env) (s : TilesManager) (hs : Reachable E s) :
    (∀ t ∈ s.allTiles, ∀ d a b c e, t = Tile.node d a b c e → d.pixmap.isSome = true →
      ∀ u ∈ a.subtiles ++ b.subtiles ++ c.subtiles ++ e.subtiles, u.pixmap = none) ∧
    (rankRoots 0 s.tiles []).2.Nodup ∧
    ∀ ptr : TilePtr, ptr ∈ (rankRoots 0 s.tiles []).2 ↔ (pixmapAt s.tiles ptr).isSome = true := by
  have hb := hs.inv.roots_bufOk
  refine ⟨?_, ?_, ?_⟩
  · intro t ht d a b c e hnode hp u hu
    obtain ⟨root, hr, hsub⟩ := mem_allTiles.mp ht
    have hbt := (hb root hr).subtiles_bufOk t hsub
    rw [hnode] at hbt
    obtain ⟨ha, hb', hc, he⟩ := hbt.1 hp
    simp only [List.mem_append] at hu
    rcases hu with ((hu | hu) | hu) | hu
    · exact pixmap_none_of_not_holdsBuffer ha u hu
    · exact pixmap_none_of_not_holdsBuffer hb' u hu
    · exact pixmap_none_of_not_holdsBuffer hc u hu
    · exact pixmap_none_of_not_holdsBuffer he u hu
  · rw [rankRoots_snd, List.nil_append]
    exact nodup_forestCandidates 0 s.tiles
  · intro ptr
    rw [rankRoots_snd, List.nil_append, mem_forestCandidates 0 s.tiles hb]
    constructor
    · rintro ⟨i, p, rfl, hp⟩
      simpa using hp
    · intro hp
      cases ptr with
      | nil => simp at hp
      | cons i p => exact ⟨i, p, by simp, hp⟩

/-- C29, at an instance: the state `rootZeroSplit`, whose root 0 holds a buffer
and has children. -/
theorem no_buffer_below_buffer_witness :
    (∀ t ∈ rootZeroSplit.allTiles, ∀ d a b c e, t = Tile.node d a b c e →
      d.pixmap.isSome = true →
      ∀ u ∈ a.subtiles ++ b.subtiles ++ c.subtiles ++ e.subtiles, u.pixmap = none) ∧
    (rankRoots 0 rootZeroSplit.tiles []).2.Nodup ∧
    ∀ ptr : TilePtr, ptr ∈ (rankRoots 0 rootZeroSplit.tiles []).2 ↔
      (pixmapAt rootZeroSplit.tiles ptr).isSome = true :=
  no_buffer_below_buffer upstream rootZeroSplit reachable_rootZeroSplit

/-! ### The tiles `tilesAt` returns for `allowEmpty = false` -/

theorem snapshot_data (rot : Rotation) (t : Tile) :
    (snapshot rot t).data = { t.data with rect := toRotatedRect t.rect rot } := by
  unfold snapshot
  split_ifs with h
  · simp
  · simp only [ne_eq, not_not] at h
    subst h
    rfl

theorem filter_nil_of_forall {α : Type} (p : α → Bool) (l : List α) (h : ∀ x ∈ l, p x = false) :
    l.filter p = [] := by
  rw [List.filter_eq_nil_iff]
  intro x hx
  rw [h x hx]
  exact Bool.false_ne_true

/-- The buffer-holding tiles of a tree whose regions intersect `rect`, when no
buffer lies below a buffer and the tile itself holds one: the tile alone. -/
theorem painted_of_buffer (rect : NormalizedRect) (t : Tile) (hb : t.BufOk)
    (hp : t.pixmap.isSome = true) (hi : t.rect.intersects rect = true) :
    t.subtiles.filter (fun u => u.pixmap.isSome && u.rect.intersects rect) = [t] := by
  cases t with
  | leaf d =>
    have hp' : (Tile.leaf d).pixmap.isSome = true := hp
    simp [Tile.subtiles, List.filter, hp', hi]
  | node d a b c e =>
    have hp' : (Tile.node d a b c e).pixmap.isSome = true := hp
    obtain ⟨ha, hb', hc, he⟩ := hb.1 hp
    have hnone : ∀ x : Tile, x.holdsBuffer = false →
        x.subtiles.filter (fun u => u.pixmap.isSome && u.rect.intersects rect) = [] := by
      intro x hx
      apply filter_nil_of_forall
      intro u hu
      simp [pixmap_none_of_not_holdsBuffer hx u hu]
    simp only [Tile.subtiles, List.filter_cons, hp', hi, Bool.and_self, if_true,
      List.filter_append, hnone a ha, hnone b hb', hnone c hc, hnone e he, List.append_nil]

theorem painted_of_outside (rect : NormalizedRect) (t : Tile) (hw : t.Wf)
    (hi : t.rect.intersects rect = false) :
    t.subtiles.filter (fun u => u.pixmap.isSome && u.rect.intersects rect) = [] := by
  apply filter_nil_of_forall
  intro u hu
  have : u.rect.intersects rect = false := by
    by_contra hc
    have hc' : u.rect.intersects rect = true := by simpa using hc
    have := intersects_of_within _ _ rect (hw.subtiles_within u hu) hc'
    rw [hi] at this
    exact Bool.false_ne_true this
  simp [this]

/-- The tiles `split` adds hold no buffer. -/
theorem split_painted (E : Env) (w h : Int) (rect : NormalizedRect) (p : Tile → Bool)
    (hp : ∀ u v : Tile, u.data = v.data → p u = p v)
    (hnone : ∀ u : Tile, u.pixmap = none → p u = false) (t : Tile) :
    ((split E w h rect t).subtiles.filter p).map Tile.data
      = (t.subtiles.filter p).map Tile.data := by
  cases t with
  | node d a b c e => rw [split_node]
  | leaf d =>
    rcases splitAux_leaf_cases E w h rect ((Tile.leaf d).fuel w h) d with hs | ⟨a, b, c, e, hs, ha, hb, hc, he⟩
    · rw [split, hs]
    · rw [split, hs]
      have hz : ∀ x : Tile, x.holdsBuffer = false → x.subtiles.filter p = [] := by
        intro x hx
        apply filter_nil_of_forall
        intro u hu
        exact hnone u (pixmap_none_of_not_holdsBuffer hx u hu)
      simp only [Tile.subtiles, List.filter_cons, List.filter_append, hz a ha, hz b hb, hz c hc,
        hz e he, List.append_nil, List.filter_nil]
      rw [hp (Tile.node d a b c e) (Tile.leaf d) rfl]
      split_ifs <;> rfl

theorem tilesAtAux_paint (E : Env) (w h : Int) (rot : Rotation) (rect : NormalizedRect)
    (n : Nat) (t : Tile) (res : List Tile) (hw : t.Wf) (hb : t.BufOk) (hn : t.fuel w h ≤ n) :
    (tilesAtAux E w h rot rect false n t res).2.map Tile.data
      = res.map Tile.data ++
        ((t.subtiles.filter (fun u => u.pixmap.isSome && u.rect.intersects rect)).map
          Tile.data).map
          (fun d => { d with miss := max (d.miss - 1) RANGE_MIN
                             rect := toRotatedRect d.rect rot }) := by
  induction n generalizing t res with
  | zero => have := fuel_pos w h t; omega
  | succ n ih =>
    simp only [tilesAtAux]
    by_cases h1 : t.rect.intersects rect = true
    · have hsw := splitAux_wf E w h rect (t.fuel w h) t hw
      have hsb := splitAux_bufOk E w h rect (t.fuel w h) t hb
      have hsr := splitAux_rect E w h rect (t.fuel w h) t
      have hsf := fuel_splitAux_le E w h rect (t.fuel w h) t
      have hsp := split_painted E w h rect (fun u => u.pixmap.isSome && u.rect.intersects rect)
        (fun u v huv => by simp [Tile.pixmap, Tile.rect, huv])
        (fun u hu => by simp [hu]) t
      rw [← hsp]
      simp only [h1, Bool.not_true, Bool.false_eq_true, if_false, Bool.false_and, Bool.not_false,
        Bool.true_and, Bool.false_or]
      rw [← hsr] at h1
      simp only [split] at hsp ⊢
      generalize splitAux E w h rect (t.fuel w h) t = s at hsw hsb hsf h1
      by_cases h2 : s.pixmap.isSome = true
      · simp only [h2, if_true]
        rw [painted_of_buffer rect s hsb h2 h1]
        simp [snapshot_data, Tile.rect, Tile.miss]
      · simp only [h2, Bool.false_eq_true, if_false]
        have h2' : s.pixmap = none := by simpa using h2
        cases s with
        | leaf d =>
          have : (Tile.leaf d).subtiles.filter
              (fun u => u.pixmap.isSome && u.rect.intersects rect) = [] := by
            apply filter_nil_of_forall
            intro u hu
            simp only [Tile.subtiles, List.mem_singleton] at hu
            simp [hu, h2']
          rw [this]
          simp
        | node d a b c e =>
          obtain ⟨an, bn, cn, en⟩ := fuel_node_children w h d a b c e n (by omega)
          obtain ⟨-, -, -, -, -, -, wa, wb, wc, we⟩ := hsw
          obtain ⟨-, ba, bb, bc, be⟩ := hsb
          have h2'' : (Tile.node d a b c e).pixmap.isSome = false := by simp [h2']
          simp only [ih e _ we be en, ih c _ wc bc cn, ih b _ wb bb bn, ih a _ wa ba an]
          simp only [Tile.subtiles, List.filter_cons, h2'', Bool.false_and, Bool.false_eq_true,
            if_false, List.filter_append, List.map_append, List.append_assoc]
    · have h1' : t.rect.intersects rect = false := by simpa using h1
      simp only [h1', Bool.not_false, if_true]
      rw [painted_of_outside rect t hw h1']
      simp

theorem tilesAtRoots_paint (E : Env) (w h : Int) (rot : Rotation) (rect : NormalizedRect)
    (ts : List Tile) (res : List Tile) (hts : ∀ t ∈ ts, t.Wf ∧ t.BufOk) :
    (tilesAtRoots E w h rot rect false ts res).2.map Tile.data
      = res.map Tile.data ++
        (((ts.flatMap Tile.subtiles).filter
            (fun u => u.pixmap.isSome && u.rect.intersects rect)).map Tile.data).map
          (fun d => { d with miss := max (d.miss - 1) RANGE_MIN
                             rect := toRotatedRect d.rect rot }) := by
  induction ts generalizing res with
  | nil => simp [tilesAtRoots]
  | cons t ts ih =>
    simp only [tilesAtRoots]
    rw [ih _ (fun v hv => hts v (List.mem_cons_of_mem _ hv))]
    simp only [Private.tilesAt]
    rw [tilesAtAux_paint E w h rot rect _ t res (hts t (List.mem_cons_self _ _)).1
      (hts t (List.mem_cons_self _ _)).2 (le_refl _)]
    simp only [List.flatMap_cons, List.filter_append, List.map_append, List.append_assoc]


theorem reachable_rootZeroFilledWidened : Reachable upstream rootZeroFilledWidened :=
  Reachable.setWidth _ reachable_rootZeroFilled

/-- C25 (as stated, false): in the reachable state `rootZeroFilledWidened` root
0 holds a buffer and is far above the threshold. `tilesAt([0, 0, 1/10, 1/10],
false)` splits it and returns it, with its buffer and its four children: the
tile returned is not a leaf. -/
theorem tilesAt_paint_returns_tile_with_children :
    Reachable upstream rootZeroFilledWidened ∧
    ((rootZeroFilledWidened.tilesAt upstream ⟨0, 0, 1 / 10, 1 / 10⟩ false).2.map
      fun t => (t.nTiles, t.pixmap)) = [(4, some ⟨250, 250⟩)] ∧
    ¬ ∀ t ∈ (rootZeroFilledWidened.tilesAt upstream ⟨0, 0, 1 / 10, 1 / 10⟩ false).2,
      t.nTiles = 0 := by
  refine ⟨reachable_rootZeroFilledWidened, ?_⟩
  decide!

/-- C25 (amended): in every reachable state the tiles `tilesAt(r, allowEmpty =
false)` returns are, in the order of the forest and each once, the tiles
that hold a buffer and whose region intersects `r` mapped to the unrotated
page, with or without children; each is returned with its `miss` lowered by
one (not below `RANGE_MIN`) and its region in the rotation of the display. So
every tile returned holds a buffer and its region on the unrotated page
intersects the mapped `r`. -/
theorem tilesAt_paint (E : Env) (s : TilesManager) (hs : Reachable E s) (r : NormalizedRect) :
    (s.tilesAt E r false).2.map Tile.data
      = ((s.allTiles.filter (fun u =>
            u.pixmap.isSome && u.rect.intersects (fromRotatedRect r s.rotation))).map
          Tile.data).map
          (fun d => { d with miss := max (d.miss - 1) RANGE_MIN
                             rect := toRotatedRect d.rect s.rotation }) ∧
    ∀ t ∈ (s.tilesAt E r false).2, t.pixmap.isSome = true ∧
      (fromRotatedRect t.rect s.rotation).intersects (fromRotatedRect r s.rotation) = true := by
  have hts : ∀ t ∈ s.tiles, t.Wf ∧ t.BufOk := by
    intro t ht
    obtain ⟨i, -, hok⟩ := rootOk_of_mem hs.inv t ht
    exact ⟨hok.2.1, hok.2.2⟩
  have key := tilesAtRoots_paint E s.width s.height s.rotation (fromRotatedRect r s.rotation)
    s.tiles [] hts
  rw [List.map_nil, List.nil_append] at key
  refine ⟨key, ?_⟩
  intro t ht
  have hmem : t.data ∈ (s.tilesAt E r false).2.map Tile.data := List.mem_map_of_mem _ ht
  have key' : (s.tilesAt E r false).2.map Tile.data = _ := key
  rw [key'] at hmem
  obtain ⟨d, hd, hdt⟩ := List.mem_map.mp hmem
  obtain ⟨u, hu, rfl⟩ := List.mem_map.mp hd
  obtain ⟨-, hpu⟩ := List.mem_filter.mp hu
  rw [Bool.and_eq_true] at hpu
  have e1 : t.pixmap = u.pixmap := by
    simp only [Tile.pixmap, ← hdt]
  have e2 : t.rect = toRotatedRect u.rect s.rotation := by
    simp only [Tile.rect, ← hdt]
  rw [e1, e2, fromRotatedRect_toRotatedRect]
  exact hpu

/-- C25 (amended), at an instance: the state `rootZeroFilledWidened` and the
region `[0, 0, 1/10, 1/10]`. -/
theorem tilesAt_paint_witness :
    (rootZeroFilledWidened.tilesAt upstream ⟨0, 0, 1 / 10, 1 / 10⟩ false).2.map Tile.data
      = ((rootZeroFilledWidened.allTiles.filter (fun u =>
            u.pixmap.isSome && u.rect.intersects
              (fromRotatedRect ⟨0, 0, 1 / 10, 1 / 10⟩ rootZeroFilledWidened.rotation))).map
          Tile.data).map
          (fun d => { d with miss := max (d.miss - 1) RANGE_MIN
                             rect := toRotatedRect d.rect rootZeroFilledWidened.rotation }) ∧
    ∀ t ∈ (rootZeroFilledWidened.tilesAt upstream ⟨0, 0, 1 / 10, 1 / 10⟩ false).2,
      t.pixmap.isSome = true ∧
      (fromRotatedRect t.rect rootZeroFilledWidened.rotation).intersects
        (fromRotatedRect ⟨0, 0, 1 / 10, 1 / 10⟩ rootZeroFilledWidened.rotation) = true :=
  tilesAt_paint upstream rootZeroFilledWidened reachable_rootZeroFilledWidened
    ⟨0, 0, 1 / 10, 1 / 10⟩

/-! ### The rotations 0 and 180 in `double` arithmetic -/

theorem Double.roundHalfEven_intCast (z : Int) : Double.roundHalfEven (z : ℚ) = z := by
  simp [Double.roundHalfEven]

/-- A number that is a multiple of the spacing of its binade is a `double`. -/
theorem Double.round_of_multiple (q : ℚ) (z : Int)
    (h : q = z * 2 ^ (Double.exponent q - 52)) : Double.round q = q := by
  unfold Double.round
  split_ifs with h0
  · exact h0.symm
  · have hu : (2 : ℚ) ^ (Double.exponent q - 52) ≠ 0 := zpow_ne_zero _ (by norm_num)
    have hz : q / 2 ^ (Double.exponent q - 52) = z := by
      rw [div_eq_iff hu]
      exact h
    rw [hz, Double.roundHalfEven_intCast]
    exact h.symm

theorem Double.round_of_grid (m : Nat) (hm : m ≤ 2 ^ 53) :
    Double.round ((m : ℚ) / 2 ^ 53) = (m : ℚ) / 2 ^ 53 := by
  rcases Nat.eq_zero_or_pos m with rfl | hpos
  · simp [Double.round]
  · have hm1 : (1 : ℚ) ≤ m := by exact_mod_cast hpos
    have hm2 : (m : ℚ) ≤ 2 ^ 53 := by exact_mod_cast hm
    have hq0 : (0 : ℚ) < (m : ℚ) / 2 ^ 53 := by positivity
    have hq1 : (m : ℚ) / 2 ^ 53 ≤ 1 := by
      rw [div_le_one (by positivity)]
      exact hm2
    have habs : |(m : ℚ) / 2 ^ 53| = (m : ℚ) / 2 ^ 53 := abs_of_pos hq0
    have hlo : (-53 : Int) ≤ Int.log 2 ((m : ℚ) / 2 ^ 53) := by
      rw [← Int.zpow_le_iff_le_log (by norm_num) hq0]
      rw [le_div_iff₀ (by positivity)]
      norm_num
      linarith
    have hhi : Int.log 2 ((m : ℚ) / 2 ^ 53) < 1 := by
      rw [← Int.lt_zpow_iff_log_lt (by norm_num) hq0]
      norm_num
      linarith
    have he : Double.exponent ((m : ℚ) / 2 ^ 53) = Int.log 2 ((m : ℚ) / 2 ^ 53) := by
      unfold Double.exponent
      rw [habs]
      omega
    have hself := Int.zpow_log_le_self (b := 2) (r := (m : ℚ) / 2 ^ 53) (by norm_num) hq0
    generalize Int.log 2 ((m : ℚ) / 2 ^ 53) = L at hlo hhi he hself
    have hLcases : L = 0 ∨ L ≤ -1 := by omega
    rcases hLcases with hL | hL
    · subst hL
      have hq : (m : ℚ) / 2 ^ 53 = 1 := by
        apply le_antisymm hq1
        simpa using hself
      apply Double.round_of_multiple _ (2 ^ 52)
      rw [he, hq]
      norm_num
    · obtain ⟨k, hk⟩ : ∃ k : Nat, (k : Int) = -1 - L := ⟨(-1 - L).toNat, by omega⟩
      apply Double.round_of_multiple _ ((m : Int) * 2 ^ k)
      rw [he]
      have e1 : L - 52 = -53 - (k : Int) := by omega
      rw [e1, zpow_sub₀ (by norm_num), zpow_natCast]
      push_cast
      have h2k : (2 : ℚ) ^ k ≠ 0 := by positivity
      field_simp
      ring

theorem Double.sub_one_of_onGrid (x : ℚ) (hx : Double.OnGrid x) :
    Double.OnGrid (1 - x) ∧ Double.sub 1 x = 1 - x := by
  obtain ⟨m, hm, rfl⟩ := hx
  have hc : (1 : ℚ) - (m : ℚ) / 2 ^ 53 = ((2 ^ 53 - m : Nat) : ℚ) / 2 ^ 53 := by
    rw [Nat.cast_sub hm]
    push_cast
    field_simp
    norm_num
  refine ⟨⟨2 ^ 53 - m, Nat.sub_le _ _, hc⟩, ?_⟩
  unfold Double.sub
  rw [hc]
  exact Double.round_of_grid _ (Nat.sub_le _ _)

theorem Double.sub_one_twice (x : ℚ) (hx : Double.OnGrid x) :
    Double.sub 1 (Double.sub 1 x) = x := by
  obtain ⟨h1, h2⟩ := Double.sub_one_of_onGrid x hx
  rw [h2, (Double.sub_one_of_onGrid _ h1).2]
  ring


/-- C19 (as stated, false): take the rectangle `[0, 0, x, x]` where `x` is the
`double` nearest to 1/10, the value of the literal `0.1`; its coordinates are
`double`s. At rotation 180 `toRotatedRect` and `fromRotatedRect` map it to
`[0.9, 0.9, 1, 1]` (0.9 rounded up to a `double`), and applying them once more
gives `[0, 0, y, y]` with `y = 900719925474099 / 2^53`, one unit in the last
place below `x`: applying either function twice does not return the
rectangle. -/
theorem rotation_180_twice_not_identity :
    Double.round (1 / 10) = 3602879701896397 / 36028797018963968 ∧
    Double.round (3602879701896397 / 36028797018963968)
      = 3602879701896397 / 36028797018963968 ∧
    Double.toRotatedRect ⟨0, 0, 3602879701896397 / 36028797018963968,
        3602879701896397 / 36028797018963968⟩ .Rotation180
      = ⟨8106479329266893 / 9007199254740992, 8106479329266893 / 9007199254740992, 1, 1⟩ ∧
    Double.toRotatedRect (Double.toRotatedRect ⟨0, 0, 3602879701896397 / 36028797018963968,
        3602879701896397 / 36028797018963968⟩ .Rotation180) .Rotation180
      = ⟨0, 0, 900719925474099 / 9007199254740992, 900719925474099 / 9007199254740992⟩ ∧
    Double.toRotatedRect (Double.toRotatedRect ⟨0, 0, 3602879701896397 / 36028797018963968,
        3602879701896397 / 36028797018963968⟩ .Rotation180) .Rotation180
      ≠ ⟨0, 0, 3602879701896397 / 36028797018963968, 3602879701896397 / 36028797018963968⟩ ∧
    Double.fromRotatedRect (Double.fromRotatedRect ⟨0, 0, 3602879701896397 / 36028797018963968,
        3602879701896397 / 36028797018963968⟩ .Rotation180) .Rotation180
      ≠ ⟨0, 0, 3602879701896397 / 36028797018963968, 3602879701896397 / 36028797018963968⟩ := by
  decide!

/-- C19 (amended): in `double` arithmetic, at rotation 0 `toRotatedRect` and
`fromRotatedRect` return the rectangle unchanged, once and twice; at rotation
180 both return `(1 - right, 1 - bottom, 1 - left, 1 - top)`, each coordinate
being the `double` nearest to the difference, and applying either of them
twice gives the rectangle back when its four coordinates are multiples of
`2^-53` between 0 and 1. In exact arithmetic all of this holds for every
rectangle. -/
theorem rotation_0_identity_180_involution (r : NormalizedRect) :
    (Double.toRotatedRect r .Rotation0 = r ∧ Double.fromRotatedRect r .Rotation0 = r ∧
      Double.toRotatedRect r .Rotation180
        = ⟨Double.sub 1 r.right, Double.sub 1 r.bottom, Double.sub 1 r.left,
            Double.sub 1 r.top⟩ ∧
      Double.fromRotatedRect r .Rotation180
        = ⟨Double.sub 1 r.right, Double.sub 1 r.bottom, Double.sub 1 r.left,
            Double.sub 1 r.top⟩ ∧
      Double.toRotatedRect (Double.toRotatedRect r .Rotation0) .Rotation0 = r ∧
      Double.fromRotatedRect (Double.fromRotatedRect r .Rotation0) .Rotation0 = r ∧
      (Double.OnGrid r.left → Double.OnGrid r.top → Double.OnGrid r.right →
        Double.OnGrid r.bottom →
        Double.toRotatedRect (Double.toRotatedRect r .Rotation180) .Rotation180 = r ∧
        Double.fromRotatedRect (Double.fromRotatedRect r .Rotation180) .Rotation180 = r)) ∧
    (toRotatedRect r .Rotation0 = r ∧ fromRotatedRect r .Rotation0 = r ∧
      toRotatedRect r .Rotation180 = ⟨1 - r.right, 1 - r.bottom, 1 - r.left, 1 - r.top⟩ ∧
      fromRotatedRect r .Rotation180 = ⟨1 - r.right, 1 - r.bottom, 1 - r.left, 1 - r.top⟩ ∧
      toRotatedRect (toRotatedRect r .Rotation180) .Rotation180 = r ∧
      fromRotatedRect (fromRotatedRect r .Rotation180) .Rotation180 = r ∧
      toRotatedRect (toRotatedRect r .Rotation0) .Rotation0 = r ∧
      fromRotatedRect (fromRotatedRect r .Rotation0) .Rotation0 = r) := by
  refine ⟨⟨rfl, rfl, rfl, rfl, rfl, rfl, fun hl ht hr hb => ?_⟩,
    ⟨rfl, rfl, rfl, rfl, ?_, ?_, rfl, rfl⟩⟩
  · simp only [Double.toRotatedRect, Double.fromRotatedRect, Double.sub_one_twice _ hl,
      Double.sub_one_twice _ ht, Double.sub_one_twice _ hr, Double.sub_one_twice _ hb, and_self]
  · simp [toRotatedRect, fromRotatedRect]
  · simp [toRotatedRect, fromRotatedRect]

/-- C19 (amended), at an instance: root 0, `[0, 0, 1/4, 1/4]`, goes to
`[3/4, 3/4, 1, 1]` and back in `double` arithmetic. -/
theorem rotation_0_identity_180_involution_witness :
    Double.toRotatedRect ⟨0, 0, 1 / 4, 1 / 4⟩ .Rotation180 = ⟨3 / 4, 3 / 4, 1, 1⟩ ∧
    Double.toRotatedRect (Double.toRotatedRect ⟨0, 0, 1 / 4, 1 / 4⟩ .Rotation180) .Rotation180
      = ⟨0, 0, 1 / 4, 1 / 4⟩ ∧
    Double.fromRotatedRect (Double.fromRotatedRect ⟨0, 0, 1 / 4, 1 / 4⟩ .Rotation180)
      .Rotation180 = ⟨0, 0, 1 / 4, 1 / 4⟩ :=
  have h0 : Double.OnGrid 0 := ⟨0, by norm_num, by norm_num⟩
  have h4 : Double.OnGrid (1 / 4) := ⟨2 ^ 51, by norm_num, by norm_num⟩
  ⟨by decide!,
    ((rotation_0_identity_180_involution ⟨0, 0, 1 / 4, 1 / 4⟩).1.2.2.2.2.2.2 h0 h0 h4 h4).1,
    ((rotation_0_identity_180_involution ⟨0, 0, 1 / 4, 1 / 4⟩).1.2.2.2.2.2.2 h0 h0 h4 h4).2⟩

end Okular
